import Mathlib

/-!
# Generic Directed Weighted Graph (`src/Graph.h`)

A shallow embedding of `gdwg::Graph<N, E>`.

The C++ class keeps a `std::map<N, std::shared_ptr<GNode>>`.  A `GNode` owns a
`std::set<std::shared_ptr<GEdge>>`, and a `GEdge` refers back to its two end
points through `std::weak_ptr<GNode>`.  Nodes are therefore heap objects with a
reference count: they are shared between a graph and its shallow copies, they
are renamed in place, and a weak reference to a node whose last owner went away
is expired.

* `Heap` is the store of `GNode` objects.  An address is an index into the
  heap, a cell carries the strong count of the control block, and a destroyed
  node leaves `none` behind, so that addresses are never reused and an expired
  `weak_ptr` stays expired.
* Edges are owned by exactly one node, so the set of edge pointers of a node is
  kept inside the node as a list of edges.  The `std::set` iterates in the
  order of the edge addresses, which the program does not control; the list
  order stands for it and a newly made edge goes to the back.
* `node_cont` is an association list kept in ascending key order.
* Dereferencing a null pointer or an end iterator, and incrementing an
  iterator that an erase has invalidated, is undefined behaviour; the
  embedding reports it as `Err.fault`.
* Every operation returns the heap and the graph it leaves behind together
  with its outcome, also when it throws.
* The two listings return the lines they write to `std::cout`, in order.
* The cursor `customiter` is the key it stands at, `none` for `end()`; loops
  over a map that they change themselves are run with fuel.
-/

namespace gdwg

/-! ## Data model -/

/-- The class `GEdge` (lines 111-132): two weak references and the weight. -/
structure GEdge (E : Type) where
  source : Nat
  destin : Nat
  valofEdge : E
deriving DecidableEq, Repr

/-- The class `GNode` (lines 95-108). -/
structure GNode (N E : Type) where
  edges : List (GEdge E)
  valueofNode : N
deriving DecidableEq, Repr

/-- A heap cell: the strong count of the `shared_ptr` control block and the node. -/
structure Cell (N E : Type) where
  strong : Nat
  node : GNode N E
deriving DecidableEq, Repr

/-- The store of nodes; `none` marks a destroyed node. -/
abbrev Heap (N E : Type) := List (Option (Cell N E))

deriving instance DecidableEq for Except

/-- What a call can end with other than a value: the four `std::runtime_error`
messages of the source, and undefined behaviour. -/
inductive Err where
  | originDoesNotExist
  | destDoesNotExist
  | originDoesNotExistReplace
  | nodeDoesNotExistPrintEdges
  | fault
deriving DecidableEq, Repr

/-- The errors that are the `NodeNotFound` of the specification. -/
def Err.isNodeNotFound : Err → Bool
  | .fault => false
  | _ => true

/-- The call raised `NodeNotFound`. -/
def raisesNodeNotFound {α : Type} : Except Err α → Bool
  | .error e => e.isNodeNotFound
  | .ok _ => false

/-- The data members of `Graph` (lines 32-33).  `customiter` is `none` at
`node_cont.end()` and otherwise the key of the entry it points to. -/
structure Graph (N : Type) where
  node_cont : List (N × Nat)
  customiter : Option N
deriving DecidableEq, Repr

/-- The default constructor (line 37): an empty map, the cursor at its end. -/
def Graph.empty {N : Type} : Graph N := { node_cont := [], customiter := none }

/-! ## Heap primitives -/

section heap
variable {N E : Type}

/-- The cell at an address, if the node there is alive. -/
def Heap.cell (h : Heap N E) (p : Nat) : Option (Cell N E) :=
  match h[p]? with
  | some (some c) => some c
  | _ => none

/-- The node a pointer refers to: `weak_ptr::lock()`, `none` for null. -/
def Heap.lock (h : Heap N E) (p : Nat) : Option (GNode N E) :=
  (h.cell p).map Cell.node

/-- The pointer value `weak_ptr::lock()` returns: the address, or null. -/
def Heap.lockPtr (h : Heap N E) (p : Nat) : Option Nat :=
  match h.cell p with
  | some _ => some p
  | none => none

/-- `std::make_shared<GNode>`: a new cell with one owner at a fresh address. -/
def Heap.make_shared (h : Heap N E) (n : GNode N E) : Heap N E × Nat :=
  (h ++ [some { strong := 1, node := n }], h.length)

/-- Copying a `shared_ptr`: one more owner. -/
def Heap.retain (h : Heap N E) (p : Nat) : Heap N E :=
  match h.cell p with
  | some c => h.set p (some { c with strong := c.strong + 1 })
  | none => h

/-- Dropping a `shared_ptr` (`reset()`, or erasing the map entry that holds
it): one owner less, and the node is destroyed with the last one. -/
def Heap.release (h : Heap N E) (p : Nat) : Heap N E :=
  match h.cell p with
  | some c => h.set p (if c.strong ≤ 1 then none else some { c with strong := c.strong - 1 })
  | none => h

/-- Writing the node behind a pointer. -/
def Heap.store (h : Heap N E) (p : Nat) (n : GNode N E) : Heap N E :=
  match h.cell p with
  | some c => h.set p (some { c with node := n })
  | none => h

/-- The outgoing edge set of the node at an address (empty if there is none). -/
def Heap.edgesAt (h : Heap N E) (p : Nat) : List (GEdge E) :=
  match h.lock p with
  | some n => n.edges
  | none => []

end heap

/-! ## The map `node_cont` -/

section map
variable {N : Type} [LinearOrder N]

/-- `std::map::find`: the mapped pointer, `none` for `end()`. -/
def find : List (N × Nat) → N → Option Nat
  | [], _ => none
  | (k, p) :: m, key => if key = k then some p else find m key

/-- `node_cont[key] = p`: insert in key order, or overwrite. -/
def assign : List (N × Nat) → N → Nat → List (N × Nat)
  | [], key, p => [(key, p)]
  | (k, q) :: m, key, p =>
    if key < k then (key, p) :: (k, q) :: m
    else if key = k then (key, p) :: m
    else (k, q) :: assign m key p

/-- `node_cont.erase(it)` for the iterator `it = find(key)`: the entry of
`key` goes, and the keys of a map being unique there is only one. -/
def erase : List (N × Nat) → N → List (N × Nat)
  | [], _ => []
  | (k, p) :: m, key => if key = k then erase m key else (k, p) :: erase m key

end map

/-! ## Operations -/

section ops
variable {N E : Type} [LinearOrder N]

/-- `Graph::isNode` (lines 288-293). -/
def isNode (g : Graph N) (val : N) : Bool :=
  match find g.node_cont val with
  | some _ => true
  | none => false

/-- `Graph::addNode` (lines 146-155). -/
def addNode (h : Heap N E) (g : Graph N) (input : N) : Bool × Heap N E × Graph N :=
  match find g.node_cont input with
  | none =>
    let r := h.make_shared { edges := [], valueofNode := input }
    (true, r.1, { g with node_cont := assign g.node_cont input r.2 })
  | some _ => (false, h, g)

/-- A sequence of `addNode` calls, the results dropped. -/
def addNodes (h : Heap N E) (g : Graph N) : List N → Heap N E × Graph N
  | [] => (h, g)
  | v :: vs => addNodes (addNode h g v).2.1 (addNode h g v).2.2 vs

/-- `Graph::checkNodes` (lines 138-143). -/
def checkNodes (g : Graph N) (src dst : N) : Except Err Unit :=
  match find g.node_cont src with
  | none => .error .originDoesNotExist
  | some _ =>
    match find g.node_cont dst with
    | none => .error .destDoesNotExist
    | some _ => .ok ()

/-- The duplicate scan of `addEdge` (lines 163-171) over the edge set of the
source node: `ok true` when the scan reaches `return false`, `ok false`
when it runs to the end, a fault when it dereferences a null `lock()`. -/
def addEdgeScan [DecidableEq E] (h : Heap N E) (dst : N) (w : E) :
    List (GEdge E) → Except Err Bool
  | [] => .ok false
  | e :: es =>
    if e.valofEdge = w then
      match h.lock e.destin with
      | none => .error .fault
      | some d => if d.valueofNode = dst then .ok true else addEdgeScan h dst w es
    else addEdgeScan h dst w es

/-- `Graph::addEdge` (lines 158-176). -/
def addEdge [DecidableEq E] (h : Heap N E) (g : Graph N) (src dst : N) (w : E) :
    Except Err Bool × Heap N E × Graph N :=
  match checkNodes g src dst with
  | .error e => (.error e, h, g)
  | .ok _ =>
    match find g.node_cont dst, find g.node_cont src with
    | some findDNode, some findSNode =>
      match h.lock findSNode with
      | none => (.error .fault, h, g)
      | some s =>
        match addEdgeScan h dst w s.edges with
        | .error e => (.error e, h, g)
        | .ok true => (.ok false, h, g)
        | .ok false =>
          let tempedge : GEdge E := { source := findSNode, destin := findDNode, valofEdge := w }
          (.ok true, h.store findSNode { s with edges := s.edges ++ [tempedge] }, g)
    | _, _ => (.error .fault, h, g)

/-- The loop of `isConnected` (lines 301-307). -/
def isConnectedScan (h : Heap N E) (dst : N) : List (GEdge E) → Except Err Bool
  | [] => .ok false
  | e :: es =>
    match h.lock e.destin with
    | none => .error .fault
    | some d => if d.valueofNode = dst then .ok true else isConnectedScan h dst es

/-- `Graph::isConnected` (lines 296-309). -/
def isConnected (h : Heap N E) (g : Graph N) (src dst : N) :
    Except Err Bool × Heap N E × Graph N :=
  match checkNodes g src dst with
  | .error e => (.error e, h, g)
  | .ok _ =>
    match find g.node_cont src with
    | none => (.error .fault, h, g)
    | some findONode =>
      match h.lock findONode with
      | none => (.error .fault, h, g)
      | some s => (isConnectedScan h dst s.edges, h, g)

/-- `Graph::replace` (lines 179-191). -/
def replace (h : Heap N E) (g : Graph N) (oldData newData : N) :
    Except Err Bool × Heap N E × Graph N :=
  match find g.node_cont oldData with
  | none => (.error .originDoesNotExistReplace, h, g)
  | some findONode =>
    match find g.node_cont newData with
    | some _ => (.ok false, h, g)
    | none =>
      -- node_cont[newData] = node_cont[oldData];
      let h1 := h.retain findONode
      let g1 := { g with node_cont := assign g.node_cont newData findONode }
      -- node_cont[newData]->valueofNode = newData;
      match (find g1.node_cont newData).bind h1.lock with
      | none => (.error .fault, h1, g1)
      | some n =>
        let h2 := h1.store findONode { n with valueofNode := newData }
        -- node_cont.erase(findONode);
        (.ok true, h2.release findONode, { g1 with node_cont := erase g1.node_cont oldData })

/-- The inner loop of `mergeReplace` (lines 206-211): does the set of the new
node hold an edge with the same locked destination pointer and weight. -/
def mergeFound [DecidableEq E] (h : Heap N E) (e : GEdge E) : List (GEdge E) → Bool
  | [] => false
  | e' :: es =>
    if h.lockPtr e.destin = h.lockPtr e'.destin ∧ e.valofEdge = e'.valofEdge then true
    else mergeFound h e es

/-- The first loop of `mergeReplace` (lines 202-222), over the edges of the old
node: every edge not found in the set of the new node is added to it. -/
def mergeOutgoing [DecidableEq E] (oldData : N) (findNNode : Nat) :
    Heap N E → List (GEdge E) → Except Err Unit × Heap N E
  | h, [] => (.ok (), h)
  | h, e :: es =>
    match h.lock findNNode with
    | none => (.error .fault, h)
    | some nn =>
      if mergeFound h e nn.edges then mergeOutgoing oldData findNNode h es
      else
        match h.lock e.destin with
        | none => (.error .fault, h)
        | some tempShDest =>
          let tempedge : GEdge E :=
            if tempShDest.valueofNode = oldData then
              { source := findNNode, destin := findNNode, valofEdge := e.valofEdge }
            else { source := findNNode, destin := e.destin, valofEdge := e.valofEdge }
          mergeOutgoing oldData findNNode
            (h.store findNNode { nn with edges := nn.edges ++ [tempedge] }) es

/-- The inner loop of the second loop of `mergeReplace` (lines 227-235) over
one edge set: the edges as it leaves them, and whether it ran to the end.  The
heap is only read for the value of the destination, which the loop never
writes. -/
def retarget (h : Heap N E) (oldData : N) (findNNode : Nat) :
    List (GEdge E) → Except Err Unit × List (GEdge E)
  | [] => (.ok (), [])
  | e :: es =>
    match h.lock e.destin with
    | none => (.error .fault, e :: es)
    | some temspointer =>
      let e' : GEdge E := if temspointer.valueofNode = oldData then { e with destin := findNNode } else e
      ((retarget h oldData findNNode es).1, e' :: (retarget h oldData findNNode es).2)

/-- The second loop of `mergeReplace` (lines 224-237), over all map entries. -/
def mergeIncoming (oldData : N) (findNNode : Nat) :
    Heap N E → List (N × Nat) → Except Err Unit × Heap N E
  | h, [] => (.ok (), h)
  | h, (_, p) :: rest =>
    match h.lock p with
    | none => (.error .fault, h)
    | some nd =>
      let r := retarget h oldData findNNode nd.edges
      let h' := h.store p { nd with edges := r.2 }
      match r.1 with
      | .error e => (.error e, h')
      | .ok _ => mergeIncoming oldData findNNode h' rest

/-- `Graph::mergeReplace` (lines 194-248).  The literal `3` of line 242 is a
value of `N`, so the member only exists for such `N`. -/
def mergeReplace [DecidableEq E] [OfNat N 3] (h : Heap N E) (g : Graph N) (oldData newData : N) :
    Except Err Unit × Heap N E × Graph N :=
  match checkNodes g oldData newData with
  | .error e => (.error e, h, g)
  | .ok _ =>
    match find g.node_cont oldData, find g.node_cont newData with
    | some findONode, some findNNode =>
      match h.lock findONode with
      | none => (.error .fault, h, g)
      | some o =>
        match mergeOutgoing oldData findNNode h o.edges with
        | (.error e, h1) => (.error e, h1, g)
        | (.ok _, h1) =>
          match mergeIncoming oldData findNNode h1 g.node_cont with
          | (.error e, h2) => (.error e, h2, g)
          | (.ok _, h2) =>
            -- findONode->second.reset(); node_cont.erase(findONode);
            let h3 := h2.release findONode
            let g3 := { g with node_cont := erase g.node_cont oldData }
            -- auto findmmmNode = node_cont.find(3); and the loop over its edges
            match find g3.node_cont 3 with
            | none => (.error .fault, h3, g3)
            | some findmmmNode =>
              match h3.lock findmmmNode with
              | none => (.error .fault, h3, g3)
              | some _ => (.ok (), h3, g3)
    | _, _ => (.error .fault, h, g)

/-- `Graph::deleteNode` (lines 251-258). -/
def deleteNode (h : Heap N E) (g : Graph N) (graphnode : N) : Heap N E × Graph N :=
  match find g.node_cont graphnode with
  | none => (h, g)
  | some findONode =>
    (h.release findONode, { g with node_cont := erase g.node_cont graphnode })

/-! ## Observations and invariants -/

/-- The value of the node a weak reference resolves to, if it does. -/
def Heap.valueAt (h : Heap N E) (p : Nat) : Option N :=
  (h.lock p).map GNode.valueofNode

/-- There is an edge `x → y` of weight `w`: both are nodes of the graph, and
the edge set of the node of `x` holds an edge of weight `w` whose destination
reference is the node of `y`. -/
def hasEdge [DecidableEq E] (h : Heap N E) (g : Graph N) (x y : N) (w : E) : Bool :=
  match find g.node_cont x, find g.node_cont y with
  | some px, some py =>
    (h.edgesAt px).any fun e => decide (e.valofEdge = w) && decide (e.destin = py)
  | _, _ => false

/-- The node of `x` holds an edge, of whatever weight, whose destination
reference is the node of `y`. -/
def linked (h : Heap N E) (g : Graph N) (x y : N) : Bool :=
  match find g.node_cont x, find g.node_cont y with
  | some px, some py => (h.edgesAt px).any fun e => decide (e.destin = py)
  | _, _ => false

/-- The relabelling that maps `a` to `b` and fixes every other value. -/
def rekey (a b : N) (x : N) : N := if x = a then b else x

/-- Every map entry points to a live node whose value is the key. -/
def KeysMatch (h : Heap N E) (g : Graph N) : Prop :=
  ∀ kp ∈ g.node_cont, h.valueAt kp.2 = some kp.1

/-- No dangling edge: the destination of every edge of every node of the graph
resolves to a node that the graph holds under its value. -/
def NoDangling (h : Heap N E) (g : Graph N) : Prop :=
  ∀ kp ∈ g.node_cont, ∀ e ∈ h.edgesAt kp.2,
    (h.valueAt e.destin).bind (find g.node_cont) = some e.destin

/-- The node at an address is alive and its strong count is not zero. -/
def Heap.owned (h : Heap N E) (p : Nat) : Bool :=
  match h.cell p with
  | some c => decide (1 ≤ c.strong)
  | none => false

/-- Every pointer held by the map refers to a live node, which it owns. -/
def Alive (h : Heap N E) (g : Graph N) : Prop :=
  ∀ kp ∈ g.node_cont, h.owned kp.2 = true

instance (h : Heap N E) (g : Graph N) : Decidable (Alive h g) := by
  unfold Alive; infer_instance

/-- The keys of the map are strictly ascending. -/
def Sorted (g : Graph N) : Prop :=
  g.node_cont.Pairwise fun a b => a.1 < b.1

/-- A well-formed graph. -/
def WF (h : Heap N E) (g : Graph N) : Prop :=
  KeysMatch h g ∧ NoDangling h g ∧ Sorted g

instance (h : Heap N E) (g : Graph N) : Decidable (KeysMatch h g) := by
  unfold KeysMatch; infer_instance

instance (h : Heap N E) (g : Graph N) : Decidable (NoDangling h g) := by
  unfold NoDangling; infer_instance

instance (g : Graph N) : Decidable (Sorted g) := by
  unfold Sorted; infer_instance

instance (h : Heap N E) (g : Graph N) : Decidable (WF h g) := by
  unfold WF; infer_instance

/-- What the second loop of `mergeReplace` makes of one edge, `val` giving
the value of the node behind a reference. -/
def retargetEdge (val : Nat → Option N) (oldData : N) (findNNode : Nat) (e : GEdge E) :
    GEdge E :=
  if val e.destin = some oldData then { e with destin := findNNode } else e

/-- The edge the first loop of `mergeReplace` makes for an edge of the old
node that it does not find in the set of the new node. -/
def movedEdge (val : Nat → Option N) (oldData : N) (findNNode : Nat) (e : GEdge E) :
    GEdge E :=
  if val e.destin = some oldData then
    { source := findNNode, destin := findNNode, valofEdge := e.valofEdge }
  else { source := findNNode, destin := e.destin, valofEdge := e.valofEdge }

/-- The pointers held by the map are pairwise different: no node object is
kept under two keys. -/
def Distinct (g : Graph N) : Prop :=
  (g.node_cont.map Prod.snd).Nodup

instance (g : Graph N) : Decidable (Distinct g) := by
  unfold Distinct; infer_instance

/-! ## Deleting edges, clearing, and sequences of calls -/

/-- The loop of `deleteEdge` (lines 270-276) over the edge set of the source
node: its outcome and the edges it leaves in the set.  Line 273 dereferences
the locked destination of every edge it visits.  When an edge matches, line
274 erases it through the loop iterator, which the erase invalidates, and the
loop then increments that iterator: undefined behaviour, after the erase. -/
def deleteEdgeScan [DecidableEq E] (h : Heap N E) (dst : N) (w : E) :
    List (GEdge E) → Except Err Unit × List (GEdge E)
  | [] => (.ok (), [])
  | e :: es =>
    match h.lock e.destin with
    | none => (.error .fault, e :: es)
    | some temspointer =>
      if temspointer.valueofNode = dst ∧ e.valofEdge = w then (.error .fault, es)
      else ((deleteEdgeScan h dst w es).1, e :: (deleteEdgeScan h dst w es).2)

/-- `Graph::deleteEdge` (lines 261-278). -/
def deleteEdge [DecidableEq E] (h : Heap N E) (g : Graph N) (src dst : N) (w : E) :
    Except Err Unit × Heap N E × Graph N :=
  match find g.node_cont src with
  | none => (.ok (), h, g)
  | some findONode =>
    match find g.node_cont dst with
    | none => (.ok (), h, g)
    | some _ =>
      match h.lock findONode with
      | none => (.error .fault, h, g)
      | some s =>
        ((deleteEdgeScan h dst w s.edges).1,
          h.store findONode { s with edges := (deleteEdgeScan h dst w s.edges).2 }, g)

/-- Dropping every pointer of a list, one after the other. -/
def releaseAll : Heap N E → List Nat → Heap N E
  | h, [] => h
  | h, p :: ps => releaseAll (h.release p) ps

/-- Copying every pointer of a list, one after the other. -/
def retainAll : Heap N E → List Nat → Heap N E
  | h, [] => h
  | h, p :: ps => retainAll (h.retain p) ps

/-- `Graph::clear` (lines 281-285): `node_cont.clear()` destroys every entry
and with it the pointer it holds. -/
def clear (h : Heap N E) (g : Graph N) : Heap N E × Graph N :=
  (releaseAll h (g.node_cont.map Prod.snd), { g with node_cont := [] })

/-- A call of one of the mutating members. -/
inductive Call (N E : Type) where
  | addNode (v : N)
  | addEdge (a b : N) (w : E)
  | deleteEdge (a b : N) (w : E)
  | deleteNode (v : N)
  | replace (a b : N)
  | mergeReplace (a b : N)
  | clear

/-- The state a call leaves behind when it returns normally, `none` when it
throws or faults. -/
def Call.run [DecidableEq E] [OfNat N 3] (s : Heap N E × Graph N) :
    Call N E → Option (Heap N E × Graph N)
  | .addNode v => some (gdwg.addNode s.1 s.2 v).2
  | .addEdge a b w =>
    match gdwg.addEdge s.1 s.2 a b w with
    | (.ok _, s') => some s'
    | (.error _, _) => none
  | .deleteEdge a b w =>
    match gdwg.deleteEdge s.1 s.2 a b w with
    | (.ok _, s') => some s'
    | (.error _, _) => none
  | .deleteNode v => some (gdwg.deleteNode s.1 s.2 v)
  | .replace a b =>
    match gdwg.replace s.1 s.2 a b with
    | (.ok _, s') => some s'
    | (.error _, _) => none
  | .mergeReplace a b =>
    match gdwg.mergeReplace s.1 s.2 a b with
    | (.ok _, s') => some s'
    | (.error _, _) => none
  | .clear => some (gdwg.clear s.1 s.2)

/-- A sequence of calls that all return normally, from a given state. -/
def runCalls [DecidableEq E] [OfNat N 3] :
    Heap N E × Graph N → List (Call N E) → Option (Heap N E × Graph N)
  | s, [] => some s
  | s, c :: cs =>
    match c.run s with
    | some s' => runCalls s' cs
    | none => none

/-- Edge uniqueness: no edge set of a node of the graph holds two edges with
the same destination node and the same weight. -/
def UniqueEdges (h : Heap N E) (g : Graph N) : Prop :=
  ∀ kp ∈ g.node_cont, ((h.edgesAt kp.2).map fun e => (e.destin, e.valofEdge)).Nodup

instance [DecidableEq E] (h : Heap N E) (g : Graph N) : Decidable (UniqueEdges h g) := by
  unfold UniqueEdges; infer_instance

/-! ## Copying and moving -/

/-- The copy constructor (lines 40-42): the map is copied entry by entry, so
the new graph holds pointers to the node objects of `cgraph`.  The cursor is
initialised on the still empty map and stays at its end. -/
def copyConstruct (h : Heap N E) (cgraph : Graph N) : Heap N E × Graph N :=
  (retainAll h (cgraph.node_cont.map Prod.snd),
    { node_cont := cgraph.node_cont, customiter := none })

/-- The strong count of every node object in a list of pointers covers the
pointers of the list that refer to it, and the object is alive. -/
def Owning (h : Heap N E) (ptrs : List Nat) : Prop :=
  ∀ q ∈ ptrs, (h.cell q).any (fun c => decide (ptrs.count q ≤ c.strong)) = true

instance (h : Heap N E) (ptrs : List Nat) : Decidable (Owning h ptrs) := by
  unfold Owning; infer_instance

/-! ## The cursor -/

/-- The key that follows `k` in the map: the first key greater than `k`. -/
def nextKey : List (N × Nat) → N → Option N
  | [], _ => none
  | (k', _) :: m, k => if k < k' then some k' else nextKey m k

/-- `Graph::begin` (lines 372-374). -/
def Graph.begin (g : Graph N) : Graph N :=
  { g with customiter := g.node_cont.head?.map Prod.fst }

/-- `Graph::end` (lines 376-379); `end` is a reserved word. -/
def Graph.atEnd (g : Graph N) : Bool :=
  g.customiter.isNone

/-- `Graph::next` (lines 382-384).  Incrementing the end iterator, or an
iterator whose entry is no longer in the map, is undefined behaviour. -/
def Graph.next (g : Graph N) : Except Err Unit × Graph N :=
  match g.customiter with
  | none => (.error .fault, g)
  | some k =>
    match find g.node_cont k with
    | none => (.error .fault, g)
    | some _ => (.ok (), { g with customiter := nextKey g.node_cont k })

/-- `Graph::value` (lines 387-389). -/
def Graph.value (g : Graph N) : Except Err N :=
  match g.customiter with
  | none => .error .fault
  | some k =>
    match find g.node_cont k with
    | none => .error .fault
    | some _ => .ok k

/-- The loop `while (!g.end()) { read g.value(); g.next(); }`: the values
read and the graph as it is left; `none` when the fuel does not suffice. -/
def enumerateFrom : Nat → Graph N → Option (Except Err (List N) × Graph N)
  | 0, _ => none
  | fuel + 1, g =>
    if g.atEnd then some (.ok [], g)
    else
      match g.value with
      | .error e => some (.error e, g)
      | .ok v =>
        match g.next with
        | (.error e, g1) => some (.error e, g1)
        | (.ok _, g1) =>
          match enumerateFrom fuel g1 with
          | some (.ok vs, g2) => some (.ok (v :: vs), g2)
          | some (.error e, g2) => some (.error e, g2)
          | none => none

/-- An enumeration: `g.begin()` and then the loop. -/
def enumerate (fuel : Nat) (g : Graph N) : Option (Except Err (List N) × Graph N) :=
  enumerateFrom fuel g.begin

/-- What is left of a cell after `k` of its owners went away. -/
def Cell.drop (c : Cell N E) (k : Nat) : Option (Cell N E) :=
  if k = 0 then some c
  else if c.strong ≤ k then none
  else some { c with strong := c.strong - k }

/-! ## The listings -/

/-- `std::set<V>::insert`, the set kept as an ascending list. -/
def setInsert {V : Type} [LinearOrder V] : List V → V → List V
  | [], v => [v]
  | a :: s, v =>
    if v < a then v :: a :: s
    else if v = a then a :: s
    else a :: setInsert s v

/-- The body of the grouping loops of the listings (lines 317-325 and
350-360) on a `std::map<K, std::set<V>>`: the value goes into the set found
under the key, or a new set with the value alone is entered under the key. -/
def groupInsert {K V : Type} [LinearOrder K] [LinearOrder V] :
    List (K × List V) → K → V → List (K × List V)
  | [], k, v => [(k, [v])]
  | (k', s) :: m, k, v =>
    if k < k' then (k, [v]) :: (k', s) :: m
    else if k = k' then (k', setInsert s v) :: m
    else (k', s) :: groupInsert m k v

/-- The order in which the printing loops (lines 327-331 and 364-368) visit
the map of sets: key by key, and under a key value by value. -/
def flatten {K V : Type} : List (K × List V) → List (K × V)
  | [] => []
  | (k, s) :: m => s.map (fun v => (k, v)) ++ flatten m

/-- The conversion of `edges.size()` to the `int` key of the map of line 314
(32 bits, two's complement). -/
def toInt (n : Nat) : Int :=
  (((n + 2 ^ 31) % 2 ^ 32 : Nat) : Int) - 2 ^ 31

/-- The first loop of `printNodes` (lines 315-326). -/
def printNodesLoop (h : Heap N E) :
    List (N × Nat) → List (Int × List N) → Except Err (List (Int × List N))
  | [], m => .ok m
  | (k, p) :: rest, m =>
    match h.lock p with
    | none => .error .fault
    | some nd => printNodesLoop h rest (groupInsert m (toInt nd.edges.length) k)

/-- `Graph::printNodes` (lines 312-332): the outcome, the values written, one
to a line, and heap and graph as they are left. -/
def printNodes (h : Heap N E) (g : Graph N) : Except Err Unit × List N × Heap N E × Graph N :=
  match printNodesLoop h g.node_cont [] with
  | .error e => (.error e, [], h, g)
  | .ok edges_count => (.ok (), (flatten edges_count).map Prod.snd, h, g)

/-- A line written by `printEdges`. -/
inductive Line (N E : Type) where
  | header (v : N)
  | null
  | edge (dest : N) (w : E)
deriving DecidableEq, Repr

/-- The first loop of `printEdges` (lines 348-362): an edge whose destination
is expired is passed over. -/
def printEdgesLoop [LinearOrder E] (h : Heap N E) :
    List (GEdge E) → List (E × List N) → List (E × List N)
  | [], m => m
  | e :: es, m =>
    match h.lock e.destin with
    | none => printEdgesLoop h es m
    | some d => printEdgesLoop h es (groupInsert m e.valofEdge d.valueofNode)

/-- `Graph::printEdges` (lines 335-369): the outcome, the lines written, and
heap and graph as they are left. -/
def printEdges [LinearOrder E] (h : Heap N E) (g : Graph N) (val : N) :
    Except Err Unit × List (Line N E) × Heap N E × Graph N :=
  match find g.node_cont val with
  | none => (.error .nodeDoesNotExistPrintEdges, [], h, g)
  | some findONode =>
    -- std::cout<<"Edges attached to Node "<<findONode->first<<std::endl;
    match h.lock findONode with
    | none => (.error .fault, [Line.header val], h, g)
    | some nd =>
      if nd.edges.length = 0 then (.ok (), [Line.header val, Line.null], h, g)
      else
        (.ok (),
          Line.header val ::
            (flatten (printEdgesLoop h nd.edges [])).map (fun kv => Line.edge kv.2 kv.1),
          h, g)

/-- The number of edges in the edge set of the node of `v`. -/
def outDegree (h : Heap N E) (g : Graph N) (v : N) : Nat :=
  match find g.node_cont v with
  | some p => (h.edgesAt p).length
  | none => 0

/-- The order of the listings: by key, and by value under the same key. -/
def LexLt {K V : Type} [LinearOrder K] [LinearOrder V] (a b : K × V) : Prop :=
  a.1 < b.1 ∨ (a.1 = b.1 ∧ a.2 < b.2)

/-- A map of sets as the loops build it: keys ascending, every set ascending. -/
def Grouped {K V : Type} [LinearOrder K] [LinearOrder V] (m : List (K × List V)) : Prop :=
  (m.Pairwise fun a b => a.1 < b.1) ∧ ∀ ks ∈ m, ks.2.Pairwise fun a b => a < b

/-! ## Copy assignment

`operator=(const Graph&)` reads the map of its argument while it writes the
map of `*this`.  In `g = g` the two are one map, so the loops are written over
a map that is either the fixed map of another graph or the map under
construction. -/

/-- The first loop of the copy assignment (lines 63-67), `it` standing at the
key `cursor` of the map of the argument: `other` when the argument is another
graph, the map `m` of `*this` itself when `aliased` is set.  A fresh node with
the value of the node under `it` is made and assigned to `node_cont[value]`,
which drops the pointer that entry held.  `none` when the fuel does not
suffice. -/
def copyNodes (aliased : Bool) (other : List (N × Nat)) :
    Nat → Heap N E → List (N × Nat) → Option N →
      Option (Except Err Unit × Heap N E × List (N × Nat))
  | 0, _, _, _ => none
  | _ + 1, h, m, none => some (.ok (), h, m)
  | fuel + 1, h, m, some k =>
    match find (if aliased then m else other) k with
    | none => some (.error .fault, h, m)
    | some p =>
      match h.lock p with
      | none => some (.error .fault, h, m)
      | some nd =>
        let r := h.make_shared { edges := [], valueofNode := nd.valueofNode }
        let h1 :=
          match find m nd.valueofNode with
          | some old => r.1.release old
          | none => r.1
        let m1 := assign m nd.valueofNode r.2
        copyNodes aliased other fuel h1 m1 (nextKey (if aliased then m1 else other) k)

/-- The inner loop of the second loop of the copy assignment (lines 70-78)
over the edges of the node `p` of the argument, `m` being the map of `*this`.
An edge with an expired destination is passed over.  For the others a new
edge is inserted into the set of `node_cont[value of p]`, its two ends both
the node found under the value of the destination.  A lookup that ends at
`end()` is dereferenced all the same, and `node_cont[...]` of a missing key
yields a null pointer: both are faults.  When the set inserted into is the set
under iteration, which of the new edges the loop visits depends on their
addresses; the embedding does not follow that and reports a fault. -/
def copyEdgesOf (m : List (N × Nat)) (p : Nat) :
    Heap N E → List (GEdge E) → Except Err Unit × Heap N E
  | h, [] => (.ok (), h)
  | h, tedge :: es =>
    match h.lock tedge.destin with
    | none => copyEdgesOf m p h es
    | some shptr =>
      match h.lock p with
      | none => (.error .fault, h)
      | some tn =>
        match find m tn.valueofNode, find m shptr.valueofNode with
        | some t, some exist =>
          if t = p then (.error .fault, h)
          else
            match h.lock t with
            | none => (.error .fault, h)
            | some tgt =>
              let newedge : GEdge E :=
                { source := exist, destin := exist, valofEdge := tedge.valofEdge }
              copyEdgesOf m p (h.store t { tgt with edges := tgt.edges ++ [newedge] }) es
        | _, _ => (.error .fault, h)

/-- The second loop of the copy assignment (lines 69-79) over the entries of
the map of the argument.  The map of `*this` keeps its shape in this loop. -/
def copyEdges (m : List (N × Nat)) : Heap N E → List (N × Nat) → Except Err Unit × Heap N E
  | h, [] => (.ok (), h)
  | h, (_, p) :: rest =>
    match h.lock p with
    | none => (.error .fault, h)
    | some tn =>
      match copyEdgesOf m p h tn.edges with
      | (.error e, h1) => (.error e, h1)
      | (.ok _, h1) => copyEdges m h1 rest

/-- The copy assignment `*this = ngraph` (lines 56-82); `ngraph = none` stands
for the argument being `*this` itself.  The outcome, the heap and `*this` as
they are left; `none` when the fuel does not suffice. -/
def copyAssign (fuel : Nat) (h : Heap N E) (self : Graph N) (ngraph : Option (Graph N)) :
    Option (Except Err Unit × Heap N E × Graph N) :=
  let aliased := ngraph.isNone
  let other := match ngraph with
    | some o => o.node_cont
    | none => self.node_cont
  -- if (node_cont != ngraph.node_cont) node_cont.erase(node_cont.begin(), node_cont.end());
  let h0 := if self.node_cont ≠ other then releaseAll h (self.node_cont.map Prod.snd) else h
  let m0 := if self.node_cont ≠ other then [] else self.node_cont
  match copyNodes aliased other fuel h0 m0 ((if aliased then m0 else other).head?.map Prod.fst) with
  | none => none
  | some (.error e, h1, m1) => some (.error e, h1, { self with node_cont := m1 })
  | some (.ok _, h1, m1) =>
    match copyEdges m1 h1 (if aliased then m1 else other) with
    | (.error e, h2) => some (.error e, h2, { self with node_cont := m1 })
    | (.ok _, h2) => some (.ok (), h2, { self with node_cont := m1 })

/-- The node objects the first loop of the copy assignment makes for the
values `ks`, in the order it makes them. -/
def freshCells (ks : List N) : Heap N E :=
  ks.map fun k => some { strong := 1, node := { edges := [], valueofNode := k } }

/-- The map that holds the values `ks` in this order, each with the next
address from `base` on. -/
def freshMap : Nat → List N → List (N × Nat)
  | _, [] => []
  | base, k :: ks => (k, base) :: freshMap (base + 1) ks

/-- The copy the second loop of the copy assignment makes of an edge, if it
makes one: both ends are the node that the map `m` holds under the value of
the destination. -/
def copiedEdge (val : Nat → Option N) (m : List (N × Nat)) (e : GEdge E) : Option (GEdge E) :=
  ((val e.destin).bind (find m)).map fun x =>
    { source := x, destin := x, valofEdge := e.valofEdge }

/-- Every edge of every node of the graph refers to an address the heap has
handed out, and its destination is expired or is the node that the graph
holds under the value of the destination. -/
def Resolving (h : Heap N E) (g : Graph N) : Prop :=
  ∀ kp ∈ g.node_cont, ∀ e ∈ h.edgesAt kp.2,
    e.destin < h.length
    ∧ (h.valueAt e.destin = none
        ∨ (h.valueAt e.destin).bind (find g.node_cont) = some e.destin)

instance (h : Heap N E) (g : Graph N) : Decidable (Resolving h g) := by
  unfold Resolving; infer_instance

/-! ## Sample graphs

Each sample is the heap and graph that a sequence of calls on a default
constructed `Graph<unsigned, unsigned>` leaves behind. -/

namespace Sample

/-- Run `addNode` and keep the state. -/
def node (s : Heap Nat Nat × Graph Nat) (v : Nat) : Heap Nat Nat × Graph Nat :=
  (addNode s.1 s.2 v).2

/-- Run `addEdge` and keep the state. -/
def edge (s : Heap Nat Nat × Graph Nat) (a b w : Nat) : Heap Nat Nat × Graph Nat :=
  (addEdge s.1 s.2 a b w).2

/-- The default constructed graph on an empty heap. -/
def start : Heap Nat Nat × Graph Nat := ([], Graph.empty)

/-- Nodes 1 and 2, edge 1 → 2 of weight 7. -/
def pair : Heap Nat Nat × Graph Nat := edge (node (node start 1) 2) 1 2 7

/-- Nodes 1, 2, 3, edge 1 → 2 of weight 7. -/
def triple : Heap Nat Nat × Graph Nat := edge (node (node (node start 1) 2) 3) 1 2 7

/-- `triple` after `deleteNode(2)`. -/
def tripleCut : Heap Nat Nat × Graph Nat := deleteNode triple.1 triple.2 2

/-- `tripleCut` after `addNode(2)`: nodes 1, 2, 3 again. -/
def tripleAgain : Heap Nat Nat × Graph Nat := node tripleCut 2

/-- Nodes 1 and 3, edge 3 → 1 of weight 7. -/
def inward : Heap Nat Nat × Graph Nat := edge (node (node start 1) 3) 3 1 7

/-- Nodes 1 and 3, edge 1 → 3 of weight 7. -/
def outward : Heap Nat Nat × Graph Nat := edge (node (node start 1) 3) 1 3 7

/-- Nodes 1, 2, 3, edges 1 → 2 (7), 1 → 1 (9), 3 → 1 (7), 3 → 2 (7), 2 → 3 (4). -/
def busy : Heap Nat Nat × Graph Nat :=
  edge (edge (edge (edge (edge (node (node (node start 1) 2) 3) 1 2 7) 1 1 9) 3 1 7) 3 2 7) 2 3 4

/-- Nodes 1 and 2, no edge. -/
def two : Heap Nat Nat × Graph Nat := node (node start 1) 2

/-- The copy constructed from `two`, on the heap it shares with `two`. -/
def twoCopy : Heap Nat Nat × Graph Nat := copyConstruct two.1 two.2

/-- The copy constructed from `pair`, on the heap it shares with `pair`. -/
def pairCopy : Heap Nat Nat × Graph Nat := copyConstruct pair.1 pair.2

/-- Nodes 1 and 2, edge 2 → 1 of weight 7. -/
def back : Heap Nat Nat × Graph Nat := edge (node (node start 1) 2) 2 1 7

/-- Nodes 1, 2, 4, edges 1 → 4 (7) and 4 → 1 (5). -/
def ring : Heap Nat Nat × Graph Nat :=
  edge (edge (node (node (node start 1) 2) 4) 1 4 7) 4 1 5

end Sample

end ops

/-! ## The heap lemmas -/

section heaplemmas
variable {N E : Type}

theorem cell_set {h : Heap N E} {p : Nat} {c : Cell N E} (hc : h.cell p = some c)
    (x : Option (Cell N E)) (q : Nat) :
    Heap.cell (h.set p x) q = if q = p then x else h.cell q := by
  have hp : p < h.length := by
    by_contra hlt
    have : h[p]? = none := List.getElem?_eq_none (Nat.le_of_not_lt hlt)
    simp [Heap.cell, this] at hc
  unfold Heap.cell
  rw [List.getElem?_set]
  by_cases hq : q = p
  · subst hq
    cases x <;> simp [hp]
  · have : ¬ p = q := fun e => hq e.symm
    simp [hq, this]

theorem cell_store (h : Heap N E) (p : Nat) (n : GNode N E) (q : Nat) :
    (h.store p n).cell q
      = if q = p then (h.cell p).map (fun c => { c with node := n }) else h.cell q := by
  unfold Heap.store
  cases hc : h.cell p with
  | none =>
    by_cases hq : q = p
    · subst hq; simp [hc]
    · simp [hq]
  | some c => simp only [cell_set hc]; rfl

theorem cell_retain (h : Heap N E) (p : Nat) (q : Nat) :
    (h.retain p).cell q
      = if q = p then (h.cell p).map (fun c => { c with strong := c.strong + 1 })
        else h.cell q := by
  unfold Heap.retain
  cases hc : h.cell p with
  | none =>
    by_cases hq : q = p
    · subst hq; simp [hc]
    · simp [hq]
  | some c => simp only [cell_set hc]; rfl

theorem cell_release (h : Heap N E) (p : Nat) (q : Nat) :
    (h.release p).cell q
      = if q = p then
          (h.cell p).bind fun c =>
            if c.strong ≤ 1 then none else some { c with strong := c.strong - 1 }
        else h.cell q := by
  unfold Heap.release
  cases hc : h.cell p with
  | none =>
    by_cases hq : q = p
    · subst hq; simp [hc]
    · simp [hq]
  | some c => simp only [cell_set hc]; rfl

theorem lock_store (h : Heap N E) (p : Nat) (n : GNode N E) (q : Nat) :
    (h.store p n).lock q = if q = p then (h.lock p).map (fun _ => n) else h.lock q := by
  unfold Heap.lock
  rw [cell_store]
  by_cases hq : q = p
  · subst hq
    cases h.cell q <;> simp
  · simp [hq]

theorem lock_retain (h : Heap N E) (p : Nat) (q : Nat) :
    (h.retain p).lock q = h.lock q := by
  unfold Heap.lock
  rw [cell_retain]
  by_cases hq : q = p
  · subst hq
    cases h.cell q <;> simp
  · simp [hq]

theorem lock_release_ne (h : Heap N E) {p q : Nat} (hq : q ≠ p) :
    (h.release p).lock q = h.lock q := by
  unfold Heap.lock
  rw [cell_release]
  simp [hq]

theorem lock_store_self {h : Heap N E} {p : Nat} {m : GNode N E} (hl : h.lock p = some m)
    (n : GNode N E) : (h.store p n).lock p = some n := by
  rw [lock_store]; simp [hl]

theorem lock_store_ne (h : Heap N E) {p q : Nat} (n : GNode N E) (hq : q ≠ p) :
    (h.store p n).lock q = h.lock q := by
  rw [lock_store]; simp [hq]

end heaplemmas

/-! ## The map lemmas -/

section maplemmas
variable {N : Type} [LinearOrder N]

theorem find_assign (m : List (N × Nat)) (k : N) (p : Nat) (key : N) :
    find (assign m k p) key = if key = k then some p else find m key := by
  induction m with
  | nil => simp [assign, find]
  | cons a m ih =>
    obtain ⟨k', q⟩ := a
    by_cases h1 : k < k'
    · simp [assign, find, h1]
    · by_cases h2 : k = k'
      · subst h2
        by_cases h3 : key = k <;> simp [assign, find, h3]
      · by_cases h3 : key = k'
        · subst h3
          have : ¬ key = k := fun h => h2 h.symm
          simp [assign, find, h1, h2, this]
        · simp [assign, find, h1, h2, h3, ih]

theorem find_erase (m : List (N × Nat)) (k : N) (key : N) :
    find (erase m k) key = if key = k then none else find m key := by
  induction m with
  | nil => simp [erase, find]
  | cons a m ih =>
    obtain ⟨k', q⟩ := a
    by_cases h2 : k = k'
    · subst h2
      by_cases h3 : key = k
      · subst h3; simp [erase, find, ih]
      · simp [erase, find, h3, ih]
    · by_cases h3 : key = k'
      · subst h3
        have : ¬ key = k := fun h => h2 h.symm
        simp [erase, find, h2, this]
      · simp [erase, find, h2, h3, ih]

end maplemmas

/-! ## C1: `addNode` -/

section c1
variable {N E : Type} [LinearOrder N]

theorem isNode_addNodes (vs : List N) (h : Heap N E) (g : Graph N) (x : N) :
    isNode (addNodes h g vs).2 x = true ↔ (isNode g x = true ∨ x ∈ vs) := by
  induction vs generalizing h g with
  | nil => simp [addNodes]
  | cons v vs ih =>
    rw [addNodes, ih]
    have key : isNode (addNode h g v).2.2 x = true ↔ (isNode g x = true ∨ x = v) := by
      unfold addNode isNode
      cases hv : find g.node_cont v with
      | none =>
        simp only [find_assign]
        by_cases hx : x = v
        · simp [hx]
        · simp [hx]
      | some p =>
        by_cases hx : x = v
        · subst hx; simp [hv]
        · simp [hx]
    rw [key]
    simp only [List.mem_cons]
    tauto

/-- C1: `addNode(v)` returns true exactly when `v` was not a node; afterwards
`isNode(v)` holds and `isNode(u)` is as before for every other `u`; when it
returns false the heap and the graph are unchanged; and after any sequence of
`addNode` calls on the empty graph, `isNode(x)` holds exactly for the values
`x` of the sequence. -/
theorem addNode_spec (h : Heap N E) (g : Graph N) (v : N) :
    ((addNode h g v).1 = true ↔ isNode g v = false)
    ∧ isNode (addNode h g v).2.2 v = true
    ∧ (∀ u, u ≠ v → isNode (addNode h g v).2.2 u = isNode g u)
    ∧ ((addNode h g v).1 = false → (addNode h g v).2 = (h, g))
    ∧ (∀ (h0 : Heap N E) (vs : List N) (x : N),
        isNode (addNodes h0 Graph.empty vs).2 x = true ↔ x ∈ vs) := by
  refine ⟨?_, ?_, ?_, ?_, ?_⟩
  · unfold addNode isNode
    cases find g.node_cont v <;> simp
  · unfold addNode isNode
    cases hv : find g.node_cont v with
    | none => simp [find_assign]
    | some p => simp [hv]
  · intro u hu
    unfold addNode isNode
    cases hv : find g.node_cont v with
    | none => simp [find_assign, hu]
    | some p => simp
  · unfold addNode
    cases find g.node_cont v <;> simp
  · intro h0 vs x
    rw [isNode_addNodes]
    simp [isNode, Graph.empty, find]

end c1

/-! ## C4 and C6: the precondition checks -/

section c4
variable {N E : Type} [LinearOrder N]

theorem addEdgeScan_error [DecidableEq E] (h : Heap N E) (dst : N) (w : E) (es : List (GEdge E))
    (e : Err) (he : addEdgeScan h dst w es = .error e) : e = .fault := by
  induction es with
  | nil => simp [addEdgeScan] at he
  | cons a es ih =>
    unfold addEdgeScan at he
    by_cases hw : a.valofEdge = w
    · simp only [hw, if_true] at he
      cases hl : h.lock a.destin with
      | none =>
        simp only [hl] at he
        cases he; rfl
      | some d =>
        simp only [hl] at he
        by_cases hd : d.valueofNode = dst
        · simp [hd] at he
        · simp only [hd, if_false] at he
          exact ih he
    · simp only [hw, if_false] at he
      exact ih he

theorem isConnectedScan_error (h : Heap N E) (dst : N) (es : List (GEdge E))
    (e : Err) (he : isConnectedScan h dst es = .error e) : e = .fault := by
  induction es with
  | nil => simp [isConnectedScan] at he
  | cons a es ih =>
    unfold isConnectedScan at he
    cases hl : h.lock a.destin with
    | none =>
      simp only [hl] at he
      cases he; rfl
    | some d =>
      simp only [hl] at he
      by_cases hd : d.valueofNode = dst
      · simp [hd] at he
      · simp only [hd, if_false] at he
        exact ih he

theorem addEdge_present [DecidableEq E] (h : Heap N E) (g : Graph N) (src dst : N) (w : E)
    (ps pd : Nat) (hs : find g.node_cont src = some ps) (hd : find g.node_cont dst = some pd) :
    raisesNodeNotFound (addEdge h g src dst w).1 = false := by
  unfold addEdge checkNodes
  simp only [hs, hd]
  cases hl : h.lock ps with
  | none => rfl
  | some s =>
    simp only []
    cases hsc : addEdgeScan h dst w s.edges with
    | error e =>
      have := addEdgeScan_error h dst w s.edges e hsc
      subst this
      rfl
    | ok b => cases b <;> rfl

theorem isConnected_present (h : Heap N E) (g : Graph N) (src dst : N)
    (ps pd : Nat) (hs : find g.node_cont src = some ps) (hd : find g.node_cont dst = some pd) :
    raisesNodeNotFound (isConnected h g src dst).1 = false := by
  unfold isConnected checkNodes
  simp only [hs, hd]
  cases hl : h.lock ps with
  | none => rfl
  | some s =>
    simp only []
    cases hsc : isConnectedScan h dst s.edges with
    | error e =>
      have := isConnectedScan_error h dst s.edges e hsc
      subst this
      rfl
    | ok b => rfl

/-- C4: `addEdge(src,dst,w)` and `isConnected(src,dst)` raise `NodeNotFound`
exactly when `src` or `dst` is not a node; the error names the origin whenever
`src` is absent (also when `dst` is absent too) and the destination when only
`dst` is absent; and whenever they raise it, heap and graph are unchanged. -/
theorem checkNodes_guard [DecidableEq E] (h : Heap N E) (g : Graph N) (src dst : N) (w : E) :
    (raisesNodeNotFound (addEdge h g src dst w).1 = true
        ↔ (isNode g src = false ∨ isNode g dst = false))
    ∧ (raisesNodeNotFound (isConnected h g src dst).1 = true
        ↔ (isNode g src = false ∨ isNode g dst = false))
    ∧ (isNode g src = false →
        (addEdge h g src dst w).1 = .error .originDoesNotExist
        ∧ (isConnected h g src dst).1 = .error .originDoesNotExist)
    ∧ (isNode g src = true → isNode g dst = false →
        (addEdge h g src dst w).1 = .error .destDoesNotExist
        ∧ (isConnected h g src dst).1 = .error .destDoesNotExist)
    ∧ (raisesNodeNotFound (addEdge h g src dst w).1 = true →
        (addEdge h g src dst w).2 = (h, g))
    ∧ (raisesNodeNotFound (isConnected h g src dst).1 = true →
        (isConnected h g src dst).2 = (h, g)) := by
  cases hs : find g.node_cont src with
  | none =>
    have e1 : addEdge h g src dst w = (.error .originDoesNotExist, h, g) := by
      simp [addEdge, checkNodes, hs]
    have e2 : isConnected h g src dst = (.error .originDoesNotExist, h, g) := by
      simp [isConnected, checkNodes, hs]
    simp [e1, e2, isNode, hs, raisesNodeNotFound, Err.isNodeNotFound]
  | some ps =>
    cases hd : find g.node_cont dst with
    | none =>
      have e1 : addEdge h g src dst w = (.error .destDoesNotExist, h, g) := by
        simp [addEdge, checkNodes, hs, hd]
      have e2 : isConnected h g src dst = (.error .destDoesNotExist, h, g) := by
        simp [isConnected, checkNodes, hs, hd]
      simp [e1, e2, isNode, hs, hd, raisesNodeNotFound, Err.isNodeNotFound]
    | some pd =>
      have e1 := addEdge_present h g src dst w ps pd hs hd
      have e2 := isConnected_present h g src dst ps pd hs hd
      simp [e1, e2, isNode, hs, hd]

/-- C6: `replace(old,new)` raises `NodeNotFound` exactly when `old` is not a
node, whatever `new` is; when `old` is a node and `new` is one too (also for
`new = old`) it returns false; in both cases heap and graph are unchanged. -/
theorem replace_guard (h : Heap N E) (g : Graph N) (oldData newData : N) :
    (raisesNodeNotFound (replace h g oldData newData).1 = true ↔ isNode g oldData = false)
    ∧ (isNode g oldData = false →
        replace h g oldData newData = (.error .originDoesNotExistReplace, h, g))
    ∧ (isNode g oldData = true → isNode g newData = true →
        replace h g oldData newData = (.ok false, h, g))
    ∧ (isNode g oldData = true → replace h g oldData oldData = (.ok false, h, g)) := by
  cases ho : find g.node_cont oldData with
  | none =>
    have e1 : replace h g oldData newData = (.error .originDoesNotExistReplace, h, g) := by
      simp [replace, ho]
    simp [e1, isNode, ho, raisesNodeNotFound, Err.isNodeNotFound]
  | some po =>
    have e0 : replace h g oldData oldData = (.ok false, h, g) := by
      simp [replace, ho]
    cases hn : find g.node_cont newData with
    | some pn =>
      have e1 : replace h g oldData newData = (.ok false, h, g) := by
        simp [replace, ho, hn]
      simp [e1, e0, isNode, ho, hn, raisesNodeNotFound]
    | none =>
      have e1 : raisesNodeNotFound (replace h g oldData newData).1 = false := by
        unfold replace
        simp only [ho, hn]
        cases (find (assign g.node_cont newData po) newData).bind (h.retain po).lock <;> rfl
      simp [e1, e0, isNode, ho, hn]

end c4

/-! ## C5: `replace` relabels -/

section c5
variable {N E : Type} [LinearOrder N]

theorem find_mem {m : List (N × Nat)} {k : N} {p : Nat} (hf : find m k = some p) :
    (k, p) ∈ m := by
  induction m with
  | nil => simp [find] at hf
  | cons a m ih =>
    obtain ⟨k', q⟩ := a
    unfold find at hf
    by_cases hk : k = k'
    · simp only [hk, if_true] at hf
      cases hf
      simp [hk]
    · simp only [hk, if_false] at hf
      exact List.mem_cons_of_mem _ (ih hf)

omit [LinearOrder N] in
theorem cell_of_owned {h : Heap N E} {p : Nat} (ho : h.owned p = true) :
    ∃ c, h.cell p = some c ∧ 1 ≤ c.strong := by
  unfold Heap.owned at ho
  cases hc : h.cell p with
  | none => simp [hc] at ho
  | some c =>
    simp only [hc, decide_eq_true_eq] at ho
    exact ⟨c, rfl, ho⟩

omit [LinearOrder N] in
theorem lock_of_owned {h : Heap N E} {p : Nat} (ho : h.owned p = true) :
    ∃ n, h.lock p = some n := by
  obtain ⟨c, hc, _⟩ := cell_of_owned ho
  exact ⟨c.node, by simp [Heap.lock, hc]⟩

theorem owned_of_alive {h : Heap N E} {g : Graph N} (ha : Alive h g) {k : N} {p : Nat}
    (hf : find g.node_cont k = some p) : h.owned p = true :=
  ha (k, p) (find_mem hf)

omit [LinearOrder N] in
theorem edgesAt_congr {h h' : Heap N E} {q : Nat}
    (hl : (h'.lock q).map GNode.edges = (h.lock q).map GNode.edges) :
    h'.edgesAt q = h.edgesAt q := by
  unfold Heap.edgesAt
  cases h1 : h'.lock q <;> cases h2 : h.lock q <;> simp_all

/-- The heap `replace` leaves behind when it renames the node at `p`. -/
theorem replace_eq (h : Heap N E) (g : Graph N) (oldData newData : N) (p : Nat) (n : GNode N E)
    (ho : find g.node_cont oldData = some p) (hn : find g.node_cont newData = none)
    (hl : h.lock p = some n) :
    replace h g oldData newData
      = (.ok true,
          (((h.retain p).store p { n with valueofNode := newData }).release p),
          { g with node_cont := erase (assign g.node_cont newData p) oldData }) := by
  unfold replace
  simp only [ho, hn, find_assign, if_true, Option.bind, lock_retain, hl]

omit [LinearOrder N] in
theorem replace_lock (h : Heap N E) (p : Nat) (m : GNode N E) (hl : h.owned p = true)
    (q : Nat) :
    (((h.retain p).store p m).release p).lock q = if q = p then some m else h.lock q := by
  by_cases hq : q = p
  · subst hq
    obtain ⟨c, hc, hs⟩ := cell_of_owned hl
    unfold Heap.lock
    rw [cell_release, cell_store, cell_retain]
    have : ¬ c.strong = 0 := by omega
    simp [hc, this]
  · rw [lock_release_ne _ hq, lock_store_ne _ _ hq, lock_retain]
    simp [hq]

/-- C5: when `old` is a node and `new` is not, `replace(old,new)` returns true;
afterwards `old` is not a node and `new` is; every other value is a node
exactly if it was and names the same node object; the renamed node object
carries the value `new` and every node object keeps its edge set; and for all
`x`, `y` other than the fresh name `new` and all `w`, there is an edge
`r(x) → r(y)` of weight `w` after the call exactly if there was an edge
`x → y` of weight `w` before it, `r` mapping `old` to `new` and fixing the
rest; every edge after the call is such an image. -/
theorem replace_relabels [DecidableEq E] (h : Heap N E) (g : Graph N) (oldData newData : N)
    (ha : Alive h g) (ho : isNode g oldData = true) (hn : isNode g newData = false) :
    (replace h g oldData newData).1 = .ok true
    ∧ isNode (replace h g oldData newData).2.2 oldData = false
    ∧ isNode (replace h g oldData newData).2.2 newData = true
    ∧ (∀ u, u ≠ oldData → u ≠ newData →
        find (replace h g oldData newData).2.2.node_cont u = find g.node_cont u)
    ∧ find (replace h g oldData newData).2.2.node_cont newData = find g.node_cont oldData
    ∧ (∀ p, find g.node_cont oldData = some p →
        (replace h g oldData newData).2.1.valueAt p = some newData
        ∧ ∀ q, q ≠ p → (replace h g oldData newData).2.1.lock q = h.lock q)
    ∧ (∀ q, (replace h g oldData newData).2.1.edgesAt q = h.edgesAt q)
    ∧ (∀ x y w, x ≠ newData → y ≠ newData →
        hasEdge (replace h g oldData newData).2.1 (replace h g oldData newData).2.2
            (rekey oldData newData x) (rekey oldData newData y) w
          = hasEdge h g x y w)
    ∧ (∀ x' y' w,
        hasEdge (replace h g oldData newData).2.1 (replace h g oldData newData).2.2 x' y' w = true →
        ∃ x y, hasEdge h g x y w = true
          ∧ rekey oldData newData x = x' ∧ rekey oldData newData y = y') := by
  cases hfo : find g.node_cont oldData with
  | none => simp [isNode, hfo] at ho
  | some p =>
  cases hfn : find g.node_cont newData with
  | some pn => simp [isNode, hfn] at hn
  | none =>
  have hown := owned_of_alive ha hfo
  obtain ⟨n, hl⟩ := lock_of_owned hown
  have hne : newData ≠ oldData := by
    intro e; rw [e, hfo] at hfn; cases hfn
  have hne' : oldData ≠ newData := fun e => hne e.symm
  rw [replace_eq h g oldData newData p n hfo hfn hl]
  -- the map after the call
  have hfind : ∀ k, find (erase (assign g.node_cont newData p) oldData) k
      = if k = oldData then none else if k = newData then some p else find g.node_cont k := by
    intro k; rw [find_erase, find_assign]
  -- the edge sets after the call
  have hedges : ∀ q, (((h.retain p).store p { n with valueofNode := newData }).release p).edgesAt q
      = h.edgesAt q := by
    intro q
    apply edgesAt_congr
    rw [replace_lock h p _ hown]
    by_cases hq : q = p
    · subst hq; simp [hl]
    · simp [hq]
  -- the node of `r x` after the call is the node of `x` before it
  have hrel : ∀ x, x ≠ newData →
      find (erase (assign g.node_cont newData p) oldData) (rekey oldData newData x)
        = find g.node_cont x := by
    intro x hx
    rw [hfind]
    unfold rekey
    by_cases hxo : x = oldData
    · subst hxo; simp [hne, hfo]
    · simp [hxo, hx]
  have hiff : ∀ x y w, x ≠ newData → y ≠ newData →
      hasEdge (((h.retain p).store p { n with valueofNode := newData }).release p)
          { g with node_cont := erase (assign g.node_cont newData p) oldData }
          (rekey oldData newData x) (rekey oldData newData y) w
        = hasEdge h g x y w := by
    intro x y w hx hy
    unfold hasEdge
    simp only [hrel x hx, hrel y hy, hedges]
  refine ⟨rfl, ?_, ?_, ?_, ?_, ?_, hedges, hiff, ?_⟩
  · simp [isNode, hfind]
  · simp [isNode, hfind, hne]
  · intro u hu1 hu2
    simp [hfind, hu1, hu2]
  · simp [hfind, hne]
  · intro p' hp'
    cases hp'
    refine ⟨?_, ?_⟩
    · simp [Heap.valueAt, replace_lock h p _ hown]
    · intro q hq
      simp [replace_lock h p _ hown, hq]
  · intro x' y' w hE
    -- both ends are nodes after the call, so neither is `old`
    have hx' : x' ≠ oldData := by
      intro e
      unfold hasEdge at hE
      simp [hfind, e] at hE
    have hy' : y' ≠ oldData := by
      intro e
      unfold hasEdge at hE
      simp only [hfind, e, if_true] at hE
      split at hE <;> simp_all
    refine ⟨if x' = newData then oldData else x', if y' = newData then oldData else y', ?_, ?_, ?_⟩
    · rw [← hiff]
      · have e1 : rekey oldData newData (if x' = newData then oldData else x') = x' := by
          unfold rekey
          by_cases hx : x' = newData <;> simp [hx, hx']
        have e2 : rekey oldData newData (if y' = newData then oldData else y') = y' := by
          unfold rekey
          by_cases hy : y' = newData <;> simp [hy, hy']
        rw [e1, e2]; exact hE
      · by_cases hx : x' = newData <;> simp [hx, hne']
      · by_cases hy : y' = newData <;> simp [hy, hne']
    · unfold rekey
      by_cases hx : x' = newData <;> simp [hx, hx']
    · unfold rekey
      by_cases hy : y' = newData <;> simp [hy, hy']

end c5

/-! ## The loops of `mergeReplace` -/

section mergeloops
variable {N E : Type}

theorem valueAt_store_same (h : Heap N E) (p : Nat) (nd n : GNode N E)
    (hl : h.lock p = some nd) (hv : n.valueofNode = nd.valueofNode) :
    (h.store p n).valueAt = h.valueAt := by
  funext q
  unfold Heap.valueAt
  rw [lock_store]
  by_cases hq : q = p
  · subst hq; simp [hl, hv]
  · simp [hq]

theorem lock_isSome_store (h : Heap N E) (p : Nat) (n : GNode N E) (q : Nat) :
    ((h.store p n).lock q).isSome = (h.lock q).isSome := by
  rw [lock_store]
  by_cases hq : q = p
  · subst hq; cases h.lock q <;> simp
  · simp [hq]

theorem lockPtr_of_lock {h : Heap N E} {p : Nat} {n : GNode N E} (hl : h.lock p = some n) :
    h.lockPtr p = some p := by
  unfold Heap.lock at hl
  unfold Heap.lockPtr
  cases hc : h.cell p with
  | none => simp [hc] at hl
  | some c => rfl

theorem lockPtr_eq_some {h : Heap N E} {p q : Nat} (hl : h.lockPtr p = some q) : p = q := by
  unfold Heap.lockPtr at hl
  cases hc : h.cell p with
  | none => simp [hc] at hl
  | some c => simp only [hc] at hl; cases hl; rfl

variable [LinearOrder N]

theorem retarget_ok (h : Heap N E) (oldData : N) (pN : Nat) (es : List (GEdge E))
    (hes : ∀ e ∈ es, (h.lock e.destin).isSome = true) :
    retarget h oldData pN es = (.ok (), es.map (retargetEdge h.valueAt oldData pN)) := by
  induction es with
  | nil => rfl
  | cons e es ih =>
    have he := hes e (List.mem_cons_self _ _)
    have ih' := ih (fun e' h' => hes e' (List.mem_cons_of_mem _ h'))
    obtain ⟨d, hd⟩ := Option.isSome_iff_exists.mp he
    unfold retarget
    simp only [hd, ih', List.map_cons]
    have : retargetEdge h.valueAt oldData pN e
        = if d.valueofNode = oldData then { e with destin := pN } else e := by
      unfold retargetEdge Heap.valueAt
      simp [hd]
    rw [this]

omit [LinearOrder N] in
theorem mergeFound_iff [DecidableEq E] (h : Heap N E) (e : GEdge E) (es : List (GEdge E)) :
    mergeFound h e es = true
      ↔ ∃ e' ∈ es, h.lockPtr e.destin = h.lockPtr e'.destin ∧ e.valofEdge = e'.valofEdge := by
  induction es with
  | nil => simp [mergeFound]
  | cons a es ih =>
    unfold mergeFound
    by_cases ha : h.lockPtr e.destin = h.lockPtr a.destin ∧ e.valofEdge = a.valofEdge
    · rw [if_pos ha]
      simp only [true_iff]
      exact ⟨a, List.mem_cons_self _ _, ha.1, ha.2⟩
    · rw [if_neg ha, ih]
      simp only [List.mem_cons]
      constructor
      · rintro ⟨e', he', h1⟩
        exact ⟨e', Or.inr he', h1⟩
      · rintro ⟨e', he' | he', h1⟩
        · subst he'; exact absurd h1 ha
        · exact ⟨e', he', h1⟩

/-- The first loop of `mergeReplace` runs to its end when the new node is
alive and every edge of the old node resolves; it only appends edges to the
set of the new node. -/
theorem mergeOutgoing_ok [DecidableEq E] (oldData : N) (pN : Nat) (es : List (GEdge E)) :
    ∀ (h : Heap N E) (nn : GNode N E), h.lock pN = some nn →
      (∀ e ∈ es, (h.lock e.destin).isSome = true) →
      ∃ extra h1, mergeOutgoing oldData pN h es = (.ok (), h1)
        ∧ (∀ q, h1.lock q
            = if q = pN then some { nn with edges := nn.edges ++ extra } else h.lock q)
        ∧ (∀ e' ∈ extra, ∃ e ∈ es, e' = movedEdge h.valueAt oldData pN e)
        ∧ (∀ e ∈ es, ∃ e' ∈ nn.edges ++ extra, e'.valofEdge = e.valofEdge
            ∧ (e'.destin = e.destin ∨ e' = movedEdge h.valueAt oldData pN e)) := by
  induction es with
  | nil =>
    intro h nn hnn _
    refine ⟨[], h, rfl, ?_, ?_, ?_⟩
    · intro q
      by_cases hq : q = pN
      · subst hq; simp [hnn]
      · simp [hq]
    · simp
    · simp
  | cons e es ih =>
    intro h nn hnn hes
    have he := hes e (List.mem_cons_self _ _)
    have hes' : ∀ e' ∈ es, (h.lock e'.destin).isSome = true :=
      fun e' h' => hes e' (List.mem_cons_of_mem _ h')
    obtain ⟨d, hd⟩ := Option.isSome_iff_exists.mp he
    unfold mergeOutgoing
    simp only [hnn]
    by_cases hf : mergeFound h e nn.edges = true
    · simp only [hf, if_true]
      obtain ⟨extra, h1, hrun, hlock, hex, hcov⟩ := ih h nn hnn hes'
      refine ⟨extra, h1, hrun, hlock, ?_, ?_⟩
      · intro e' he'
        obtain ⟨e0, he0, h0⟩ := hex e' he'
        exact ⟨e0, List.mem_cons_of_mem _ he0, h0⟩
      · intro e0 he0
        rcases List.mem_cons.mp he0 with h0 | h0
        · subst h0
          obtain ⟨e', he', hp, hw⟩ := (mergeFound_iff h e0 nn.edges).mp hf
          rw [lockPtr_of_lock hd] at hp
          have := lockPtr_eq_some hp.symm
          exact ⟨e', List.mem_append_left _ he', hw.symm, Or.inl this⟩
        · exact hcov e0 h0
    · simp only [hf, hd]
      have hval : (h.store pN { nn with edges := nn.edges ++
          [if d.valueofNode = oldData then
              ({ source := pN, destin := pN, valofEdge := e.valofEdge } : GEdge E)
            else { source := pN, destin := e.destin, valofEdge := e.valofEdge }] }).valueAt
          = h.valueAt := valueAt_store_same h pN nn _ hnn rfl
      have hmv : movedEdge h.valueAt oldData pN e
          = if d.valueofNode = oldData then
              ({ source := pN, destin := pN, valofEdge := e.valofEdge } : GEdge E)
            else { source := pN, destin := e.destin, valofEdge := e.valofEdge } := by
        unfold movedEdge Heap.valueAt
        simp [hd]
      rw [← hmv] at hval ⊢
      obtain ⟨extra, h1, hrun, hlock, hex, hcov⟩ :=
        ih (h.store pN { nn with edges := nn.edges ++ [movedEdge h.valueAt oldData pN e] })
          { nn with edges := nn.edges ++ [movedEdge h.valueAt oldData pN e] }
          (lock_store_self hnn _)
          (fun e' h' => by rw [lock_isSome_store]; exact hes' e' h')
      rw [hval] at hex hcov
      refine ⟨movedEdge h.valueAt oldData pN e :: extra, h1, ?_, ?_, ?_, ?_⟩
      · simpa using hrun
      · intro q
        rw [hlock q]
        by_cases hq : q = pN
        · simp [hq]
        · simp [hq, lock_store_ne]
      · intro e' he'
        rcases List.mem_cons.mp he' with h0 | h0
        · exact ⟨e, List.mem_cons_self _ _, h0⟩
        · obtain ⟨e0, he0, h0'⟩ := hex e' h0
          exact ⟨e0, List.mem_cons_of_mem _ he0, h0'⟩
      · intro e0 he0
        rcases List.mem_cons.mp he0 with h0 | h0
        · subst h0
          refine ⟨movedEdge h.valueAt oldData pN e0, by simp, ?_, Or.inr rfl⟩
          unfold movedEdge
          split <;> rfl
        · obtain ⟨e', he', hw, hor⟩ := hcov e0 h0
          refine ⟨e', ?_, hw, hor⟩
          simpa [List.append_assoc] using he'

/-- The second loop of `mergeReplace` runs to its end when the map entries
point to different live nodes all of whose edges resolve; it retargets every
edge of every node of the map. -/
theorem mergeIncoming_ok (oldData : N) (pN : Nat) (m : List (N × Nat)) :
    ∀ (h : Heap N E), (m.map Prod.snd).Nodup →
      (∀ kp ∈ m, ∃ nd, h.lock kp.2 = some nd
        ∧ ∀ e ∈ nd.edges, (h.lock e.destin).isSome = true) →
      ∃ h2, mergeIncoming oldData pN h m = (.ok (), h2)
        ∧ ∀ q, h2.lock q
            = if q ∈ m.map Prod.snd then
                (h.lock q).map fun nd =>
                  { nd with edges := nd.edges.map (retargetEdge h.valueAt oldData pN) }
              else h.lock q := by
  induction m with
  | nil =>
    intro h _ _
    exact ⟨h, rfl, by simp⟩
  | cons a m ih =>
    obtain ⟨k, p⟩ := a
    intro h hnd hal
    obtain ⟨nd, hl, hedges⟩ := hal (k, p) (List.mem_cons_self _ _)
    simp only [List.map_cons, List.nodup_cons] at hnd
    obtain ⟨hp, hnd'⟩ := hnd
    have hval : (h.store p
        { nd with edges := nd.edges.map (retargetEdge h.valueAt oldData pN) }).valueAt
        = h.valueAt := valueAt_store_same h p nd _ hl rfl
    obtain ⟨h2, hrun, hlock⟩ :=
      ih (h.store p { nd with edges := nd.edges.map (retargetEdge h.valueAt oldData pN) }) hnd'
        (by
          intro kp hkp
          obtain ⟨nd', hl', hedges'⟩ := hal kp (List.mem_cons_of_mem _ hkp)
          have hne : kp.2 ≠ p := by
            intro e
            apply hp
            rw [← e]
            exact List.mem_map_of_mem Prod.snd hkp
          refine ⟨nd', ?_, ?_⟩
          · rw [lock_store_ne _ _ hne]; exact hl'
          · intro e he
            rw [lock_isSome_store]
            exact hedges' e he)
    rw [hval] at hlock
    refine ⟨h2, ?_, ?_⟩
    · unfold mergeIncoming
      simp only [hl, retarget_ok h oldData pN nd.edges hedges]
      exact hrun
    · intro q
      rw [hlock q]
      by_cases hq : q = p
      · subst hq
        simp [hp, lock_store_self hl, hl]
      · simp only [lock_store_ne _ _ hq, List.map_cons, List.mem_cons, hq, false_or]

theorem mergeOutgoing_error [DecidableEq E] (oldData : N) (pN : Nat) (es : List (GEdge E)) :
    ∀ (h h1 : Heap N E) (e : Err), mergeOutgoing oldData pN h es = (.error e, h1) →
      e = .fault := by
  induction es with
  | nil =>
    intro h h1 e he
    simp [mergeOutgoing] at he
  | cons a es ih =>
    intro h h1 e he
    unfold mergeOutgoing at he
    cases hl : h.lock pN with
    | none =>
      simp only [hl, Prod.mk.injEq] at he
      cases he.1; rfl
    | some nn =>
      simp only [hl] at he
      by_cases hf : mergeFound h a nn.edges = true
      · simp only [hf, if_true] at he
        exact ih _ _ _ he
      · have hf' : mergeFound h a nn.edges = false := by
          cases hb : mergeFound h a nn.edges
          · rfl
          · exact absurd hb hf
        rw [hf'] at he
        simp only [Bool.false_eq_true, if_false] at he
        cases hd : h.lock a.destin with
        | none =>
          simp only [hd, Prod.mk.injEq] at he
          cases he.1; rfl
        | some d =>
          simp only [hd] at he
          exact ih _ _ _ he

theorem retarget_error (h : Heap N E) (oldData : N) (pN : Nat) (es : List (GEdge E)) (e : Err)
    (he : (retarget h oldData pN es).1 = .error e) : e = .fault := by
  induction es with
  | nil => simp [retarget] at he
  | cons a es ih =>
    unfold retarget at he
    cases hd : h.lock a.destin with
    | none =>
      simp only [hd] at he
      cases he; rfl
    | some d =>
      simp only [hd] at he
      exact ih he

theorem mergeIncoming_error (oldData : N) (pN : Nat) (m : List (N × Nat)) :
    ∀ (h h1 : Heap N E) (e : Err), mergeIncoming oldData pN h m = (.error e, h1) →
      e = .fault := by
  induction m with
  | nil =>
    intro h h1 e he
    simp [mergeIncoming] at he
  | cons a m ih =>
    obtain ⟨k, p⟩ := a
    intro h h1 e he
    unfold mergeIncoming at he
    cases hl : h.lock p with
    | none =>
      simp only [hl, Prod.mk.injEq] at he
      cases he.1; rfl
    | some nd =>
      simp only [hl] at he
      cases hr : (retarget h oldData pN nd.edges).1 with
      | error e' =>
        simp only [hr, Prod.mk.injEq] at he
        have := retarget_error h oldData pN nd.edges e' hr
        subst this
        cases he.1; rfl
      | ok u =>
        simp only [hr] at he
        exact ih _ _ _ he

omit [LinearOrder N] in
/-- Writing a node leaves every reference count as it is. -/
theorem strong_store (h : Heap N E) (p : Nat) (n : GNode N E) (q : Nat) :
    ((h.store p n).cell q).map Cell.strong = (h.cell q).map Cell.strong := by
  rw [cell_store]
  by_cases hq : q = p
  · subst hq
    cases h.cell q <;> simp
  · simp [hq]

/-- The first loop of `mergeReplace` leaves every reference count as it is,
however it ends. -/
theorem mergeOutgoing_strong [DecidableEq E] (oldData : N) (pN : Nat) (es : List (GEdge E)) :
    ∀ (h : Heap N E) (q : Nat),
      ((mergeOutgoing oldData pN h es).2.cell q).map Cell.strong = (h.cell q).map Cell.strong := by
  induction es with
  | nil => intro h q; rfl
  | cons e es ih =>
    intro h q
    unfold mergeOutgoing
    cases hl : h.lock pN with
    | none => rfl
    | some nn =>
      simp only []
      split
      · exact ih h q
      · cases hd : h.lock e.destin with
        | none => rfl
        | some t =>
          simp only []
          rw [ih, strong_store]

/-- The second loop of `mergeReplace` leaves every reference count as it is,
however it ends. -/
theorem mergeIncoming_strong (oldData : N) (pN : Nat) (m : List (N × Nat)) :
    ∀ (h : Heap N E) (q : Nat),
      ((mergeIncoming oldData pN h m).2.cell q).map Cell.strong = (h.cell q).map Cell.strong := by
  induction m with
  | nil => intro h q; rfl
  | cons a m ih =>
    intro h q
    obtain ⟨k, p⟩ := a
    unfold mergeIncoming
    cases hl : h.lock p with
    | none => rfl
    | some nd =>
      simp only []
      cases hr : (retarget h oldData pN nd.edges).1 with
      | error e' =>
        simp only []
        exact strong_store _ _ _ _
      | ok u =>
        simp only []
        rw [ih, strong_store]

end mergeloops

/-! ## Well-formed graphs -/

section wf
variable {N E : Type} [LinearOrder N]

theorem mem_find {m : List (N × Nat)} (hs : m.Pairwise fun a b => a.1 < b.1) {k : N} {p : Nat}
    (hm : (k, p) ∈ m) : find m k = some p := by
  induction m with
  | nil => simp at hm
  | cons a m ih =>
    obtain ⟨k', q⟩ := a
    rw [List.pairwise_cons] at hs
    rcases List.mem_cons.mp hm with h0 | h0
    · cases h0
      simp [find]
    · have hlt : k' < k := hs.1 (k, p) h0
      have hne : ¬ k = k' := fun e => absurd hlt (by rw [e]; exact lt_irrefl _)
      simp only [find, hne, if_false]
      exact ih hs.2 h0

theorem mem_erase {m : List (N × Nat)} {old k : N} {p : Nat} :
    (k, p) ∈ erase m old ↔ ((k, p) ∈ m ∧ k ≠ old) := by
  induction m with
  | nil => simp [erase]
  | cons a m ih =>
    obtain ⟨k', q⟩ := a
    unfold erase
    by_cases hk : old = k'
    · subst hk
      simp only [if_true, ih, List.mem_cons, Prod.mk.injEq]
      constructor
      · rintro ⟨h1, h2⟩
        exact ⟨Or.inr h1, h2⟩
      · rintro ⟨h1 | h1, h2⟩
        · exact absurd h1.1 h2
        · exact ⟨h1, h2⟩
    · simp only [hk, if_false, List.mem_cons, ih, Prod.mk.injEq]
      constructor
      · rintro (h1 | h1)
        · refine ⟨Or.inl h1, ?_⟩
          rw [h1.1]
          exact fun e => hk e.symm
        · exact ⟨Or.inr h1.1, h1.2⟩
      · rintro ⟨h1 | h1, h2⟩
        · exact Or.inl h1
        · exact Or.inr ⟨h1, h2⟩

theorem valueAt_of_find {h : Heap N E} {g : Graph N} (hk : KeysMatch h g) {k : N} {p : Nat}
    (hf : find g.node_cont k = some p) : h.valueAt p = some k :=
  hk (k, p) (find_mem hf)

theorem find_inj {h : Heap N E} {g : Graph N} (hk : KeysMatch h g) {k1 k2 : N} {p : Nat}
    (h1 : find g.node_cont k1 = some p) (h2 : find g.node_cont k2 = some p) : k1 = k2 := by
  have e1 := valueAt_of_find hk h1
  have e2 := valueAt_of_find hk h2
  rw [e1] at e2
  exact Option.some.inj e2

omit [LinearOrder N] in
theorem lock_of_valueAt {h : Heap N E} {p : Nat} {k : N} (hv : h.valueAt p = some k) :
    ∃ nd, h.lock p = some nd ∧ nd.valueofNode = k := by
  unfold Heap.valueAt at hv
  cases hl : h.lock p with
  | none => simp [hl] at hv
  | some nd =>
    simp only [hl, Option.map_some', Option.some.injEq] at hv
    exact ⟨nd, rfl, hv⟩

omit [LinearOrder N] in
theorem edgesAt_of_lock {h : Heap N E} {p : Nat} {nd : GNode N E} (hl : h.lock p = some nd) :
    h.edgesAt p = nd.edges := by
  simp [Heap.edgesAt, hl]

theorem addr_nodup {h : Heap N E} {g : Graph N} (hk : KeysMatch h g) (hs : Sorted g) :
    (g.node_cont.map Prod.snd).Nodup := by
  unfold Sorted at hs
  unfold KeysMatch at hk
  generalize g.node_cont = m at hk hs
  induction m with
  | nil => simp
  | cons a m ih =>
    rw [List.pairwise_cons] at hs
    simp only [List.map_cons, List.nodup_cons]
    refine ⟨?_, ih (fun kp hkp => hk kp (List.mem_cons_of_mem _ hkp)) hs.2⟩
    intro hmem
    obtain ⟨b, hb, hbe⟩ := List.mem_map.mp hmem
    have h1 := hk a (List.mem_cons_self _ _)
    have h2 := hk b (List.mem_cons_of_mem _ hb)
    rw [hbe, h1] at h2
    have hlt := hs.1 b hb
    rw [Option.some.inj h2] at hlt
    exact lt_irrefl _ hlt

/-- In a well-formed graph the destination of an edge of a node of the graph
is the node of the graph that carries the value behind the reference. -/
theorem dest_of_noDangling {h : Heap N E} {g : Graph N} (hd : NoDangling h g) {k : N} {p : Nat}
    (hf : find g.node_cont k = some p) {e : GEdge E} (he : e ∈ h.edgesAt p) :
    ∃ kd, h.valueAt e.destin = some kd ∧ find g.node_cont kd = some e.destin := by
  have := hd (k, p) (find_mem hf) e he
  cases hv : h.valueAt e.destin with
  | none => simp [hv] at this
  | some kd =>
    simp only [hv, Option.some_bind] at this
    exact ⟨kd, rfl, this⟩

end wf

/-! ## `mergeReplace` on a well-formed graph -/

section mergerun
variable {N E : Type} [LinearOrder N] [DecidableEq E] [OfNat N 3]

/-- What `mergeReplace(old,new)` does to a well-formed graph in which `old`
and `new` are nodes: it appends to the edge set of the new node the moved
edges `extra` of the old node, retargets every edge of every node, erases
`old` from the map, and then completes if 3 is still a node and faults if it
is not. -/
theorem mergeReplace_loops (h : Heap N E) (g : Graph N) (oldData newData : N) (pO pN : Nat)
    (hk : KeysMatch h g) (hd : NoDangling h g) (hs : Sorted g)
    (hO : find g.node_cont oldData = some pO) (hN : find g.node_cont newData = some pN) :
    ∃ extra hh,
      mergeReplace h g oldData newData
        = ((if (find (erase g.node_cont oldData) 3).isSome then Except.ok ()
            else Except.error Err.fault),
            hh, { g with node_cont := erase g.node_cont oldData })
      ∧ (∀ q, q ≠ pO → hh.valueAt q = h.valueAt q)
      ∧ (∀ k p, find g.node_cont k = some p → k ≠ oldData →
          hh.edgesAt p
            = (if p = pN then h.edgesAt pN ++ extra else h.edgesAt p).map
                (retargetEdge h.valueAt oldData pN))
      ∧ (∀ e' ∈ extra, ∃ e ∈ h.edgesAt pO, e' = movedEdge h.valueAt oldData pN e)
      ∧ (∀ e ∈ h.edgesAt pO, ∃ e' ∈ h.edgesAt pN ++ extra, e'.valofEdge = e.valofEdge
          ∧ (e'.destin = e.destin ∨ e' = movedEdge h.valueAt oldData pN e))
      ∧ (∀ q, (hh.cell q).map Cell.strong = ((h.release pO).cell q).map Cell.strong) := by
  obtain ⟨o, hlo, _⟩ := lock_of_valueAt (valueAt_of_find hk hO)
  obtain ⟨nn, hln, hnv⟩ := lock_of_valueAt (valueAt_of_find hk hN)
  have hEO : h.edgesAt pO = o.edges := edgesAt_of_lock hlo
  have hEN : h.edgesAt pN = nn.edges := edgesAt_of_lock hln
  -- every edge of every node of the graph resolves
  have hres : ∀ k p, find g.node_cont k = some p → ∀ e ∈ h.edgesAt p,
      (h.lock e.destin).isSome = true := by
    intro k p hf e he
    obtain ⟨kd, hv, _⟩ := dest_of_noDangling hd hf he
    obtain ⟨nd, hl, _⟩ := lock_of_valueAt hv
    simp [hl]
  -- the first loop
  obtain ⟨extra, h1, hrun1, hlock1, hex, hcov⟩ :=
    mergeOutgoing_ok oldData pN o.edges h nn hln (by rw [← hEO]; exact hres oldData pO hO)
  have hsome1 : ∀ q, (h.lock q).isSome = true → (h1.lock q).isSome = true := by
    intro q hq
    rw [hlock1]
    by_cases hqn : q = pN
    · simp [hqn]
    · simp [hqn, hq]
  have hval1 : h1.valueAt = h.valueAt := by
    funext q
    unfold Heap.valueAt
    rw [hlock1]
    by_cases hqn : q = pN
    · subst hqn; simp [hln]
    · simp [hqn]
  have hE1 : ∀ q, h1.edgesAt q = if q = pN then h.edgesAt pN ++ extra else h.edgesAt q := by
    intro q
    unfold Heap.edgesAt
    rw [hlock1]
    by_cases hqn : q = pN
    · subst hqn; simp [hln]
    · simp [hqn]
  -- the second loop
  obtain ⟨h2, hrun2, hlock2⟩ :=
    mergeIncoming_ok oldData pN g.node_cont h1 (addr_nodup hk hs) (by
      intro kp hkp
      have hf : find g.node_cont kp.1 = some kp.2 := mem_find hs hkp
      obtain ⟨nd, hl, _⟩ := lock_of_valueAt (valueAt_of_find hk hf)
      obtain ⟨nd1, hl1⟩ := Option.isSome_iff_exists.mp (hsome1 kp.2 (by simp [hl]))
      refine ⟨nd1, hl1, ?_⟩
      intro e he
      rw [← edgesAt_of_lock hl1, hE1] at he
      by_cases hqn : kp.2 = pN
      · rw [if_pos hqn] at he
        rcases List.mem_append.mp he with he | he
        · exact hsome1 _ (hres newData pN hN e he)
        · obtain ⟨e0, he0, hm⟩ := hex e he
          rw [← hEO] at he0
          have hr0 := hres oldData pO hO e0 he0
          rw [hm]
          unfold movedEdge
          split
          · exact hsome1 _ (by simp [hln])
          · exact hsome1 _ hr0
      · rw [if_neg hqn] at he
        exact hsome1 _ (hres kp.1 kp.2 hf e he))
  rw [hval1] at hlock2
  -- if 3 is still a node after the erase, its node object is alive
  have hlast : ∀ p3, find (erase g.node_cont oldData) 3 = some p3 →
      ∃ n, (h2.release pO).lock p3 = some n := by
    intro p3 hf3
    rw [find_erase] at hf3
    by_cases h3o : (3 : N) = oldData
    · simp [h3o] at hf3
    · rw [if_neg h3o] at hf3
      have hp3 : p3 ≠ pO := by
        intro e
        rw [e] at hf3
        exact h3o (find_inj hk hf3 hO)
      have hmem3 : p3 ∈ g.node_cont.map Prod.snd :=
        List.mem_map_of_mem Prod.snd (find_mem hf3)
      obtain ⟨n3, hl3, _⟩ := lock_of_valueAt (valueAt_of_find hk hf3)
      obtain ⟨n3', hl3'⟩ := Option.isSome_iff_exists.mp (hsome1 p3 (by simp [hl3]))
      rw [lock_release_ne _ hp3, hlock2, if_pos hmem3, hl3']
      exact ⟨_, rfl⟩
  refine ⟨extra, h2.release pO, ?_, ?_, ?_, ?_, ?_, ?_⟩
  · unfold mergeReplace checkNodes
    simp only [hO, hN, hlo, hrun1, hrun2]
    cases hf3 : find (erase g.node_cont oldData) 3 with
    | none => simp
    | some p3 =>
      obtain ⟨n, hn⟩ := hlast p3 hf3
      simp [hn]
  · intro q hq
    unfold Heap.valueAt
    rw [lock_release_ne _ hq, hlock2]
    have := congrFun hval1 q
    unfold Heap.valueAt at this
    rw [← this]
    by_cases hm : q ∈ g.node_cont.map Prod.snd
    · rw [if_pos hm]
      cases h1.lock q <;> simp
    · rw [if_neg hm]
  · intro k p hf hko
    have hpo : p ≠ pO := by
      intro e
      rw [e] at hf
      exact hko (find_inj hk hf hO)
    have hm : p ∈ g.node_cont.map Prod.snd := List.mem_map_of_mem Prod.snd (find_mem hf)
    rw [← hE1]
    unfold Heap.edgesAt
    rw [lock_release_ne _ hpo, hlock2, if_pos hm]
    cases h1.lock p <;> simp
  · intro e' he'
    rw [hEO]
    exact hex e' he'
  · intro e he
    rw [hEO] at he
    rw [hEN]
    exact hcov e he
  · intro q
    have e1 := mergeOutgoing_strong oldData pN o.edges h
    have e2 := mergeIncoming_strong oldData pN g.node_cont h1
    rw [hrun1] at e1
    rw [hrun2] at e2
    have e3 : ∀ q, (h2.cell q).map Cell.strong = (h.cell q).map Cell.strong := by
      intro q
      rw [e2, e1]
    rw [cell_release, cell_release]
    by_cases hq : q = pO
    · rw [if_pos hq, if_pos hq]
      have := e3 pO
      cases hc2 : h2.cell pO with
      | none =>
        cases hc : h.cell pO with
        | none => rfl
        | some c => rw [hc2, hc] at this; simp at this
      | some c2 =>
        cases hc : h.cell pO with
        | none => rw [hc2, hc] at this; simp at this
        | some c =>
          rw [hc2, hc] at this
          simp only [Option.map_some', Option.some.injEq] at this
          simp only [Option.some_bind, this]
          split <;> simp [this]
    · rw [if_neg hq, if_neg hq]
      exact e3 q

/-- The same when 3 is a node other than `old`: the call completes. -/
theorem mergeReplace_run (h : Heap N E) (g : Graph N) (oldData newData : N) (pO pN p3 : Nat)
    (hk : KeysMatch h g) (hd : NoDangling h g) (hs : Sorted g)
    (hO : find g.node_cont oldData = some pO) (hN : find g.node_cont newData = some pN)
    (h3 : find g.node_cont 3 = some p3) (h3o : (3 : N) ≠ oldData) :
    ∃ extra hh,
      mergeReplace h g oldData newData
        = (.ok (), hh, { g with node_cont := erase g.node_cont oldData })
      ∧ (∀ q, q ≠ pO → hh.valueAt q = h.valueAt q)
      ∧ (∀ k p, find g.node_cont k = some p → k ≠ oldData →
          hh.edgesAt p
            = (if p = pN then h.edgesAt pN ++ extra else h.edgesAt p).map
                (retargetEdge h.valueAt oldData pN))
      ∧ (∀ e' ∈ extra, ∃ e ∈ h.edgesAt pO, e' = movedEdge h.valueAt oldData pN e)
      ∧ (∀ e ∈ h.edgesAt pO, ∃ e' ∈ h.edgesAt pN ++ extra, e'.valofEdge = e.valofEdge
          ∧ (e'.destin = e.destin ∨ e' = movedEdge h.valueAt oldData pN e)) := by
  obtain ⟨extra, hh, hrun, hval, hE, hex, hcov, _⟩ :=
    mergeReplace_loops h g oldData newData pO pN hk hd hs hO hN
  refine ⟨extra, hh, ?_, hval, hE, hex, hcov⟩
  rw [hrun, find_erase, if_neg h3o, h3]
  rfl

/-- Where `mergeReplace` goes wrong on a well-formed graph: whenever `old` and
`new` are nodes and the value 3 is not a node, or is `old` itself, the call
merges, erases `old` and then faults on the lookup of 3. -/
theorem mergeReplace_fault (h : Heap N E) (g : Graph N) (oldData newData : N)
    (hw : WF h g) (ho : isNode g oldData = true) (hn : isNode g newData = true)
    (h3 : isNode g 3 = false ∨ (3 : N) = oldData) :
    (mergeReplace h g oldData newData).1 = .error .fault
    ∧ (mergeReplace h g oldData newData).2.2
        = { g with node_cont := erase g.node_cont oldData } := by
  obtain ⟨hk, hd, hs⟩ := hw
  have hfind : ∀ v, isNode g v = true → ∃ p, find g.node_cont v = some p := by
    intro v hv
    unfold isNode at hv
    cases hf : find g.node_cont v with
    | none => simp [hf] at hv
    | some p => exact ⟨p, rfl⟩
  obtain ⟨pO, hO⟩ := hfind oldData ho
  obtain ⟨pN, hN⟩ := hfind newData hn
  obtain ⟨extra, hh, hrun, _⟩ := mergeReplace_loops h g oldData newData pO pN hk hd hs hO hN
  have hnone : find (erase g.node_cont oldData) 3 = none := by
    rw [find_erase]
    rcases h3 with h3 | h3
    · unfold isNode at h3
      cases hf : find g.node_cont 3 with
      | none => simp
      | some p => simp [hf] at h3
    · simp [h3]
  rw [hrun, hnone]
  exact ⟨rfl, rfl⟩

/-- The precondition check of `mergeReplace`: it raises `NodeNotFound` exactly
when `old` or `new` is not a node, and then heap and graph are unchanged. -/
theorem mergeReplace_guard (h : Heap N E) (g : Graph N) (oldData newData : N) :
    (raisesNodeNotFound (mergeReplace h g oldData newData).1 = true
        ↔ (isNode g oldData = false ∨ isNode g newData = false))
    ∧ (raisesNodeNotFound (mergeReplace h g oldData newData).1 = true →
        (mergeReplace h g oldData newData).2 = (h, g)) := by
  cases hO : find g.node_cont oldData with
  | none =>
    have e1 : mergeReplace h g oldData newData = (.error .originDoesNotExist, h, g) := by
      simp [mergeReplace, checkNodes, hO]
    simp [e1, isNode, hO, raisesNodeNotFound, Err.isNodeNotFound]
  | some pO =>
    cases hN : find g.node_cont newData with
    | none =>
      have e1 : mergeReplace h g oldData newData = (.error .destDoesNotExist, h, g) := by
        simp [mergeReplace, checkNodes, hO, hN]
      simp [e1, isNode, hO, hN, raisesNodeNotFound, Err.isNodeNotFound]
    | some pN =>
      have e1 : raisesNodeNotFound (mergeReplace h g oldData newData).1 = false := by
        unfold mergeReplace checkNodes
        simp only [hO, hN]
        cases h.lock pO with
        | none => rfl
        | some o =>
          simp only []
          rcases hm1 : mergeOutgoing oldData pN h o.edges with ⟨r1, h1⟩
          cases r1 with
          | error e =>
            have := mergeOutgoing_error oldData pN o.edges h h1 e hm1
            subst this
            rfl
          | ok u =>
            simp only []
            rcases hm2 : mergeIncoming oldData pN h1 g.node_cont with ⟨r2, h2⟩
            cases r2 with
            | error e =>
              have := mergeIncoming_error oldData pN g.node_cont h1 h2 e hm2
              subst this
              rfl
            | ok u2 =>
              simp only []
              cases find (erase g.node_cont oldData) 3 with
              | none => rfl
              | some p3 =>
                simp only []
                cases (h2.release pO).lock p3 <;> rfl
      simp [e1, isNode, hO, hN]

omit [DecidableEq E] [OfNat N 3] in
theorem retargetEdge_val (val : Nat → Option N) (oldData : N) (pN : Nat) (e : GEdge E) :
    (retargetEdge val oldData pN e).valofEdge = e.valofEdge := by
  unfold retargetEdge
  split <;> rfl

omit [DecidableEq E] [OfNat N 3] in
theorem retargetEdge_dest (val : Nat → Option N) (oldData : N) (pN : Nat) (e : GEdge E) (kd : N)
    (hv : val e.destin = some kd) :
    (retargetEdge val oldData pN e).destin = if kd = oldData then pN else e.destin := by
  unfold retargetEdge
  by_cases hkd : kd = oldData
  · simp [hv, hkd]
  · simp [hv, hkd]

omit [DecidableEq E] [OfNat N 3] in
theorem movedEdge_val (val : Nat → Option N) (oldData : N) (pN : Nat) (e : GEdge E) :
    (movedEdge val oldData pN e).valofEdge = e.valofEdge := by
  unfold movedEdge
  split <;> rfl

omit [DecidableEq E] [OfNat N 3] in
theorem movedEdge_dest (val : Nat → Option N) (oldData : N) (pN : Nat) (e : GEdge E) (kd : N)
    (hv : val e.destin = some kd) :
    (movedEdge val oldData pN e).destin = if kd = oldData then pN else e.destin := by
  unfold movedEdge
  by_cases hkd : kd = oldData
  · simp [hv, hkd]
  · simp [hv, hkd]

omit [DecidableEq E] [OfNat N 3] in
theorem find_rekey {g : Graph N} {oldData newData : N} {pN : Nat}
    (hN : find g.node_cont newData = some pN) {kd : N} {d : Nat}
    (hf : find g.node_cont kd = some d) :
    find g.node_cont (rekey oldData newData kd) = some (if kd = oldData then pN else d) := by
  unfold rekey
  by_cases hkd : kd = oldData
  · simp [hkd, hN]
  · simp [hkd, hf]

omit [DecidableEq E] [OfNat N 3] in
/-- A moved edge is not touched by the retargeting: its destination is the new
node or a node other than the old one. -/
theorem retarget_moved {h : Heap N E} {g : Graph N} (hk : KeysMatch h g) {oldData newData : N}
    {pN : Nat} (hN : find g.node_cont newData = some pN) (hne : oldData ≠ newData)
    (e : GEdge E) (kd : N) (hv : h.valueAt e.destin = some kd) :
    retargetEdge h.valueAt oldData pN (movedEdge h.valueAt oldData pN e)
      = movedEdge h.valueAt oldData pN e := by
  have hvn := valueAt_of_find hk hN
  unfold retargetEdge
  rw [movedEdge_dest _ _ _ _ kd hv]
  by_cases hkd : kd = oldData
  · have : ¬ newData = oldData := fun e => hne e.symm
    simp [hkd, hvn, this]
  · simp [hkd, hv]

/-- The edges after `mergeReplace(old,new)` are the images of the edges before
it under the relabelling of `old` to `new`, edge by edge. -/
theorem mergeReplace_edges (h : Heap N E) (g : Graph N) (oldData newData : N) (pO pN p3 : Nat)
    (hk : KeysMatch h g) (hd : NoDangling h g) (hs : Sorted g)
    (hO : find g.node_cont oldData = some pO) (hN : find g.node_cont newData = some pN)
    (hne : oldData ≠ newData)
    (h3 : find g.node_cont 3 = some p3) (h3o : (3 : N) ≠ oldData) :
    ∃ hh,
      mergeReplace h g oldData newData
        = (.ok (), hh, { g with node_cont := erase g.node_cont oldData })
      ∧ (∀ q, q ≠ pO → hh.valueAt q = h.valueAt q)
      ∧ (∀ k p e', find g.node_cont k = some p → k ≠ oldData → e' ∈ hh.edgesAt p →
          ∃ x px e kd, find g.node_cont x = some px ∧ e ∈ h.edgesAt px
            ∧ rekey oldData newData x = k ∧ e'.valofEdge = e.valofEdge
            ∧ find g.node_cont kd = some e.destin
            ∧ find g.node_cont (rekey oldData newData kd) = some e'.destin)
      ∧ (∀ x px e, find g.node_cont x = some px → e ∈ h.edgesAt px →
          ∃ kd p' e', find g.node_cont kd = some e.destin
            ∧ find g.node_cont (rekey oldData newData x) = some p' ∧ e' ∈ hh.edgesAt p'
            ∧ e'.valofEdge = e.valofEdge
            ∧ find g.node_cont (rekey oldData newData kd) = some e'.destin) := by
  obtain ⟨extra, hh, hrun, hval, hE, hex, hcov⟩ :=
    mergeReplace_run h g oldData newData pO pN p3 hk hd hs hO hN h3 h3o
  have hne' : newData ≠ oldData := fun e => hne e.symm
  refine ⟨hh, hrun, hval, ?_, ?_⟩
  · intro k p e' hf hko he'
    rw [hE k p hf hko] at he'
    obtain ⟨e1, he1, hρ⟩ := List.mem_map.mp he'
    -- an edge that was in the set of this node, or a moved edge of the old node
    have hcase : e1 ∈ h.edgesAt p ∨ (p = pN ∧ e1 ∈ extra) := by
      by_cases hp : p = pN
      · rw [if_pos hp] at he1
        rcases List.mem_append.mp he1 with h1 | h1
        · left; rw [hp]; exact h1
        · right; exact ⟨hp, h1⟩
      · rw [if_neg hp] at he1
        left; exact he1
    rcases hcase with h1 | ⟨hp, h1⟩
    · obtain ⟨kd, hv, hfd⟩ := dest_of_noDangling hd hf h1
      refine ⟨k, p, e1, kd, hf, h1, ?_, ?_, hfd, ?_⟩
      · simp [rekey, hko]
      · rw [← hρ, retargetEdge_val]
      · rw [← hρ, retargetEdge_dest _ _ _ _ kd hv]
        exact find_rekey hN hfd
    · obtain ⟨e0, he0, hm⟩ := hex e1 h1
      obtain ⟨kd, hv, hfd⟩ := dest_of_noDangling hd hO he0
      have hkn : k = newData := by
        rw [hp] at hf
        exact find_inj hk hf hN
      refine ⟨oldData, pO, e0, kd, hO, he0, ?_, ?_, hfd, ?_⟩
      · simp [rekey, hkn]
      · rw [← hρ, retargetEdge_val, hm, movedEdge_val]
      · rw [← hρ, hm, retarget_moved hk hN hne e0 kd hv, movedEdge_dest _ _ _ _ kd hv]
        exact find_rekey hN hfd
  · intro x px e hf he
    obtain ⟨kd, hv, hfd⟩ := dest_of_noDangling hd hf he
    by_cases hxo : x = oldData
    · subst hxo
      rw [hO] at hf
      cases hf
      obtain ⟨e1, he1, hw, hor⟩ := hcov e he
      have hmem : retargetEdge h.valueAt x pN e1 ∈ hh.edgesAt pN := by
        rw [hE newData pN hN hne', if_pos rfl]
        exact List.mem_map_of_mem _ he1
      refine ⟨kd, pN, retargetEdge h.valueAt x pN e1, hfd, ?_, hmem, ?_, ?_⟩
      · simp [rekey, hN]
      · rw [retargetEdge_val, hw]
      · rcases hor with hde | hmv
        · have hv1 : h.valueAt e1.destin = some kd := by rw [hde]; exact hv
          rw [retargetEdge_dest _ _ _ _ kd hv1, hde]
          exact find_rekey hN hfd
        · rw [hmv, retarget_moved hk hN hne e kd hv, movedEdge_dest _ _ _ _ kd hv]
          exact find_rekey hN hfd
    · have hmem : retargetEdge h.valueAt oldData pN e ∈ hh.edgesAt px := by
        rw [hE x px hf hxo]
        apply List.mem_map_of_mem
        by_cases hp : px = pN
        · rw [if_pos hp]
          rw [hp] at he
          exact List.mem_append_left _ he
        · rw [if_neg hp]; exact he
      refine ⟨kd, px, retargetEdge h.valueAt oldData pN e, hfd, ?_, hmem, ?_, ?_⟩
      · simp [rekey, hxo, hf]
      · rw [retargetEdge_val]
      · rw [retargetEdge_dest _ _ _ _ kd hv]
        exact find_rekey hN hfd

end mergerun

/-! ## `mergeReplace` of two different nodes, where it completes -/

section c78
variable {N E : Type} [LinearOrder N] [DecidableEq E] [OfNat N 3]

omit [OfNat N 3] in
theorem hasEdge_iff (h : Heap N E) (g : Graph N) (x y : N) (w : E) :
    hasEdge h g x y w = true
      ↔ ∃ px py, find g.node_cont x = some px ∧ find g.node_cont y = some py
          ∧ ∃ e ∈ h.edgesAt px, e.valofEdge = w ∧ e.destin = py := by
  unfold hasEdge
  cases hx : find g.node_cont x with
  | none => simp
  | some px =>
    cases hy : find g.node_cont y with
    | none => simp
    | some py => simp [List.any_eq_true]

omit [DecidableEq E] [OfNat N 3] in
theorem rekey_ne {oldData newData : N} (hne : oldData ≠ newData) (z : N) :
    rekey oldData newData z ≠ oldData := by
  unfold rekey
  by_cases hz : z = oldData
  · simp [hz]; exact fun e => hne e.symm
  · simp [hz]

omit [DecidableEq E] [OfNat N 3] in
theorem isNode_find {g : Graph N} {v : N} (hv : isNode g v = true) :
    ∃ p, find g.node_cont v = some p := by
  unfold isNode at hv
  cases hf : find g.node_cont v with
  | none => simp [hf] at hv
  | some p => exact ⟨p, rfl⟩

/-- Where `mergeReplace` of two different nodes completes, the nodes.  In a
well-formed graph in which `old` and `new` are two different nodes and the
value 3 is a node other than `old`, `mergeReplace(old,new)` completes; afterwards `old` is not a node, every other
value is a node exactly if it was (so `new` still is one and no node was
added), and every edge of every remaining node has a destination that
resolves to a node of the graph, which is neither the old node object nor a
node of value `old`. -/
theorem mergeReplace_nodes (h : Heap N E) (g : Graph N) (oldData newData : N)
    (hw : WF h g) (ho : isNode g oldData = true) (hn : isNode g newData = true)
    (hne : oldData ≠ newData) (h3 : isNode g 3 = true) (h3o : (3 : N) ≠ oldData) :
    (mergeReplace h g oldData newData).1 = .ok ()
    ∧ isNode (mergeReplace h g oldData newData).2.2 oldData = false
    ∧ (∀ u, u ≠ oldData → isNode (mergeReplace h g oldData newData).2.2 u = isNode g u)
    ∧ NoDangling (mergeReplace h g oldData newData).2.1 (mergeReplace h g oldData newData).2.2
    ∧ (∀ kp ∈ (mergeReplace h g oldData newData).2.2.node_cont,
        ∀ e ∈ (mergeReplace h g oldData newData).2.1.edgesAt kp.2,
          (mergeReplace h g oldData newData).2.1.valueAt e.destin ≠ some oldData
          ∧ find g.node_cont oldData ≠ some e.destin) := by
  obtain ⟨hk, hd, hs⟩ := hw
  obtain ⟨pO, hO⟩ := isNode_find ho
  obtain ⟨pN, hN⟩ := isNode_find hn
  obtain ⟨p3, hp3⟩ := isNode_find h3
  obtain ⟨hh, hrun, hval, hA, _⟩ :=
    mergeReplace_edges h g oldData newData pO pN p3 hk hd hs hO hN hne hp3 h3o
  rw [hrun]
  -- the destination of an edge after the call
  have hdest : ∀ kp ∈ erase g.node_cont oldData, ∀ e ∈ hh.edgesAt kp.2,
      ∃ kd, kd ≠ oldData ∧ find g.node_cont kd = some e.destin
        ∧ hh.valueAt e.destin = some kd := by
    intro kp hkp e he
    obtain ⟨hm, hko⟩ := mem_erase.mp hkp
    obtain ⟨x, px, e0, kd, _, _, _, _, _, hfr⟩ := hA kp.1 kp.2 e (mem_find hs hm) hko he
    have hr := rekey_ne hne kd
    refine ⟨rekey oldData newData kd, hr, hfr, ?_⟩
    have hq : e.destin ≠ pO := by
      intro e1
      rw [e1] at hfr
      exact hr (find_inj hk hfr hO)
    rw [hval _ hq]
    exact valueAt_of_find hk hfr
  refine ⟨rfl, ?_, ?_, ?_, ?_⟩
  · simp [isNode, find_erase]
  · intro u hu
    simp [isNode, find_erase, hu]
  · intro kp hkp e he
    obtain ⟨kd, hkd, hf, hv⟩ := hdest kp hkp e he
    simp only [hv, Option.some_bind, find_erase, if_neg hkd]
    exact hf
  · intro kp hkp e he
    obtain ⟨kd, hkd, hf, hv⟩ := hdest kp hkp e he
    refine ⟨?_, ?_⟩
    · rw [hv]
      intro e1
      exact hkd (Option.some.inj e1)
    · intro e1
      exact hkd (find_inj hk hf e1)

/-- Where `mergeReplace` of two different nodes completes, the edges.  In a
well-formed graph in which `old` and `new` are two different nodes and the
value 3 is a node other than `old`, `mergeReplace(old,new)` completes, and the edges `(x', y', w)` after the call
are exactly the images of the edges `(x, y, w)` before it under the
relabelling that maps `old` to `new` and fixes every other value. -/
theorem mergeReplace_image (h : Heap N E) (g : Graph N) (oldData newData : N)
    (hw : WF h g) (ho : isNode g oldData = true) (hn : isNode g newData = true)
    (hne : oldData ≠ newData) (h3 : isNode g 3 = true) (h3o : (3 : N) ≠ oldData) :
    (mergeReplace h g oldData newData).1 = .ok ()
    ∧ ∀ x' y' w,
        hasEdge (mergeReplace h g oldData newData).2.1 (mergeReplace h g oldData newData).2.2
            x' y' w = true
          ↔ ∃ x y, hasEdge h g x y w = true
              ∧ rekey oldData newData x = x' ∧ rekey oldData newData y = y' := by
  obtain ⟨hk, hd, hs⟩ := hw
  obtain ⟨pO, hO⟩ := isNode_find ho
  obtain ⟨pN, hN⟩ := isNode_find hn
  obtain ⟨p3, hp3⟩ := isNode_find h3
  obtain ⟨hh, hrun, _, hA, hB⟩ :=
    mergeReplace_edges h g oldData newData pO pN p3 hk hd hs hO hN hne hp3 h3o
  rw [hrun]
  refine ⟨rfl, ?_⟩
  intro x' y' w
  have hfe : ∀ k, find (erase g.node_cont oldData) k
      = if k = oldData then none else find g.node_cont k := fun k => find_erase _ _ _
  constructor
  · intro hE
    obtain ⟨px, py, hx, hy, e', he', hw', hde⟩ := (hasEdge_iff _ _ _ _ _).mp hE
    simp only [hfe] at hx hy
    have hxo : x' ≠ oldData := by
      intro e; simp [e] at hx
    have hyo : y' ≠ oldData := by
      intro e; simp [e] at hy
    rw [if_neg hxo] at hx
    rw [if_neg hyo] at hy
    obtain ⟨x, px0, e, kd, hfx, he, hrx, hwe, hfd, hfr⟩ := hA x' px e' hx hxo he'
    refine ⟨x, kd, ?_, hrx, ?_⟩
    · rw [hasEdge_iff]
      exact ⟨px0, e.destin, hfx, hfd, e, he, by rw [← hwe, hw'], rfl⟩
    · rw [hde] at hfr
      exact find_inj hk hfr hy
  · rintro ⟨x, y, hE, hrx, hry⟩
    obtain ⟨px, py, hx, hy, e, he, hw', hde⟩ := (hasEdge_iff _ _ _ _ _).mp hE
    obtain ⟨kd, p', e', hfd, hfx, he', hwe, hfr⟩ := hB x px e hx he
    have hky : kd = y := by
      rw [hde] at hfd
      exact find_inj hk hfd hy
    subst hky
    rw [hasEdge_iff]
    refine ⟨p', e'.destin, ?_, ?_, e', he', by rw [hwe, hw'], rfl⟩
    · rw [hfe, ← hrx, if_neg (rekey_ne hne x)]
      exact hfx
    · rw [hfe, ← hry, if_neg (rekey_ne hne kd)]
      exact hfr

end c78

/-! ## `addEdge` and `isConnected` where every edge resolves -/

section resolved
variable {N E : Type} [LinearOrder N]

theorem isConnectedScan_ok (h : Heap N E) (dst : N) (es : List (GEdge E))
    (hes : ∀ e ∈ es, (h.lock e.destin).isSome = true) :
    isConnectedScan h dst es
      = .ok (es.any fun e => decide (h.valueAt e.destin = some dst)) := by
  induction es with
  | nil => rfl
  | cons e es ih =>
    have he := hes e (List.mem_cons_self _ _)
    have ih' := ih (fun e' h' => hes e' (List.mem_cons_of_mem _ h'))
    obtain ⟨d, hd⟩ := Option.isSome_iff_exists.mp he
    unfold isConnectedScan
    simp only [hd, ih', List.any_cons, Heap.valueAt, Option.map_some', Option.some.injEq]
    by_cases hv : d.valueofNode = dst
    · simp [hv]
    · simp [hv]

theorem addEdgeScan_ok [DecidableEq E] (h : Heap N E) (dst : N) (w : E) (es : List (GEdge E))
    (hes : ∀ e ∈ es, (h.lock e.destin).isSome = true) :
    addEdgeScan h dst w es
      = .ok (es.any fun e =>
          decide (e.valofEdge = w) && decide (h.valueAt e.destin = some dst)) := by
  induction es with
  | nil => rfl
  | cons e es ih =>
    have he := hes e (List.mem_cons_self _ _)
    have ih' := ih (fun e' h' => hes e' (List.mem_cons_of_mem _ h'))
    obtain ⟨d, hd⟩ := Option.isSome_iff_exists.mp he
    unfold addEdgeScan
    simp only [hd, ih', List.any_cons, Heap.valueAt, Option.map_some', Option.some.injEq]
    by_cases hw : e.valofEdge = w
    · by_cases hv : d.valueofNode = dst
      · simp [hw, hv]
      · simp [hw, hv]
    · simp [hw]

/-- In a well-formed graph the value behind the destination of an edge is
`dst` exactly if the destination is the node of `dst`. -/
theorem value_iff_dest {h : Heap N E} {g : Graph N} (hk : KeysMatch h g) (hd : NoDangling h g)
    {src dst : N} {ps pd : Nat} (hs : find g.node_cont src = some ps)
    (hdst : find g.node_cont dst = some pd) {e : GEdge E} (he : e ∈ h.edgesAt ps) :
    h.valueAt e.destin = some dst ↔ e.destin = pd := by
  obtain ⟨kd, hv, hf⟩ := dest_of_noDangling hd hs he
  constructor
  · intro h1
    rw [hv] at h1
    cases h1
    rw [hf] at hdst
    exact Option.some.inj hdst
  · intro h1
    rw [h1]
    exact valueAt_of_find hk hdst

theorem any_congr_mem {α : Type} (l : List α) (f g : α → Bool) (hfg : ∀ a ∈ l, f a = g a) :
    l.any f = l.any g := by
  induction l with
  | nil => rfl
  | cons a l ih =>
    simp only [List.any_cons]
    rw [hfg a (List.mem_cons_self _ _), ih (fun b hb => hfg b (List.mem_cons_of_mem _ hb))]

theorem resolves_of_noDangling {h : Heap N E} {g : Graph N} (hd : NoDangling h g) {k : N}
    {p : Nat} (hf : find g.node_cont k = some p) :
    ∀ e ∈ h.edgesAt p, (h.lock e.destin).isSome = true := by
  intro e he
  obtain ⟨kd, hv, _⟩ := dest_of_noDangling hd hf he
  obtain ⟨nd, hl, _⟩ := lock_of_valueAt hv
  simp [hl]

/-- `isConnected` on a graph without dangling edges: it returns whether some
edge of `src` has the node of `dst` as its destination, and changes nothing. -/
theorem isConnected_resolved (h : Heap N E) (g : Graph N) (src dst : N)
    (hk : KeysMatch h g) (hd : NoDangling h g)
    (hs : isNode g src = true) (hdst : isNode g dst = true) :
    isConnected h g src dst = (.ok (linked h g src dst), h, g) := by
  obtain ⟨ps, hps⟩ := isNode_find hs
  obtain ⟨pd, hpd⟩ := isNode_find hdst
  obtain ⟨s, hl, _⟩ := lock_of_valueAt (valueAt_of_find hk hps)
  have hE := edgesAt_of_lock hl
  unfold isConnected checkNodes linked
  simp only [hps, hpd, hl]
  rw [isConnectedScan_ok h dst s.edges (by rw [← hE]; exact resolves_of_noDangling hd hps), hE]
  have hany : (s.edges.any fun e => decide (h.valueAt e.destin = some dst))
      = s.edges.any fun e => decide (e.destin = pd) := by
    apply any_congr_mem
    intro e he
    rw [← hE] at he
    exact decide_eq_decide.mpr (value_iff_dest hk hd hps hpd he)
  rw [hany]

/-- `addEdge` on a graph without dangling edges, its first result: true
exactly when there is no edge `src → dst` of weight `w` yet; then exactly
that edge is added to the set of `src`, and otherwise nothing changes. -/
theorem addEdge_resolved [DecidableEq E] (h : Heap N E) (g : Graph N) (src dst : N) (w : E)
    (hk : KeysMatch h g) (hd : NoDangling h g) (ps pd : Nat)
    (hps : find g.node_cont src = some ps) (hpd : find g.node_cont dst = some pd) :
    addEdge h g src dst w
      = if hasEdge h g src dst w then (.ok false, h, g)
        else (.ok true,
          h.store ps { edges := h.edgesAt ps ++ [{ source := ps, destin := pd, valofEdge := w }],
                       valueofNode := src }, g) := by
  obtain ⟨s, hl, hsv⟩ := lock_of_valueAt (valueAt_of_find hk hps)
  have hE := edgesAt_of_lock hl
  have hscan : addEdgeScan h dst w s.edges = .ok (hasEdge h g src dst w) := by
    rw [addEdgeScan_ok h dst w s.edges (by rw [← hE]; exact resolves_of_noDangling hd hps)]
    unfold hasEdge
    simp only [hps, hpd, hE]
    congr 1
    apply any_congr_mem
    intro e he
    rw [← hE] at he
    rw [decide_eq_decide.mpr (value_iff_dest hk hd hps hpd he)]
  unfold addEdge checkNodes
  simp only [hps, hpd, hl, hscan]
  cases hasEdge h g src dst w
  · simp [hE, hsv]
  · simp

/-- `addEdge` keeps a graph well formed. -/
theorem addEdge_wf [DecidableEq E] (h : Heap N E) (g : Graph N) (src dst : N) (w : E)
    (hk : KeysMatch h g) (hd : NoDangling h g)
    (hs : isNode g src = true) (hdst : isNode g dst = true) :
    (addEdge h g src dst w).2.2 = g
    ∧ KeysMatch (addEdge h g src dst w).2.1 g ∧ NoDangling (addEdge h g src dst w).2.1 g
    ∧ hasEdge (addEdge h g src dst w).2.1 g src dst w = true := by
  obtain ⟨ps, hps⟩ := isNode_find hs
  obtain ⟨pd, hpd⟩ := isNode_find hdst
  rw [addEdge_resolved h g src dst w hk hd ps pd hps hpd]
  obtain ⟨s, hl, hsv⟩ := lock_of_valueAt (valueAt_of_find hk hps)
  cases hE : hasEdge h g src dst w
  · simp only [Bool.false_eq_true, if_false]
    have hval : (h.store ps
        { edges := h.edgesAt ps ++ [{ source := ps, destin := pd, valofEdge := w }],
          valueofNode := src }).valueAt = h.valueAt :=
      valueAt_store_same h ps s _ hl hsv.symm
    have hedges : ∀ q, (h.store ps
        { edges := h.edgesAt ps ++ [{ source := ps, destin := pd, valofEdge := w }],
          valueofNode := src }).edgesAt q
        = if q = ps then h.edgesAt ps ++ [{ source := ps, destin := pd, valofEdge := w }]
          else h.edgesAt q := by
      intro q
      unfold Heap.edgesAt
      rw [lock_store]
      by_cases hq : q = ps
      · subst hq; simp [hl]
      · simp [hq]
    refine ⟨trivial, ?_, ?_, ?_⟩
    · intro kp hkp
      rw [hval]; exact hk kp hkp
    · intro kp hkp e he
      rw [hval]
      rw [hedges] at he
      by_cases hq : kp.2 = ps
      · rw [if_pos hq] at he
        rcases List.mem_append.mp he with he | he
        · rw [← hq] at he
          exact hd kp hkp e he
        · simp only [List.mem_singleton] at he
          subst he
          simp [valueAt_of_find hk hpd, hpd]
      · rw [if_neg hq] at he
        exact hd kp hkp e he
    · rw [hasEdge_iff]
      refine ⟨ps, pd, hps, hpd, { source := ps, destin := pd, valofEdge := w }, ?_, rfl, rfl⟩
      rw [hedges, if_pos rfl]
      simp
  · simp only [if_true]
    exact ⟨trivial, hk, hd, hE⟩

/-- `addEdge` twice on a graph without dangling edges: the repeated call
returns false and changes nothing, and `isConnected` returns true after the
first call. -/
theorem addEdge_twice [DecidableEq E] (h : Heap N E) (g : Graph N) (src dst : N) (w : E)
    (hk : KeysMatch h g) (hd : NoDangling h g)
    (hs : isNode g src = true) (hdst : isNode g dst = true) :
    addEdge (addEdge h g src dst w).2.1 (addEdge h g src dst w).2.2 src dst w
      = (.ok false, (addEdge h g src dst w).2.1, (addEdge h g src dst w).2.2)
    ∧ (isConnected (addEdge h g src dst w).2.1 (addEdge h g src dst w).2.2 src dst).1
      = .ok true := by
  obtain ⟨hg, hk', hd', hE⟩ := addEdge_wf h g src dst w hk hd hs hdst
  obtain ⟨ps, hps⟩ := isNode_find hs
  obtain ⟨pd, hpd⟩ := isNode_find hdst
  rw [hg]
  refine ⟨?_, ?_⟩
  · rw [addEdge_resolved _ g src dst w hk' hd' ps pd hps hpd, hE]
    simp
  · rw [isConnected_resolved _ g src dst hk' hd' hs hdst]
    obtain ⟨px, py, hx, hy, e, he, _, hde⟩ := (hasEdge_iff _ _ _ _ _).mp hE
    simp only [linked, hx, hy]
    congr 1
    rw [List.any_eq_true]
    exact ⟨e, he, by simp [hde]⟩

end resolved

/-! ## C10: `deleteNode` and the edges into the node -/

section c10
variable {N E : Type} [LinearOrder N]

/-- C10, as amended.  After `deleteNode(v)` the value `v` is not a node, so no
edge leads to a node `v` of the graph; every other value names the node object
it named before; `deleteNode` touches no node object but that of `v`, so
every remaining node keeps its edge set, the edges into `v` included; and
when the graph was the only owner of the node object of `v`, that object is
destroyed, so that those edges are left with an expired destination. -/
theorem deleteNode_expires [DecidableEq E] (h : Heap N E) (g : Graph N) (v : N) :
    isNode (deleteNode h g v).2 v = false
    ∧ (∀ x w, hasEdge (deleteNode h g v).1 (deleteNode h g v).2 x v w = false)
    ∧ (∀ u, u ≠ v → find (deleteNode h g v).2.node_cont u = find g.node_cont u)
    ∧ (∀ p, find g.node_cont v = some p →
        (∀ q, q ≠ p → (deleteNode h g v).1.lock q = h.lock q)
        ∧ (∀ c, h.cell p = some c → c.strong = 1 → (deleteNode h g v).1.lock p = none)) := by
  have hfe : ∀ k, find (deleteNode h g v).2.node_cont k
      = if k = v then none else find g.node_cont k := by
    intro k
    unfold deleteNode
    cases hv : find g.node_cont v with
    | none =>
      by_cases hkv : k = v
      · simp [hkv, hv]
      · simp [hkv]
    | some p => simp [find_erase]
  refine ⟨?_, ?_, ?_, ?_⟩
  · simp [isNode, hfe]
  · intro x w
    unfold hasEdge
    rw [hfe v]
    cases find (deleteNode h g v).2.node_cont x <;> simp
  · intro u hu
    simp [hfe, hu]
  · intro p hp
    have hrun : (deleteNode h g v).1 = h.release p := by
      simp [deleteNode, hp]
    rw [hrun]
    refine ⟨fun q hq => lock_release_ne h hq, ?_⟩
    intro c hc h1
    unfold Heap.lock
    rw [cell_release]
    simp [hc, h1]

end c10

/-! ## C11: `deleteNode` -/

section c11
variable {N E : Type} [LinearOrder N]

theorem find_inj_of_distinct {g : Graph N} (hd : Distinct g) {k1 k2 : N} {p : Nat}
    (h1 : find g.node_cont k1 = some p) (h2 : find g.node_cont k2 = some p) : k1 = k2 := by
  have := List.inj_on_of_nodup_map hd (find_mem h1) (find_mem h2) rfl
  exact congrArg Prod.fst this

/-- C11: `deleteNode(v)` is a total function.  When `v` is not a node, heap
and graph are unchanged.  When `v` is a node, afterwards `v` is not one, there
is no edge out of `v`, the node object of `v` with its edge set is destroyed
if the graph was its only owner, every other value is a node exactly if it
was and names the same node object, and there is an edge `x → y` of weight `w`
between two other nodes exactly if there was one. -/
theorem deleteNode_spec [DecidableEq E] (h : Heap N E) (g : Graph N) (v : N)
    (hd : Distinct g) :
    (isNode g v = false → deleteNode h g v = (h, g))
    ∧ (isNode g v = true →
        isNode (deleteNode h g v).2 v = false
        ∧ (∀ y w, hasEdge (deleteNode h g v).1 (deleteNode h g v).2 v y w = false)
        ∧ (∀ p c, find g.node_cont v = some p → h.cell p = some c → c.strong = 1 →
            (deleteNode h g v).1.edgesAt p = [])
        ∧ (∀ u, u ≠ v → isNode (deleteNode h g v).2 u = isNode g u
            ∧ find (deleteNode h g v).2.node_cont u = find g.node_cont u)
        ∧ (∀ x y w, x ≠ v → y ≠ v →
            hasEdge (deleteNode h g v).1 (deleteNode h g v).2 x y w = hasEdge h g x y w)) := by
  cases hv : find g.node_cont v with
  | none =>
    refine ⟨fun _ => by simp [deleteNode, hv], ?_⟩
    intro h1
    simp [isNode, hv] at h1
  | some p =>
    refine ⟨fun h1 => by simp [isNode, hv] at h1, fun _ => ?_⟩
    have hrun : deleteNode h g v = (h.release p, { g with node_cont := erase g.node_cont v }) := by
      simp [deleteNode, hv]
    rw [hrun]
    have hfe : ∀ k, find (erase g.node_cont v) k = if k = v then none else find g.node_cont k :=
      fun k => find_erase _ _ _
    refine ⟨?_, ?_, ?_, ?_, ?_⟩
    · simp [isNode, hfe]
    · intro y w
      simp [hasEdge, hfe]
    · intro p' c hp' hc h1
      cases hp'
      unfold Heap.edgesAt Heap.lock
      rw [cell_release]
      simp [hc, h1]
    · intro u hu
      simp [isNode, hfe, hu]
    · intro x y w hx hy
      unfold hasEdge
      simp only [hfe, if_neg hx, if_neg hy]
      cases hfx : find g.node_cont x with
      | none => rfl
      | some px =>
        cases hfy : find g.node_cont y with
        | none => rfl
        | some py =>
          have hne : px ≠ p := by
            intro e
            rw [e] at hfx
            exact hx (find_inj_of_distinct hd hfx hv)
          have : (h.release p).edgesAt px = h.edgesAt px := by
            unfold Heap.edgesAt
            rw [lock_release_ne h hne]
          simp only [this]

end c11

/-! ## `deleteEdge` where it deletes nothing -/

section quiet
variable {N E : Type} [LinearOrder N]

omit [LinearOrder N] in
theorem store_same {h : Heap N E} {p : Nat} {s : GNode N E} (hl : h.lock p = some s) :
    h.store p s = h := by
  unfold Heap.lock at hl
  unfold Heap.store
  cases hc : h.cell p with
  | none => rfl
  | some c =>
    simp only [hc, Option.map_some', Option.some.injEq] at hl
    subst hl
    unfold Heap.cell at hc
    cases hg : h[p]? with
    | none => simp [hg] at hc
    | some x =>
      cases x with
      | none => simp [hg] at hc
      | some c' =>
        simp only [hg, Option.some.injEq] at hc
        subst hc
        obtain ⟨hlt, _⟩ := List.getElem?_eq_some.mp hg
        apply List.ext_getElem?
        intro n
        rw [List.getElem?_set]
        by_cases hn : p = n
        · subst hn
          simp [hlt, hg]
        · simp [hn]

theorem deleteEdgeScan_none [DecidableEq E] (h : Heap N E) (dst : N) (w : E)
    (es : List (GEdge E)) (hres : ∀ e ∈ es, (h.lock e.destin).isSome = true)
    (hno : ∀ e ∈ es, ¬ (h.valueAt e.destin = some dst ∧ e.valofEdge = w)) :
    deleteEdgeScan h dst w es = (.ok (), es) := by
  induction es with
  | nil => rfl
  | cons e es ih =>
    obtain ⟨d, hd⟩ := Option.isSome_iff_exists.mp (hres e (List.mem_cons_self _ _))
    have hne := hno e (List.mem_cons_self _ _)
    have ih' := ih (fun e' h' => hres e' (List.mem_cons_of_mem _ h'))
      (fun e' h' => hno e' (List.mem_cons_of_mem _ h'))
    unfold deleteEdgeScan
    have : ¬ (d.valueofNode = dst ∧ e.valofEdge = w) := by
      intro hc
      apply hne
      simp [Heap.valueAt, hd, hc.1, hc.2]
    simp only [hd, this, if_false, ih']

/-- `deleteEdge` is a silent no-op when `src` or `dst` is not a node, and, on
a graph without dangling edges, when there is no edge `src → dst` of weight
`w`: it returns normally and leaves heap and graph as they were. -/
theorem deleteEdge_quiet [DecidableEq E] (h : Heap N E) (g : Graph N) (src dst : N) (w : E) :
    ((isNode g src = false ∨ isNode g dst = false) → deleteEdge h g src dst w = (.ok (), h, g))
    ∧ (KeysMatch h g → NoDangling h g → hasEdge h g src dst w = false →
        deleteEdge h g src dst w = (.ok (), h, g)) := by
  cases hs : find g.node_cont src with
  | none =>
    have : deleteEdge h g src dst w = (.ok (), h, g) := by simp [deleteEdge, hs]
    exact ⟨fun _ => this, fun _ _ _ => this⟩
  | some ps =>
    cases hd : find g.node_cont dst with
    | none =>
      have : deleteEdge h g src dst w = (.ok (), h, g) := by simp [deleteEdge, hs, hd]
      exact ⟨fun _ => this, fun _ _ _ => this⟩
    | some pd =>
      refine ⟨fun hor => by simp [isNode, hs, hd] at hor, ?_⟩
      intro hk hnd hno
      obtain ⟨s, hl, _⟩ := lock_of_valueAt (valueAt_of_find hk hs)
      have hE := edgesAt_of_lock hl
      have hscan : deleteEdgeScan h dst w s.edges = (.ok (), s.edges) := by
        apply deleteEdgeScan_none
        · rw [← hE]; exact resolves_of_noDangling hnd hs
        · intro e he hc
          rw [← hE] at he
          have hde := (value_iff_dest hk hnd hs hd he).mp hc.1
          have : hasEdge h g src dst w = true := by
            rw [hasEdge_iff]
            exact ⟨ps, pd, hs, hd, e, he, hc.2, hde⟩
          rw [hno] at this
          cases this
      unfold deleteEdge
      simp only [hs, hd, hl, hscan]
      rw [store_same hl]

/-- The loop of `deleteEdge` never runs to its end over an edge set that holds
an edge to delete: it faults at that edge, or at an expired destination
before it. -/
theorem deleteEdgeScan_found [DecidableEq E] (h : Heap N E) (dst : N) (w : E)
    (es : List (GEdge E)) (hex : ∃ e ∈ es, h.valueAt e.destin = some dst ∧ e.valofEdge = w) :
    (deleteEdgeScan h dst w es).1 = .error .fault := by
  induction es with
  | nil =>
    obtain ⟨e, he, _⟩ := hex
    simp at he
  | cons a es ih =>
    unfold deleteEdgeScan
    cases hl : h.lock a.destin with
    | none => rfl
    | some d =>
      simp only []
      by_cases hm : d.valueofNode = dst ∧ a.valofEdge = w
      · rw [if_pos hm]
      · rw [if_neg hm]
        simp only []
        apply ih
        obtain ⟨e, he, hv, hw⟩ := hex
        rcases List.mem_cons.mp he with h0 | h0
        · subst h0
          exfalso
          apply hm
          simp only [Heap.valueAt, hl, Option.map_some', Option.some.injEq] at hv
          exact ⟨hv, hw⟩
        · exact ⟨e, h0, hv, hw⟩

/-- Where `deleteEdge` goes wrong: in a graph whose nodes carry the values
they are keyed by, whenever there is an edge `src → dst` of weight `w` the
call does not return normally. -/
theorem deleteEdge_found [DecidableEq E] (h : Heap N E) (g : Graph N) (src dst : N) (w : E)
    (hk : KeysMatch h g) (he : hasEdge h g src dst w = true) :
    (deleteEdge h g src dst w).1 = .error .fault := by
  unfold hasEdge at he
  cases hs : find g.node_cont src with
  | none => simp [hs] at he
  | some ps =>
    cases hd : find g.node_cont dst with
    | none => simp [hs, hd] at he
    | some pd =>
      simp only [hs, hd, List.any_eq_true, Bool.and_eq_true, decide_eq_true_eq] at he
      obtain ⟨e, hmem, hw, hdest⟩ := he
      obtain ⟨s, hl, _⟩ := lock_of_valueAt (valueAt_of_find hk hs)
      unfold deleteEdge
      simp only [hs, hd, hl]
      apply deleteEdgeScan_found
      refine ⟨e, ?_, ?_, hw⟩
      · rw [← edgesAt_of_lock hl]; exact hmem
      · rw [hdest]; exact valueAt_of_find hk hd

end quiet

/-! ## Reference counts under copying and moving -/

section counts
variable {N E : Type}

theorem cell_retainAll (ps : List Nat) : ∀ (h : Heap N E) (q : Nat),
    (retainAll h ps).cell q
      = (h.cell q).map fun c => { c with strong := c.strong + ps.count q } := by
  induction ps with
  | nil =>
    intro h q
    cases hc : h.cell q <;> simp [retainAll, hc]
  | cons p ps ih =>
    intro h q
    rw [retainAll, ih, cell_retain, List.count_cons]
    by_cases hq : q = p
    · subst hq
      cases h.cell q with
      | none => simp
      | some c => simp; omega
    · have : ¬ p = q := fun e => hq e.symm
      cases h.cell q with
      | none => simp [hq]
      | some c => simp [hq, this]

theorem cell_releaseAll (ps : List Nat) : ∀ (h : Heap N E) (q : Nat),
    (releaseAll h ps).cell q = (h.cell q).bind fun c => c.drop (ps.count q) := by
  induction ps with
  | nil =>
    intro h q
    cases hc : h.cell q <;> simp [releaseAll, Cell.drop, hc]
  | cons p ps ih =>
    intro h q
    rw [releaseAll, ih, cell_release, List.count_cons]
    by_cases hq : q = p
    · subst hq
      cases h.cell q with
      | none => simp
      | some c =>
        simp only [if_true, Option.some_bind, beq_self_eq_true]
        unfold Cell.drop
        by_cases h1 : c.strong ≤ 1
        · have h2 : c.strong ≤ List.count q ps + 1 := by omega
          simp [h1, h2]
        · simp only [h1, if_false, Option.some_bind]
          by_cases h0 : List.count q ps = 0
          · simp [h0, h1]
          · have h3 : ¬ List.count q ps + 1 = 0 := by omega
            by_cases h2 : c.strong ≤ List.count q ps + 1
            · have h4 : c.strong - 1 ≤ List.count q ps := by omega
              simp [h0, h2, h4]
            · have h4 : ¬ c.strong - 1 ≤ List.count q ps := by omega
              simp only [h0, h2, h3, h4, if_false]
              congr 2
              omega
    · have : ¬ p = q := fun e => hq e.symm
      cases h.cell q with
      | none => simp [hq]
      | some c => simp [hq, this]

end counts

/-! ## C16: moving -/

section c16
variable {N E : Type} [LinearOrder N]

end c16

/-! ## C17: the enumeration -/

section c17
variable {N : Type} [LinearOrder N]

theorem nextKey_split (pre suf : List (N × Nat)) (k : N) (p : Nat)
    (hs : (pre ++ (k, p) :: suf).Pairwise fun a b => a.1 < b.1) :
    nextKey (pre ++ (k, p) :: suf) k = suf.head?.map Prod.fst := by
  induction pre with
  | nil =>
    simp only [List.nil_append] at hs ⊢
    rw [List.pairwise_cons] at hs
    cases suf with
    | nil => simp [nextKey]
    | cons b suf =>
      have hb : k < b.1 := hs.1 b (List.mem_cons_self _ _)
      obtain ⟨kb, pb⟩ := b
      simp [nextKey, hb]
  | cons a pre ih =>
    obtain ⟨ka, pa⟩ := a
    simp only [List.cons_append] at hs ⊢
    rw [List.pairwise_cons] at hs
    have hlt : ka < k := hs.1 (k, p) (by simp)
    have hn : ¬ k < ka := not_lt.mpr (le_of_lt hlt)
    simp only [nextKey, hn, if_false]
    exact ih hs.2

theorem enumerateFrom_suffix (suf : List (N × Nat)) :
    ∀ (pre : List (N × Nat)) (g : Graph N) (fuel : Nat),
      g.node_cont = pre ++ suf → (g.node_cont.Pairwise fun a b => a.1 < b.1) →
      g.customiter = suf.head?.map Prod.fst → suf.length < fuel →
      enumerateFrom fuel g = some (.ok (suf.map Prod.fst), { g with customiter := none }) := by
  induction suf with
  | nil =>
    intro pre g fuel _ _ hc hf
    cases fuel with
    | zero => omega
    | succ f =>
      simp only [List.head?_nil, Option.map_none'] at hc
      cases g with
      | mk m c =>
        simp only at hc
        subst hc
        simp [enumerateFrom, Graph.atEnd]
  | cons a suf ih =>
    obtain ⟨k, p⟩ := a
    intro pre g fuel hm hs hc hf
    cases fuel with
    | zero => omega
    | succ f =>
      simp only [List.head?_cons, Option.map_some'] at hc
      have hfind : find g.node_cont k = some p := by
        apply mem_find hs
        rw [hm]
        simp
      have hnext : nextKey g.node_cont k = suf.head?.map Prod.fst := by
        rw [hm]
        rw [hm] at hs
        exact nextKey_split pre suf k p hs
      have hrec := ih (pre ++ [(k, p)]) { g with customiter := nextKey g.node_cont k } f
        (by simp [hm]) hs hnext (by simp at hf; omega)
      unfold enumerateFrom
      simp only [Graph.atEnd, Graph.value, Graph.next, hc, hfind, Option.isNone_some,
        Bool.false_eq_true, if_false, hrec, List.map_cons]

/-- C17: on a graph whose map is in key order, and with fuel for one more step
than it has nodes, `begin()` followed by reading `value()` and calling
`next()` until `end()` holds runs to its end without a fault and yields the
keys of the map in map order; these are strictly ascending and are exactly
the values `v` with `isNode(v)`.  On an empty graph `end()` holds right after
`begin()`.  The enumeration gives the same sequence wherever the cursor stood
before, so also when it is started again, and it leaves the map as it was and
does not touch the heap. -/
theorem enumerate_sorted (g : Graph N) (hs : Sorted g) (fuel : Nat)
    (hf : g.node_cont.length < fuel) :
    enumerate fuel g
      = some (.ok (g.node_cont.map Prod.fst), { g with customiter := none })
    ∧ (g.node_cont.map Prod.fst).Pairwise (fun a b => a < b)
    ∧ (∀ v, v ∈ g.node_cont.map Prod.fst ↔ isNode g v = true)
    ∧ (g.node_cont = [] → g.begin.atEnd = true)
    ∧ (∀ c, enumerate fuel { g with customiter := c }
        = some (.ok (g.node_cont.map Prod.fst), { g with customiter := none })) := by
  have hmain : ∀ c, enumerate fuel { g with customiter := c }
      = some (.ok (g.node_cont.map Prod.fst), { g with customiter := none }) := by
    intro c
    unfold enumerate
    have := enumerateFrom_suffix g.node_cont [] ({ g with customiter := c } : Graph N).begin fuel
      (by simp [Graph.begin]) (by simpa [Graph.begin] using hs) (by simp [Graph.begin])
      hf
    rw [this]
    simp [Graph.begin]
  refine ⟨?_, ?_, ?_, ?_, hmain⟩
  · have := hmain g.customiter
    simpa using this
  · unfold Sorted at hs
    exact List.pairwise_map.mpr hs
  · intro v
    unfold isNode
    constructor
    · intro hv
      obtain ⟨kp, hkp, hkv⟩ := List.mem_map.mp hv
      have : find g.node_cont kp.1 = some kp.2 := mem_find hs hkp
      rw [← hkv, this]
    · intro hv
      cases hfv : find g.node_cont v with
      | none => simp [hfv] at hv
      | some p => exact List.mem_map.mpr ⟨(v, p), find_mem hfv, rfl⟩
  · intro he
    simp [Graph.begin, Graph.atEnd, he]

end c17

/-! ## Maps of sets -/

section grouping
variable {K V : Type} [LinearOrder K] [LinearOrder V]

theorem mem_setInsert (s : List V) (v a : V) : a ∈ setInsert s v ↔ (a = v ∨ a ∈ s) := by
  induction s with
  | nil => simp [setInsert]
  | cons b s ih =>
    unfold setInsert
    by_cases h1 : v < b
    · simp [h1]
    · by_cases h2 : v = b
      · subst h2
        simp
      · simp only [h1, h2, if_false, List.mem_cons, ih]
        tauto

theorem setInsert_sorted (s : List V) (v : V) (hs : s.Pairwise fun a b => a < b) :
    (setInsert s v).Pairwise fun a b => a < b := by
  induction s with
  | nil => simp [setInsert]
  | cons b s ih =>
    rw [List.pairwise_cons] at hs
    unfold setInsert
    by_cases h1 : v < b
    · simp only [h1, if_true, List.pairwise_cons]
      refine ⟨?_, hs.1, hs.2⟩
      intro a ha
      rcases List.mem_cons.mp ha with h0 | h0
      · rw [h0]; exact h1
      · exact lt_trans h1 (hs.1 a h0)
    · by_cases h2 : v = b
      · subst h2
        simp only [lt_irrefl, if_false, if_true, List.pairwise_cons]
        exact ⟨hs.1, hs.2⟩
      · simp only [h1, h2, if_false, List.pairwise_cons]
        refine ⟨?_, ih hs.2⟩
        intro a ha
        rcases (mem_setInsert s v a).mp ha with h0 | h0
        · rw [h0]
          exact lt_of_le_of_ne (not_lt.mp h1) (fun e => h2 e.symm)
        · exact hs.1 a h0

omit [LinearOrder K] [LinearOrder V] in
theorem mem_flatten (m : List (K × List V)) (kv : K × V) :
    kv ∈ flatten m ↔ ∃ s, (kv.1, s) ∈ m ∧ kv.2 ∈ s := by
  induction m with
  | nil => simp [flatten]
  | cons a m ih =>
    obtain ⟨k, s⟩ := a
    obtain ⟨k0, v0⟩ := kv
    simp only [flatten, List.mem_append, List.mem_map, ih, List.mem_cons, Prod.mk.injEq]
    constructor
    · rintro (⟨v, hv, h1, h2⟩ | ⟨s', hs', hv⟩)
      · exact ⟨s, Or.inl ⟨h1.symm, rfl⟩, h2 ▸ hv⟩
      · exact ⟨s', Or.inr hs', hv⟩
    · rintro ⟨s', (⟨h1, h2⟩ | hs'), hv⟩
      · left
        exact ⟨v0, h2 ▸ hv, h1.symm, rfl⟩
      · right
        exact ⟨s', hs', hv⟩

theorem mem_flatten_groupInsert (m : List (K × List V)) (k : K) (v : V) (kv : K × V) :
    kv ∈ flatten (groupInsert m k v) ↔ (kv = (k, v) ∨ kv ∈ flatten m) := by
  induction m with
  | nil =>
    obtain ⟨k0, v0⟩ := kv
    simp [groupInsert, flatten]
  | cons a m ih =>
    obtain ⟨k', s⟩ := a
    obtain ⟨k0, v0⟩ := kv
    unfold groupInsert
    by_cases h1 : k < k'
    · simp only [h1, if_true, flatten, List.map_cons, List.map_nil, List.mem_append,
        List.mem_cons, List.mem_singleton, List.not_mem_nil, or_false, List.mem_map,
        Prod.mk.injEq]
    · by_cases h2 : k = k'
      · subst h2
        simp only [lt_irrefl, if_false, if_true, flatten, List.mem_append, List.mem_map,
          mem_setInsert, Prod.mk.injEq]
        constructor
        · rintro (⟨x, (hx | hx), h3, h4⟩ | h3)
          · left
            exact ⟨h3.symm, by rw [← h4, hx]⟩
          · right; left
            exact ⟨x, hx, h3, h4⟩
          · right; right
            exact h3
        · rintro (⟨h3, h4⟩ | ⟨x, hx, h3, h4⟩ | h3)
          · left
            exact ⟨v, Or.inl rfl, h3.symm, h4.symm⟩
          · left
            exact ⟨x, Or.inr hx, h3, h4⟩
          · right
            exact h3
      · simp only [h1, h2, if_false, flatten, List.mem_append, ih]
        tauto

theorem key_of_mem_groupInsert (m : List (K × List V)) (k : K) (v : V) (b : K × List V)
    (hb : b ∈ groupInsert m k v) : b.1 = k ∨ ∃ b' ∈ m, b'.1 = b.1 := by
  induction m with
  | nil =>
    simp only [groupInsert, List.mem_singleton] at hb
    left; rw [hb]
  | cons a m ih =>
    obtain ⟨k', s⟩ := a
    unfold groupInsert at hb
    by_cases h1 : k < k'
    · simp only [h1, if_true, List.mem_cons] at hb
      rcases hb with hb | hb | hb
      · left; rw [hb]
      · right; exact ⟨(k', s), List.mem_cons_self _ _, by rw [hb]⟩
      · right; exact ⟨b, List.mem_cons_of_mem _ hb, rfl⟩
    · by_cases h2 : k = k'
      · subst h2
        simp only [lt_irrefl, if_false, if_true, List.mem_cons] at hb
        rcases hb with hb | hb
        · left; rw [hb]
        · right; exact ⟨b, List.mem_cons_of_mem _ hb, rfl⟩
      · simp only [h1, h2, if_false, List.mem_cons] at hb
        rcases hb with hb | hb
        · right; exact ⟨(k', s), List.mem_cons_self _ _, by rw [hb]⟩
        · rcases ih hb with h3 | ⟨b', hb', h3⟩
          · left; exact h3
          · right; exact ⟨b', List.mem_cons_of_mem _ hb', h3⟩

theorem groupInsert_grouped (m : List (K × List V)) (k : K) (v : V) (hm : Grouped m) :
    Grouped (groupInsert m k v) := by
  induction m with
  | nil =>
    refine ⟨by simp [groupInsert], ?_⟩
    intro ks hks
    simp only [groupInsert, List.mem_singleton] at hks
    rw [hks]
    simp
  | cons a m ih =>
    obtain ⟨k', s⟩ := a
    obtain ⟨hkeys, hsets⟩ := hm
    rw [List.pairwise_cons] at hkeys
    have hm' : Grouped m := ⟨hkeys.2, fun ks hks => hsets ks (List.mem_cons_of_mem _ hks)⟩
    unfold groupInsert
    by_cases h1 : k < k'
    · simp only [h1, if_true]
      refine ⟨?_, ?_⟩
      · rw [List.pairwise_cons, List.pairwise_cons]
        refine ⟨?_, hkeys.1, hkeys.2⟩
        intro b hb
        rcases List.mem_cons.mp hb with h0 | h0
        · rw [h0]; exact h1
        · exact lt_trans h1 (hkeys.1 b h0)
      · intro ks hks
        rcases List.mem_cons.mp hks with h0 | h0
        · rw [h0]; simp
        · exact hsets ks h0
    · by_cases h2 : k = k'
      · subst h2
        simp only [lt_irrefl, if_false, if_true]
        refine ⟨?_, ?_⟩
        · rw [List.pairwise_cons]
          exact ⟨hkeys.1, hkeys.2⟩
        · intro ks hks
          rcases List.mem_cons.mp hks with h0 | h0
          · rw [h0]
            exact setInsert_sorted s v (hsets (k, s) (List.mem_cons_self _ _))
          · exact hsets ks (List.mem_cons_of_mem _ h0)
      · simp only [h1, h2, if_false]
        obtain ⟨ihk, ihs⟩ := ih hm'
        refine ⟨?_, ?_⟩
        · rw [List.pairwise_cons]
          refine ⟨?_, ihk⟩
          intro b hb
          rcases key_of_mem_groupInsert m k v b hb with h3 | ⟨b', hb', h3⟩
          · rw [h3]
            exact lt_of_le_of_ne (not_lt.mp h1) (fun e => h2 e.symm)
          · rw [← h3]
            exact hkeys.1 b' hb'
        · intro ks hks
          rcases List.mem_cons.mp hks with h0 | h0
          · rw [h0]
            exact hsets (k', s) (List.mem_cons_self _ _)
          · exact ihs ks h0

theorem flatten_sorted (m : List (K × List V)) (hm : Grouped m) :
    (flatten m).Pairwise LexLt := by
  induction m with
  | nil => simp [flatten]
  | cons a m ih =>
    obtain ⟨k, s⟩ := a
    obtain ⟨hkeys, hsets⟩ := hm
    rw [List.pairwise_cons] at hkeys
    have hm' : Grouped m := ⟨hkeys.2, fun ks hks => hsets ks (List.mem_cons_of_mem _ hks)⟩
    simp only [flatten]
    rw [List.pairwise_append]
    refine ⟨?_, ih hm', ?_⟩
    · rw [List.pairwise_map]
      have hs := hsets (k, s) (List.mem_cons_self _ _)
      exact hs.imp (fun hab => Or.inr ⟨rfl, hab⟩)
    · intro a ha b hb
      obtain ⟨x, _, hx⟩ := List.mem_map.mp ha
      obtain ⟨s', hs', _⟩ := (mem_flatten m b).mp hb
      left
      rw [← hx]
      exact hkeys.1 (b.1, s') hs'

end grouping

/-! ## C18 and C19: the listings -/

section listings
variable {N E : Type} [LinearOrder N]

theorem toInt_of_lt (n : Nat) (hn : n < 2 ^ 31) : toInt n = (n : Int) := by
  unfold toInt
  have h1 : (n + 2 ^ 31) % 2 ^ 32 = n + 2 ^ 31 := Nat.mod_eq_of_lt (by omega)
  rw [h1]
  push_cast
  ring

theorem printNodesLoop_ok (h : Heap N E) (rest : List (N × Nat)) :
    ∀ (m : List (Int × List N)), Grouped m →
      (∀ kp ∈ rest, (h.lock kp.2).isSome = true) →
      ∃ m', printNodesLoop h rest m = .ok m' ∧ Grouped m'
        ∧ ∀ kv, kv ∈ flatten m'
            ↔ (kv ∈ flatten m ∨ ∃ kp ∈ rest, kv = (toInt (h.edgesAt kp.2).length, kp.1)) := by
  induction rest with
  | nil =>
    intro m hm _
    exact ⟨m, rfl, hm, by simp⟩
  | cons a rest ih =>
    obtain ⟨k, p⟩ := a
    intro m hm hal
    obtain ⟨nd, hl⟩ := Option.isSome_iff_exists.mp (hal (k, p) (List.mem_cons_self _ _))
    obtain ⟨m', hrun, hg, hmem⟩ :=
      ih (groupInsert m (toInt nd.edges.length) k) (groupInsert_grouped m _ _ hm)
        (fun kp hkp => hal kp (List.mem_cons_of_mem _ hkp))
    refine ⟨m', ?_, hg, ?_⟩
    · unfold printNodesLoop
      simp only [hl]
      exact hrun
    · intro kv
      rw [hmem kv, mem_flatten_groupInsert]
      have hE : h.edgesAt p = nd.edges := edgesAt_of_lock hl
      simp only [List.mem_cons, exists_eq_or_imp, hE]
      constructor
      · rintro ((h1 | h1) | h1)
        · exact Or.inr (Or.inl h1)
        · exact Or.inl h1
        · exact Or.inr (Or.inr h1)
      · rintro (h1 | h1 | h1)
        · exact Or.inl (Or.inr h1)
        · exact Or.inl (Or.inl h1)
        · exact Or.inr h1

theorem printEdgesLoop_spec [LinearOrder E] (h : Heap N E) (es : List (GEdge E)) :
    ∀ (m : List (E × List N)), Grouped m →
      Grouped (printEdgesLoop h es m)
      ∧ ∀ kv, kv ∈ flatten (printEdgesLoop h es m)
          ↔ (kv ∈ flatten m
              ∨ ∃ e ∈ es, e.valofEdge = kv.1 ∧ h.valueAt e.destin = some kv.2) := by
  induction es with
  | nil =>
    intro m hm
    exact ⟨hm, by simp [printEdgesLoop]⟩
  | cons e es ih =>
    intro m hm
    unfold printEdgesLoop
    cases hl : h.lock e.destin with
    | none =>
      simp only []
      obtain ⟨hg, hmem⟩ := ih m hm
      refine ⟨hg, ?_⟩
      intro kv
      rw [hmem kv]
      have : h.valueAt e.destin = none := by simp [Heap.valueAt, hl]
      simp only [List.mem_cons, exists_eq_or_imp, this]
      simp
    | some d =>
      simp only []
      obtain ⟨hg, hmem⟩ := ih (groupInsert m e.valofEdge d.valueofNode)
        (groupInsert_grouped m _ _ hm)
      refine ⟨hg, ?_⟩
      intro kv
      rw [hmem kv, mem_flatten_groupInsert]
      have : h.valueAt e.destin = some d.valueofNode := by simp [Heap.valueAt, hl]
      obtain ⟨k0, v0⟩ := kv
      simp only [List.mem_cons, exists_eq_or_imp, this, Prod.mk.injEq, Option.some.injEq]
      constructor
      · rintro ((⟨h1, h2⟩ | h1) | h1)
        · exact Or.inr (Or.inl ⟨h1.symm, h2.symm⟩)
        · exact Or.inl h1
        · exact Or.inr (Or.inr h1)
      · rintro (h1 | ⟨h1, h2⟩ | h1)
        · exact Or.inl (Or.inr h1)
        · exact Or.inl (Or.inl ⟨h1.symm, h2.symm⟩)
        · exact Or.inr h1

/-- C19: on a graph whose map is in key order and owns its node objects, none
of which has `2^31` edges or more, `printNodes` returns normally, leaves heap
and graph as they were, and the values it writes are the keys of the map,
each once, in ascending order of the pair (number of edges in the edge set of
the node, value). -/
theorem printNodes_sorted (h : Heap N E) (g : Graph N) (hs : Sorted g) (ha : Alive h g)
    (hb : ∀ v, outDegree h g v < 2 ^ 31) :
    (printNodes h g).1 = .ok ()
    ∧ (printNodes h g).2.2 = (h, g)
    ∧ ((printNodes h g).2.1).Perm (g.node_cont.map Prod.fst)
    ∧ ((printNodes h g).2.1).Pairwise (fun a b =>
        outDegree h g a < outDegree h g b ∨ (outDegree h g a = outDegree h g b ∧ a < b)) := by
  obtain ⟨m', hrun, hg, hmem⟩ := printNodesLoop_ok h g.node_cont [] ⟨by simp, by simp⟩
    (fun kp hkp => by
      obtain ⟨n, hn⟩ := lock_of_owned (ha kp hkp)
      simp [hn])
  have hout : printNodes h g = (.ok (), (flatten m').map Prod.snd, h, g) := by
    unfold printNodes
    rw [hrun]
  rw [hout]
  -- every pair of the map is a node with the number of its edges
  have hpair : ∀ kv, kv ∈ flatten m' ↔
      (find g.node_cont kv.2 ≠ none ∧ kv.1 = (outDegree h g kv.2 : Int)) := by
    intro kv
    rw [hmem kv]
    simp only [flatten, List.not_mem_nil, false_or]
    constructor
    · rintro ⟨kp, hkp, rfl⟩
      have hf : find g.node_cont kp.1 = some kp.2 := mem_find hs hkp
      have hdeg : outDegree h g kp.1 = (h.edgesAt kp.2).length := by simp [outDegree, hf]
      refine ⟨by simp [hf], ?_⟩
      simp only []
      rw [← hdeg]
      exact toInt_of_lt _ (hb kp.1)
    · rintro ⟨hne, hk⟩
      cases hf : find g.node_cont kv.2 with
      | none => exact absurd hf hne
      | some p =>
        refine ⟨(kv.2, p), find_mem hf, ?_⟩
        have hdeg : outDegree h g kv.2 = (h.edgesAt p).length := by simp [outDegree, hf]
        obtain ⟨k0, v0⟩ := kv
        simp only [Prod.mk.injEq, and_true]
        simp only at hk hdeg
        rw [hk, ← hdeg]
        exact (toInt_of_lt _ (hb v0)).symm
  have hsorted : ((flatten m').map Prod.snd).Pairwise (fun a b =>
      outDegree h g a < outDegree h g b ∨ (outDegree h g a = outDegree h g b ∧ a < b)) := by
    rw [List.pairwise_map]
    refine (flatten_sorted m' hg).imp_of_mem ?_
    intro a b ha' hb' hab
    have h1 := ((hpair a).mp ha').2
    have h2 := ((hpair b).mp hb').2
    rcases hab with hlt | ⟨heq, hlt⟩
    · left
      rw [h1, h2] at hlt
      exact Int.ofNat_lt.mp hlt
    · right
      rw [h1, h2] at heq
      exact ⟨Int.ofNat_inj.mp heq, hlt⟩
  refine ⟨rfl, rfl, ?_, hsorted⟩
  have hnd1 : ((flatten m').map Prod.snd).Nodup := by
    refine hsorted.imp ?_
    intro a b hab e
    subst e
    rcases hab with h1 | ⟨_, h1⟩
    · exact lt_irrefl _ h1
    · exact lt_irrefl _ h1
  have hnd2 : (g.node_cont.map Prod.fst).Nodup := by
    unfold Sorted at hs
    have := List.pairwise_map.mpr hs
    exact this.imp (fun hab => ne_of_lt hab)
  rw [List.perm_ext_iff_of_nodup hnd1 hnd2]
  intro v
  simp only [List.mem_map]
  constructor
  · rintro ⟨kv, hkv, rfl⟩
    have := ((hpair kv).mp hkv).1
    cases hf : find g.node_cont kv.2 with
    | none => exact absurd hf this
    | some p => exact ⟨(kv.2, p), find_mem hf, rfl⟩
  · rintro ⟨kp, hkp, rfl⟩
    have hf : find g.node_cont kp.1 = some kp.2 := mem_find hs hkp
    exact ⟨((outDegree h g kp.1 : Int), kp.1), (hpair _).mpr ⟨by simp [hf], rfl⟩, rfl⟩

/-- C18, as amended.  `printEdges(v)` raises `NodeNotFound` exactly when `v`
is not a node, and then it writes nothing.  When `v` is a node it returns
normally, leaves heap and graph as they were, and writes first the header line
with the value `v`; after it, when the node has no edge, the line `(null)`,
and otherwise one line `destination weight` for each different pair of the
weight of an edge of the node and the value of its destination, the edges
with an expired destination passed over, in ascending order of the weight and
under the same weight of the destination value. -/
theorem printEdges_lines [LinearOrder E] (h : Heap N E) (g : Graph N) (v : N) :
    (raisesNodeNotFound (printEdges h g v).1 = true ↔ isNode g v = false)
    ∧ (isNode g v = false → printEdges h g v = (.error .nodeDoesNotExistPrintEdges, [], h, g))
    ∧ (∀ p nd, find g.node_cont v = some p → h.lock p = some nd →
        (printEdges h g v).1 = .ok () ∧ (printEdges h g v).2.2 = (h, g)
        ∧ (nd.edges = [] → (printEdges h g v).2.1 = [Line.header v, Line.null])
        ∧ (nd.edges ≠ [] → ∃ lines : List (E × N),
            (printEdges h g v).2.1
              = Line.header v :: lines.map (fun kv => Line.edge kv.2 kv.1)
            ∧ lines.Pairwise LexLt
            ∧ ∀ w d, (w, d) ∈ lines
                ↔ ∃ e ∈ nd.edges, e.valofEdge = w ∧ h.valueAt e.destin = some d)) := by
  cases hf : find g.node_cont v with
  | none =>
    have e1 : printEdges h g v = (.error .nodeDoesNotExistPrintEdges, [], h, g) := by
      simp [printEdges, hf]
    refine ⟨?_, fun _ => e1, ?_⟩
    · simp [e1, isNode, hf, raisesNodeNotFound, Err.isNodeNotFound]
    · intro p nd hp
      cases hp
  | some p =>
    refine ⟨?_, ?_, ?_⟩
    · have : raisesNodeNotFound (printEdges h g v).1 = false := by
        unfold printEdges
        simp only [hf]
        cases h.lock p with
        | none => rfl
        | some nd =>
          simp only []
          split <;> rfl
      simp [this, isNode, hf]
    · intro hv
      simp [isNode, hf] at hv
    · intro p' nd hp' hl
      cases hp'
      by_cases he : nd.edges = []
      · have e1 : printEdges h g v = (.ok (), [Line.header v, Line.null], h, g) := by
          simp [printEdges, hf, hl, he]
        rw [e1]
        exact ⟨rfl, rfl, fun _ => rfl, fun hne => absurd he hne⟩
      · have hlen : ¬ nd.edges.length = 0 := by
          intro e0
          exact he (List.length_eq_zero.mp e0)
        have e1 : printEdges h g v = (.ok (),
            Line.header v ::
              (flatten (printEdgesLoop h nd.edges [])).map (fun kv => Line.edge kv.2 kv.1),
            h, g) := by
          simp [printEdges, hf, hl, hlen]
        rw [e1]
        obtain ⟨hg, hmem⟩ := printEdgesLoop_spec h nd.edges [] ⟨by simp, by simp⟩
        refine ⟨rfl, rfl, fun h0 => absurd h0 he, fun _ => ?_⟩
        refine ⟨flatten (printEdgesLoop h nd.edges []), rfl, flatten_sorted _ hg, ?_⟩
        intro w d
        rw [hmem (w, d)]
        simp [flatten]

end listings

/-! ## C14: copying -/

section c14
variable {N E : Type} [LinearOrder N]

omit [LinearOrder N] in
/-- Copy construction leaves every node object as it is and gives the new
graph the map of the source: the same node values and, for each node, the
very edge set of the source. -/
theorem copyConstruct_same (h : Heap N E) (g : Graph N) :
    (copyConstruct h g).2.node_cont = g.node_cont
    ∧ ∀ q, (copyConstruct h g).1.lock q = h.lock q := by
  refine ⟨rfl, ?_⟩
  intro q
  unfold copyConstruct Heap.lock
  rw [cell_retainAll]
  cases h.cell q <;> rfl

omit [LinearOrder N] in
theorem lt_of_lock {h : Heap N E} {p : Nat} {nd : GNode N E} (hl : h.lock p = some nd) :
    p < h.length := by
  by_contra hp
  have : h[p]? = none := List.getElem?_eq_none (not_lt.mp hp)
  simp [Heap.lock, Heap.cell, this] at hl

omit [LinearOrder N] in
theorem cell_append_left (h x : Heap N E) {p : Nat} (hp : p < h.length) :
    (h ++ x).cell p = h.cell p := by
  unfold Heap.cell
  rw [List.getElem?_append_left hp]

omit [LinearOrder N] in
theorem lock_append_left (h x : Heap N E) {p : Nat} (hp : p < h.length) :
    (h ++ x).lock p = h.lock p := by
  unfold Heap.lock
  rw [cell_append_left h x hp]

omit [LinearOrder N] in
theorem cell_append_right (h x : Heap N E) (i : Nat) :
    (h ++ x).cell (h.length + i) = x.cell i := by
  unfold Heap.cell
  rw [List.getElem?_append_right (Nat.le_add_right _ _)]
  simp

omit [LinearOrder N] in
theorem freshMap_append (b : Nat) (ks : List N) (k : N) :
    freshMap b (ks ++ [k]) = freshMap b ks ++ [(k, b + ks.length)] := by
  induction ks generalizing b with
  | nil => simp [freshMap]
  | cons a ks ih =>
    have := ih (b + 1)
    rw [show b + 1 + ks.length = b + (ks.length + 1) by omega] at this
    simp only [List.cons_append, freshMap, List.length_cons]
    exact congrArg (fun l => (a, b) :: l) this

omit [LinearOrder N] in
theorem freshMap_fst (b : Nat) (ks : List N) : (freshMap b ks).map Prod.fst = ks := by
  induction ks generalizing b with
  | nil => rfl
  | cons a ks ih => simp [freshMap, ih]

theorem find_freshMap_none (b : Nat) (ks : List N) (k : N) (hk : k ∉ ks) :
    find (freshMap b ks) k = none := by
  induction ks generalizing b with
  | nil => rfl
  | cons a ks ih =>
    have h1 : ¬ k = a := fun e => hk (by simp [e])
    have h2 : k ∉ ks := fun e => hk (by simp [e])
    simp only [freshMap, find, h1, if_false]
    exact ih _ h2

theorem assign_append (m : List (N × Nat)) (k : N) (p : Nat) (hm : ∀ kp ∈ m, kp.1 < k) :
    assign m k p = m ++ [(k, p)] := by
  induction m with
  | nil => rfl
  | cons a m ih =>
    obtain ⟨ka, pa⟩ := a
    have hlt : ka < k := hm (ka, pa) (List.mem_cons_self _ _)
    have h1 : ¬ k < ka := not_lt.mpr (le_of_lt hlt)
    have h2 : ¬ k = ka := fun e => absurd hlt (by rw [e]; exact lt_irrefl _)
    simp only [assign, h1, h2, if_false, List.cons_append]
    rw [ih (fun kp hkp => hm kp (List.mem_cons_of_mem _ hkp))]

/-- The first loop of the copy assignment from another graph into an emptied
map: it runs to its end and makes one fresh node for every node of the
source. -/
theorem copyNodes_fresh (h0 : Heap N E) (other : List (N × Nat))
    (hs : other.Pairwise fun a b => a.1 < b.1)
    (hk : ∀ kp ∈ other, h0.valueAt kp.2 = some kp.1) :
    ∀ (suf pre : List (N × Nat)) (fuel : Nat), other = pre ++ suf → suf.length < fuel →
      copyNodes false other fuel (h0 ++ freshCells (pre.map Prod.fst))
          (freshMap h0.length (pre.map Prod.fst)) (suf.head?.map Prod.fst)
        = some (.ok (), h0 ++ freshCells (other.map Prod.fst),
            freshMap h0.length (other.map Prod.fst)) := by
  intro suf
  induction suf with
  | nil =>
    intro pre fuel he hf
    cases fuel with
    | zero => simp at hf
    | succ f =>
      rw [List.append_nil] at he
      subst he
      rfl
  | cons a suf ih =>
    intro pre fuel he hf
    obtain ⟨k, p⟩ := a
    cases fuel with
    | zero => simp at hf
    | succ f =>
      have hmem : (k, p) ∈ other := by rw [he]; simp
      have hfind : find other k = some p := mem_find hs hmem
      obtain ⟨nd, hl, hv⟩ := lock_of_valueAt (hk (k, p) hmem)
      have hl' : (h0 ++ freshCells (pre.map Prod.fst) : Heap N E).lock p = some nd := by
        rw [lock_append_left _ _ (lt_of_lock hl)]; exact hl
      have hs' := hs
      rw [he] at hs'
      have hpre : ∀ kp ∈ pre, kp.1 < k := by
        intro kp hkp
        rw [List.pairwise_append] at hs'
        exact hs'.2.2 kp hkp (k, p) (List.mem_cons_self _ _)
      have hnot : k ∉ pre.map Prod.fst := by
        intro hin
        obtain ⟨kp, hkp, e⟩ := List.mem_map.mp hin
        have := hpre kp hkp
        rw [e] at this
        exact lt_irrefl _ this
      have hnext : nextKey other k = suf.head?.map Prod.fst := by
        rw [he]; exact nextKey_split pre suf k p hs'
      have hm : ∀ kp ∈ freshMap h0.length (pre.map Prod.fst), kp.1 < k := by
        intro kp hkp
        have : kp.1 ∈ (freshMap h0.length (pre.map Prod.fst)).map Prod.fst :=
          List.mem_map_of_mem _ hkp
        rw [freshMap_fst] at this
        obtain ⟨kp', hkp', e⟩ := List.mem_map.mp this
        rw [← e]
        exact hpre kp' hkp'
      have := ih (pre ++ [(k, p)]) f (by rw [he]; simp) (by simp at hf; omega)
      simp only [List.map_append, List.map_cons, List.map_nil, freshMap_append,
        List.length_map] at this
      simp only [List.head?_cons, Option.map_some']
      unfold copyNodes
      simp only [Bool.false_eq_true, if_false, hfind, hl', hv, Heap.make_shared,
        find_freshMap_none _ _ _ hnot, assign_append _ _ _ hm, hnext, List.length_append]
      simp only [freshCells, List.map_append, List.map_cons, List.map_nil, List.length_map,
        ← List.append_assoc] at this ⊢
      exact this

theorem find_freshMap_ge (ks : List N) : ∀ (b : Nat) (k : N) (t : Nat),
    find (freshMap b ks) k = some t → b ≤ t := by
  induction ks with
  | nil => intro b k t h; simp [freshMap, find] at h
  | cons a ks ih =>
    intro b k t h
    simp only [freshMap, find] at h
    by_cases hk : k = a
    · simp only [hk, if_true, Option.some.injEq] at h
      omega
    · simp only [hk, if_false] at h
      have := ih _ _ _ h
      omega

theorem find_freshMap_inj (ks : List N) : ∀ (b : Nat) (k1 k2 : N) (t : Nat),
    find (freshMap b ks) k1 = some t → find (freshMap b ks) k2 = some t → k1 = k2 := by
  induction ks with
  | nil => intro b k1 k2 t h; simp [freshMap, find] at h
  | cons a ks ih =>
    intro b k1 k2 t h1 h2
    simp only [freshMap, find] at h1 h2
    by_cases e1 : k1 = a
    · by_cases e2 : k2 = a
      · rw [e1, e2]
      · simp only [e1, if_true, Option.some.injEq] at h1
        simp only [e2, if_false] at h2
        have := find_freshMap_ge _ _ _ _ h2
        omega
    · by_cases e2 : k2 = a
      · simp only [e2, if_true, Option.some.injEq] at h2
        simp only [e1, if_false] at h1
        have := find_freshMap_ge _ _ _ _ h1
        omega
      · simp only [e1, if_false] at h1
        simp only [e2, if_false] at h2
        exact ih _ _ _ _ h1 h2

theorem find_freshMap_some (b : Nat) (ks : List N) (k : N) (hk : k ∈ ks) :
    ∃ t, find (freshMap b ks) k = some t := by
  induction ks generalizing b with
  | nil => simp at hk
  | cons a ks ih =>
    simp only [freshMap, find]
    by_cases e : k = a
    · exact ⟨b, by simp [e]⟩
    · simp only [e, if_false]
      rcases List.mem_cons.mp hk with h | h
      · exact absurd h e
      · exact ih _ h

theorem lock_freshCells (ks : List N) : ∀ (b : Nat) (G : Heap N E) (k : N) (t : Nat),
    G.length = b → find (freshMap b ks) k = some t →
    (G ++ freshCells ks).lock t = some { edges := [], valueofNode := k } := by
  induction ks with
  | nil => intro b G k t _ h; simp [freshMap, find] at h
  | cons a ks ih =>
    intro b G k t hG h
    simp only [freshMap, find] at h
    by_cases e : k = a
    · simp only [e, if_true, Option.some.injEq] at h
      subst h
      subst hG
      have := cell_append_right G (freshCells (a :: ks)) 0
      simp only [Nat.add_zero] at this
      unfold Heap.lock
      rw [this, e]
      simp [Heap.cell, freshCells]
    · simp only [e, if_false] at h
      have := ih (b + 1) (G ++ [some { strong := 1, node := { edges := [], valueofNode := a } }])
        k t (by simp [hG]) h
      simp only [freshCells, List.map_cons, List.append_assoc, List.singleton_append] at this ⊢
      exact this

theorem filterMap_copied_none (val : Nat → Option N) (m : List (N × Nat)) (e : GEdge E)
    (h : val e.destin = none) : copiedEdge val m e = none := by
  simp [copiedEdge, h]

/-- The inner loop of the second loop of the copy assignment runs to its end
when the node it inserts into is alive and is not the node it reads, and the
value of every live destination is a key of the map; it appends the copies to
the edge set of that node. -/
theorem copyEdgesOf_ok (m : List (N × Nat)) (p t : Nat) (k : N) (val : Nat → Option N)
    (hne : t ≠ p) (hfind : find m k = some t) (es : List (GEdge E)) :
    ∀ (H : Heap N E) (tn tgt : GNode N E),
      H.lock p = some tn → tn.valueofNode = k → H.lock t = some tgt →
      (∀ e ∈ es, e.destin ≠ t ∧ H.valueAt e.destin = val e.destin
        ∧ (val e.destin = none ∨ ((val e.destin).bind (find m)).isSome = true)) →
      ∃ H', copyEdgesOf m p H es = (.ok (), H')
        ∧ ∀ q, H'.lock q
            = if q = t then
                some { tgt with edges := tgt.edges ++ es.filterMap (copiedEdge val m) }
              else H.lock q := by
  induction es with
  | nil =>
    intro H tn tgt _ _ ht _
    refine ⟨H, rfl, ?_⟩
    intro q
    by_cases hq : q = t
    · subst hq
      simp [ht]
    · simp [hq]
  | cons e es ih =>
    intro H tn tgt hp hv ht hes
    obtain ⟨hd, hval, hres⟩ := hes e (List.mem_cons_self _ _)
    have hes' : ∀ e' ∈ es, e'.destin ≠ t ∧ H.valueAt e'.destin = val e'.destin
        ∧ (val e'.destin = none ∨ ((val e'.destin).bind (find m)).isSome = true) :=
      fun e' he' => hes e' (List.mem_cons_of_mem _ he')
    unfold copyEdgesOf
    cases hl : H.lock e.destin with
    | none =>
      have hn : val e.destin = none := by
        rw [← hval]; simp [Heap.valueAt, hl]
      obtain ⟨H', hrun, hlock⟩ := ih H tn tgt hp hv ht hes'
      refine ⟨H', hrun, ?_⟩
      intro q
      rw [hlock q, List.filterMap_cons, filterMap_copied_none val m e hn]
    | some d =>
      have hs : val e.destin = some d.valueofNode := by
        rw [← hval]; simp [Heap.valueAt, hl]
      have hx : ∃ x, find m d.valueofNode = some x := by
        rcases hres with h | h
        · rw [hs] at h; cases h
        · rw [hs] at h
          simp only [Option.some_bind] at h
          exact Option.isSome_iff_exists.mp h
      obtain ⟨x, hx⟩ := hx
      have hc : copiedEdge val m e
          = some { source := x, destin := x, valofEdge := e.valofEdge } := by
        simp [copiedEdge, hs, hx]
      obtain ⟨H', hrun, hlock⟩ := ih
        (H.store t { tgt with edges := tgt.edges ++
          [{ source := x, destin := x, valofEdge := e.valofEdge }] }) tn
        { tgt with edges := tgt.edges ++ [{ source := x, destin := x, valofEdge := e.valofEdge }] }
        (by rw [lock_store_ne _ _ (fun e => hne e.symm)]; exact hp) hv
        (lock_store_self ht _)
        (by
          intro e' he'
          obtain ⟨h1, h2, h3⟩ := hes' e' he'
          refine ⟨h1, ?_, h3⟩
          rw [← h2]
          unfold Heap.valueAt
          rw [lock_store_ne _ _ h1])
      refine ⟨H', ?_, ?_⟩
      · simp only [hp, hv, hfind, hx, hne, if_false, ht]
        exact hrun
      · intro q
        rw [hlock q, List.filterMap_cons, hc]
        by_cases hq : q = t
        · simp [hq]
        · simp only [hq, if_false]
          exact lock_store_ne _ _ hq

/-- The second loop of the copy assignment from another graph runs to its end
when the nodes of the source lie below the address `base`, their live
destinations have values the map knows, and the map holds live nodes from
`base` on: it leaves the nodes below `base` as they are and appends to the
node under each key the copies of the edges of the source node. -/
theorem copyEdges_ok (h0 : Heap N E) (other m : List (N × Nat)) (base : Nat)
    (hs : other.Pairwise fun a b => a.1 < b.1)
    (hsrc : ∀ kp ∈ other, kp.2 < base ∧ ∃ nd, h0.lock kp.2 = some nd ∧ nd.valueofNode = kp.1
        ∧ ∀ e ∈ nd.edges, e.destin < base
          ∧ (h0.valueAt e.destin = none
            ∨ ((h0.valueAt e.destin).bind (find m)).isSome = true))
    (htgt : ∀ kp ∈ other, ∃ t, find m kp.1 = some t ∧ base ≤ t)
    (hinj : ∀ k1 k2 t, find m k1 = some t → find m k2 = some t → k1 = k2) :
    ∀ (rest : List (N × Nat)) (H : Heap N E),
      (∀ kp ∈ rest, kp ∈ other) → rest.Nodup →
      (∀ q, q < base → H.lock q = h0.lock q) →
      (∀ kp ∈ other, ∀ t, find m kp.1 = some t → (H.lock t).isSome = true) →
      ∃ H', copyEdges m H rest = (.ok (), H')
        ∧ (∀ q, q < base → H'.lock q = h0.lock q)
        ∧ ∀ kp ∈ other, ∀ t, find m kp.1 = some t →
            H'.lock t = (H.lock t).map fun tgt =>
              if kp ∈ rest then
                { tgt with edges := tgt.edges
                    ++ (h0.edgesAt kp.2).filterMap (copiedEdge h0.valueAt m) }
              else tgt := by
  intro rest
  induction rest with
  | nil =>
    intro H _ _ hlow _
    refine ⟨H, rfl, hlow, ?_⟩
    intro kp _ t _
    cases H.lock t <;> simp
  | cons a rest ih =>
    intro H hsub hnd hlow htg
    obtain ⟨k, p⟩ := a
    have hmem : (k, p) ∈ other := hsub _ (List.mem_cons_self _ _)
    obtain ⟨hpb, nd, hl0, hv, hed⟩ := hsrc (k, p) hmem
    obtain ⟨t, hft, hbt⟩ := htgt (k, p) hmem
    have hlp : H.lock p = some nd := by rw [hlow p hpb]; exact hl0
    obtain ⟨tgt, hlt⟩ := Option.isSome_iff_exists.mp (htg (k, p) hmem t hft)
    have htp : t ≠ p := by
      have : p < base := hpb
      omega
    obtain ⟨H2, hrun2, hlock2⟩ := copyEdgesOf_ok m p t k h0.valueAt htp hft nd.edges H nd tgt
      hlp hv hlt (by
        intro e he
        obtain ⟨h1, h2⟩ := hed e he
        refine ⟨by omega, ?_, h2⟩
        unfold Heap.valueAt
        rw [hlow _ h1])
    rw [List.nodup_cons] at hnd
    obtain ⟨H', hrun, hlow', hfin⟩ := ih H2
      (fun kp hkp => hsub kp (List.mem_cons_of_mem _ hkp)) hnd.2
      (by
        intro q hq
        rw [hlock2, if_neg (by omega)]
        exact hlow q hq)
      (by
        intro kp hkp t' hft'
        rw [hlock2]
        by_cases ht' : t' = t
        · simp [ht']
        · rw [if_neg ht']
          exact htg kp hkp t' hft')
    refine ⟨H', ?_, hlow', ?_⟩
    · unfold copyEdges
      simp only [hlp, hrun2]
      exact hrun
    · intro kp hkp t' hft'
      rw [hfin kp hkp t' hft', hlock2]
      by_cases hkp' : kp = (k, p)
      · subst hkp'
        simp only at hft'
        rw [hft] at hft'
        cases hft'
        simp [hnd.1, hlt, edgesAt_of_lock hl0]
      · have ht' : t' ≠ t := by
          intro e
          rw [e] at hft'
          have hk1 : kp.1 = k := hinj _ _ _ hft' hft
          have f1 : find other kp.1 = some kp.2 := mem_find hs hkp
          have f2 : find other k = some p := mem_find hs hmem
          rw [hk1, f2] at f1
          apply hkp'
          cases kp
          simp only at hk1 f1
          cases f1
          rw [hk1]
        rw [if_neg ht']
        have : (kp ∈ (k, p) :: rest) ↔ kp ∈ rest := by
          simp [hkp']
        cases H.lock t' with
        | none => rfl
        | some tg =>
          by_cases hr : kp ∈ rest
          · simp [hr]
          · simp [hr, hkp']

omit [LinearOrder N] in
theorem length_release (h : Heap N E) (p : Nat) : (h.release p).length = h.length := by
  unfold Heap.release
  cases h.cell p <;> simp

omit [LinearOrder N] in
theorem length_releaseAll (ps : List Nat) : ∀ (h : Heap N E),
    (releaseAll h ps).length = h.length := by
  induction ps with
  | nil => intro h; rfl
  | cons p ps ih => intro h; rw [releaseAll, ih, length_release]

omit [LinearOrder N] in
/-- Dropping the pointers `ss` leaves a node object as it was when its strong
count also covers a pointer of another list. -/
theorem lock_releaseAll_owning (h : Heap N E) (ss os : List Nat) (hown : Owning h (ss ++ os))
    (q : Nat) (hq : q ∈ os) : (releaseAll h ss).lock q = h.lock q := by
  have := hown q (List.mem_append_right _ hq)
  have h1 : 1 ≤ os.count q := List.count_pos_iff.mpr hq
  unfold Heap.lock
  rw [cell_releaseAll]
  cases hc : h.cell q with
  | none => rfl
  | some c =>
    simp only [hc, Option.any_some, decide_eq_true_eq, List.count_append] at this
    simp only [Option.some_bind, Cell.drop]
    by_cases h0 : List.count q ss = 0
    · simp [h0]
    · have h2 : ¬ c.strong ≤ List.count q ss := by omega
      simp [h0, h2]

omit [LinearOrder N] in
theorem lock_releaseAll_none (h : Heap N E) (ss : List Nat) (q : Nat) (hq : h.lock q = none) :
    (releaseAll h ss).lock q = none := by
  unfold Heap.lock at hq ⊢
  rw [cell_releaseAll]
  cases hc : h.cell q with
  | none => rfl
  | some c => simp [hc] at hq

omit [LinearOrder N] in
theorem mem_freshMap_ge (ks : List N) : ∀ (b : Nat) (kp : N × Nat),
    kp ∈ freshMap b ks → b ≤ kp.2 := by
  induction ks with
  | nil => intro b kp h; simp [freshMap] at h
  | cons a ks ih =>
    intro b kp h
    simp only [freshMap, List.mem_cons] at h
    rcases h with h | h
    · rw [h]
    · have := ih _ _ h
      omega

theorem find_some_of_key {m : List (N × Nat)} (hs : m.Pairwise fun a b => a.1 < b.1) {k : N}
    (hk : k ∈ m.map Prod.fst) : ∃ p, find m k = some p := by
  obtain ⟨kp, hkp, e⟩ := List.mem_map.mp hk
  refine ⟨kp.2, ?_⟩
  rw [← e]
  exact mem_find hs hkp

theorem key_of_find {m : List (N × Nat)} {k : N} {p : Nat} (hf : find m k = some p) :
    k ∈ m.map Prod.fst :=
  List.mem_map.mpr ⟨(k, p), find_mem hf, rfl⟩

/-- Copy assignment from another graph.  When the map of the target differs
from the map of the source, the source is in key order with every node under
its value and every edge expired or resolving to a node of the source, and
the strong counts cover the pointers of both maps, the assignment returns
normally.  The target then holds the values of the source, each with a node
object of its own; the node objects of the source are as they were; the edge
set of a node of the target holds one copy of every edge of the source node
whose destination is not expired, its destination the node the target holds
under the value of that destination; so the target has an edge `x → y` of
weight `w` exactly if the source has one. -/
theorem copyAssign_other [DecidableEq E] (h : Heap N E) (self src : Graph N) (fuel : Nat)
    (hk : KeysMatch h src) (hr : Resolving h src) (hs : Sorted src)
    (hne : self.node_cont ≠ src.node_cont)
    (hown : Owning h (self.node_cont.map Prod.snd ++ src.node_cont.map Prod.snd))
    (hf : src.node_cont.length < fuel) :
    ∃ h' m', copyAssign fuel h self (some src) = some (.ok (), h', { self with node_cont := m' })
      ∧ m'.map Prod.fst = src.node_cont.map Prod.fst
      ∧ (∀ q ∈ m'.map Prod.snd, h.length ≤ q)
      ∧ (∀ q ∈ src.node_cont.map Prod.snd, h'.lock q = h.lock q)
      ∧ (∀ x p t, find src.node_cont x = some p → find m' x = some t →
          h'.edgesAt t = (h.edgesAt p).filterMap (copiedEdge h.valueAt m'))
      ∧ (∀ x y w, hasEdge h' { self with node_cont := m' } x y w = hasEdge h src x y w) := by
  have hs' : src.node_cont.Pairwise fun a b => a.1 < b.1 := hs
  -- the heap after the erase of the target
  have hA : ∀ q ∈ src.node_cont.map Prod.snd,
      (releaseAll h (self.node_cont.map Prod.snd)).lock q = h.lock q :=
    fun q hq => lock_releaseAll_owning h _ _ hown q hq
  have hlen : (releaseAll h (self.node_cont.map Prod.snd)).length = h.length :=
    length_releaseAll _ _
  have hC : ∀ kp ∈ src.node_cont, ∀ e ∈ h.edgesAt kp.2,
      (releaseAll h (self.node_cont.map Prod.snd)).valueAt e.destin = h.valueAt e.destin := by
    intro kp hkp e he
    obtain ⟨_, h2⟩ := hr kp hkp e he
    unfold Heap.valueAt
    rcases h2 with h2 | h2
    · have hn : h.lock e.destin = none := by
        unfold Heap.valueAt at h2
        cases hl : h.lock e.destin with
        | none => rfl
        | some nd => simp [hl] at h2
      rw [lock_releaseAll_none h _ _ hn, hn]
    · cases hv : h.valueAt e.destin with
      | none => simp [hv] at h2
      | some kd =>
        simp only [hv, Option.some_bind] at h2
        rw [hA _ (List.mem_map_of_mem Prod.snd (find_mem h2))]
  have hK : ∀ kp ∈ src.node_cont,
      (releaseAll h (self.node_cont.map Prod.snd)).valueAt kp.2 = some kp.1 := by
    intro kp hkp
    unfold Heap.valueAt
    rw [hA _ (List.mem_map_of_mem Prod.snd hkp)]
    exact hk kp hkp
  generalize hh0 : releaseAll h (self.node_cont.map Prod.snd) = h0 at hA hlen hC hK
  -- the first loop
  have hrun1 := copyNodes_fresh h0 src.node_cont hs' hK src.node_cont [] fuel rfl hf
  have hnil : (freshCells ([] : List N) : Heap N E) = [] := rfl
  simp only [List.map_nil, hnil, freshMap, List.append_nil] at hrun1
  -- the second loop
  have hkeys : ∀ kp ∈ src.node_cont, kp.1 ∈ src.node_cont.map Prod.fst :=
    fun kp hkp => List.mem_map_of_mem Prod.fst hkp
  obtain ⟨H', hrun2, hlow, hfin⟩ := copyEdges_ok h0 src.node_cont
    (freshMap h0.length (src.node_cont.map Prod.fst)) h0.length hs'
    (by
      intro kp hkp
      obtain ⟨nd, hl, hv⟩ := lock_of_valueAt (hK kp hkp)
      refine ⟨lt_of_lock hl, nd, hl, hv, ?_⟩
      intro e he
      have he' : e ∈ h.edgesAt kp.2 := by
        unfold Heap.edgesAt
        rw [← hA _ (List.mem_map_of_mem Prod.snd hkp), hl]
        exact he
      obtain ⟨h1, h2⟩ := hr kp hkp e he'
      refine ⟨by omega, ?_⟩
      rw [hC kp hkp e he']
      rcases h2 with h2 | h2
      · exact Or.inl h2
      · right
        cases hv' : h.valueAt e.destin with
        | none => simp [hv'] at h2
        | some kd =>
          simp only [hv', Option.some_bind] at h2 ⊢
          obtain ⟨t, ht⟩ := find_freshMap_some h0.length _ kd (key_of_find h2)
          simp [ht])
    (by
      intro kp hkp
      obtain ⟨t, ht⟩ := find_freshMap_some h0.length _ kp.1 (hkeys kp hkp)
      exact ⟨t, ht, find_freshMap_ge _ _ _ _ ht⟩)
    (find_freshMap_inj _ _)
    src.node_cont (h0 ++ freshCells (src.node_cont.map Prod.fst))
    (fun _ hkp => hkp)
    (by
      have : src.node_cont.Pairwise fun a b => a ≠ b :=
        hs'.imp (fun hab e => absurd hab (by rw [e]; exact lt_irrefl _))
      exact this)
    (fun q hq => lock_append_left _ _ hq)
    (by
      intro kp _ t ht
      rw [lock_freshCells _ _ _ _ _ rfl ht]
      rfl)
  have hE : ∀ x p t, find src.node_cont x = some p →
      find (freshMap h0.length (src.node_cont.map Prod.fst)) x = some t →
      H'.edgesAt t = (h.edgesAt p).filterMap
        (copiedEdge h.valueAt (freshMap h0.length (src.node_cont.map Prod.fst))) := by
    intro x p t hfx hft
    have hmem : (x, p) ∈ src.node_cont := find_mem hfx
    have h1 := hfin (x, p) hmem t hft
    rw [lock_freshCells _ _ _ _ _ rfl hft] at h1
    simp only [Option.map_some', hmem, if_true, List.nil_append] at h1
    have h2 : h0.edgesAt p = h.edgesAt p := by
      unfold Heap.edgesAt
      rw [hA _ (List.mem_map_of_mem Prod.snd hmem)]
    have h3 : H'.edgesAt t = (h0.edgesAt p).filterMap
        (copiedEdge h0.valueAt (freshMap h0.length (src.node_cont.map Prod.fst))) := by
      rw [edgesAt_of_lock h1]
    rw [h3, h2]
    apply List.filterMap_congr
    intro e he
    unfold copiedEdge
    have he' : e ∈ h.edgesAt p := he
    rw [hC (x, p) hmem e he']
  refine ⟨H', freshMap h0.length (src.node_cont.map Prod.fst), ?_, freshMap_fst _ _, ?_, ?_, hE, ?_⟩
  · unfold copyAssign
    simp only [Option.isNone_some, Bool.false_eq_true, if_false, hne, ne_eq, not_false_eq_true,
      if_true, hh0, List.head?_nil, hrun1, hrun2]
  · intro q hq
    obtain ⟨kp, hkp, e⟩ := List.mem_map.mp hq
    have := mem_freshMap_ge _ _ _ hkp
    rw [← e, ← hlen]
    exact this
  · intro q hq
    obtain ⟨kp, hkp, e⟩ := List.mem_map.mp hq
    obtain ⟨nd, hl, _⟩ := lock_of_valueAt (hK kp hkp)
    rw [← e, hlow _ (lt_of_lock hl), ← hA _ (List.mem_map_of_mem Prod.snd hkp)]
  · intro x y w
    unfold hasEdge
    simp only []
    cases hfx : find src.node_cont x with
    | none =>
      have : x ∉ src.node_cont.map Prod.fst := by
        intro hin
        obtain ⟨p, hp⟩ := find_some_of_key hs' hin
        rw [hp] at hfx
        cases hfx
      rw [find_freshMap_none _ _ _ this]
    | some px =>
      obtain ⟨tx, htx⟩ := find_freshMap_some h0.length _ x (key_of_find hfx)
      cases hfy : find src.node_cont y with
      | none =>
        have : y ∉ src.node_cont.map Prod.fst := by
          intro hin
          obtain ⟨p, hp⟩ := find_some_of_key hs' hin
          rw [hp] at hfy
          cases hfy
        rw [find_freshMap_none _ _ _ this, htx]
      | some py =>
        obtain ⟨ty, hty⟩ := find_freshMap_some h0.length _ y (key_of_find hfy)
        rw [htx, hty]
        simp only []
        rw [hE x px tx hfx htx, Bool.eq_iff_iff, List.any_eq_true, List.any_eq_true]
        constructor
        · rintro ⟨ne, hne', hP⟩
          obtain ⟨e, he, hce⟩ := List.mem_filterMap.mp hne'
          refine ⟨e, he, ?_⟩
          unfold copiedEdge at hce
          cases hv : h.valueAt e.destin with
          | none => simp [hv] at hce
          | some kd =>
            simp only [hv, Option.some_bind] at hce
            cases hfk : find (freshMap h0.length (src.node_cont.map Prod.fst)) kd with
            | none => simp [hfk] at hce
            | some x' =>
              simp only [hfk, Option.map_some', Option.some.injEq] at hce
              subst hce
              simp only [Bool.and_eq_true, decide_eq_true_eq] at hP ⊢
              refine ⟨hP.1, ?_⟩
              have hx' : x' = ty := hP.2
              rw [hx'] at hfk
              have hkd : kd = y := find_freshMap_inj _ _ _ _ _ hfk hty
              obtain ⟨_, h2⟩ := hr (x, px) (find_mem hfx) e he
              rw [hv, hkd] at h2
              rcases h2 with h2 | h2
              · cases h2
              · simp only [Option.some_bind] at h2
                rw [hfy] at h2
                exact (Option.some.inj h2).symm
        · rintro ⟨e, he, hP⟩
          simp only [Bool.and_eq_true, decide_eq_true_eq] at hP
          have hv : h.valueAt e.destin = some y := by
            rw [hP.2]
            exact hk (y, py) (find_mem hfy)
          refine ⟨{ source := ty, destin := ty, valofEdge := e.valofEdge }, ?_, ?_⟩
          · apply List.mem_filterMap.mpr
            refine ⟨e, he, ?_⟩
            simp [copiedEdge, hv, hty]
          · simp [hP.1]

end c14

/-! ## C20: `mergeReplace` of a node into itself -/

section c20
variable {N E : Type} [LinearOrder N] [DecidableEq E] [OfNat N 3]

/-- What `mergeReplace(v,v)` does to a well-formed graph in which `v` is a
node: it erases `v` from the map and drops the pointer to its node, which
destroys the node when the map was its only owner; the other nodes keep their
place and their edge sets, edges to the node of `v` included, and no entry of
the map points to that node any more.  The call completes if 3 is a node other
than `v`, and faults on the lookup of 3 if it is not. -/
theorem mergeReplace_self (h : Heap N E) (g : Graph N) (v : N) (pO : Nat)
    (hw : WF h g) (hO : find g.node_cont v = some pO) :
    (mergeReplace h g v v).1
        = (if (find (erase g.node_cont v) 3).isSome then Except.ok () else Except.error Err.fault)
    ∧ (mergeReplace h g v v).2.2 = { g with node_cont := erase g.node_cont v }
    ∧ isNode (mergeReplace h g v v).2.2 v = false
    ∧ (∀ k, k ≠ v → find (mergeReplace h g v v).2.2.node_cont k = find g.node_cont k)
    ∧ (∀ k p, find g.node_cont k = some p → k ≠ v →
        (mergeReplace h g v v).2.1.edgesAt p = h.edgesAt p)
    ∧ (∀ c, h.cell pO = some c → c.strong ≤ 1 → (mergeReplace h g v v).2.1.lock pO = none)
    ∧ (∀ kp ∈ (mergeReplace h g v v).2.2.node_cont, kp.2 ≠ pO) := by
  obtain ⟨hk, hd, hs⟩ := hw
  obtain ⟨extra, hh, hrun, _, hE, _, _, hstrong⟩ :=
    mergeReplace_loops h g v v pO pO hk hd hs hO hO
  rw [hrun]
  refine ⟨rfl, rfl, ?_, ?_, ?_, ?_, ?_⟩
  · unfold isNode
    simp only [find_erase, if_true]
  · intro k hkv
    simp only [find_erase, if_neg hkv]
  · intro k p hf hkv
    have hp : p ≠ pO := by
      intro e
      rw [e] at hf
      exact hkv (find_inj hk hf hO)
    simp only []
    rw [hE k p hf hkv, if_neg hp]
    conv_rhs => rw [← List.map_id (h.edgesAt p)]
    apply List.map_congr_left
    intro e he
    unfold retargetEdge
    split
    · rename_i hv
      obtain ⟨kd, hv', hfd⟩ := dest_of_noDangling hd hf he
      rw [hv] at hv'
      cases hv'
      rw [hO] at hfd
      cases hfd
      rfl
    · rfl
  · intro c hc h1
    have := hstrong pO
    rw [cell_release, if_pos rfl, hc] at this
    simp only [Option.some_bind, if_pos h1, Option.map_none'] at this
    simp only []
    unfold Heap.lock
    cases hcc : hh.cell pO with
    | none => rfl
    | some c' => rw [hcc] at this; simp at this
  · intro kp hkp hp
    have hmem : (kp.1, kp.2) ∈ erase g.node_cont v := hkp
    rw [mem_erase] at hmem
    have hf := mem_find hs hmem.1
    rw [hp] at hf
    exact hmem.2 (find_inj hk hf hO)

end c20

/-! ## The theorems at sample graphs -/

section witnesses
open Sample

/-- C5 at a sample: `replace(1,5)` on the graph with nodes 1, 2 and the edge
1 → 2. -/
theorem replace_relabels_witness :
    Alive pair.1 pair.2 ∧ isNode pair.2 1 = true ∧ isNode pair.2 5 = false
    ∧ (replace pair.1 pair.2 1 5).1 = .ok true
    ∧ hasEdge (replace pair.1 pair.2 1 5).2.1 (replace pair.1 pair.2 1 5).2.2
        (rekey 1 5 1) (rekey 1 5 2) 7 = hasEdge pair.1 pair.2 1 2 7 :=
  have key := replace_relabels pair.1 pair.2 1 5 (by decide) (by decide) (by decide)
  ⟨by decide, by decide, by decide, key.1,
    key.2.2.2.2.2.2.2.1 1 2 7 (by decide) (by decide)⟩

/-- The theorem `mergeReplace_nodes` at `mergeReplace(1,2)` on the graph
`busy`. -/
theorem mergeReplace_nodes_witness :
    WF busy.1 busy.2 ∧ isNode busy.2 1 = true ∧ isNode busy.2 2 = true
    ∧ (mergeReplace busy.1 busy.2 1 2).1 = .ok ()
    ∧ isNode (mergeReplace busy.1 busy.2 1 2).2.2 1 = false
    ∧ NoDangling (mergeReplace busy.1 busy.2 1 2).2.1 (mergeReplace busy.1 busy.2 1 2).2.2 :=
  have key := mergeReplace_nodes busy.1 busy.2 1 2 (by decide) (by decide) (by decide)
    (by decide) (by decide) (by decide)
  ⟨by decide, by decide, by decide, key.1, key.2.1, key.2.2.2.1⟩

/-- The theorem `mergeReplace_image` at `mergeReplace(1,2)` on the graph
`busy`, where the edge 3 → 1 becomes 3 → 2. -/
theorem mergeReplace_image_witness :
    WF busy.1 busy.2 ∧ isNode busy.2 1 = true ∧ isNode busy.2 2 = true
    ∧ (mergeReplace busy.1 busy.2 1 2).1 = .ok ()
    ∧ hasEdge (mergeReplace busy.1 busy.2 1 2).2.1 (mergeReplace busy.1 busy.2 1 2).2.2
        3 2 7 = true :=
  have key := mergeReplace_image busy.1 busy.2 1 2 (by decide) (by decide) (by decide)
    (by decide) (by decide) (by decide)
  ⟨by decide, by decide, by decide, key.1,
    (key.2 3 2 7).mpr ⟨3, 1, by decide, by decide, by decide⟩⟩

/-- C10 at a sample: `deleteNode(2)` on the graph with nodes 1, 2 and the edge
1 → 2; node 1 is untouched and the node object of 2 is destroyed. -/
theorem deleteNode_expires_witness :
    find pair.2.node_cont 2 = some 1
    ∧ (deleteNode pair.1 pair.2 2).1.lock 0 = pair.1.lock 0
    ∧ (deleteNode pair.1 pair.2 2).1.lock 1 = none :=
  have key := (deleteNode_expires pair.1 pair.2 2).2.2.2 1 (by decide)
  ⟨by decide, key.1 0 (by decide),
    key.2 { strong := 1, node := { edges := [], valueofNode := 2 } } (by decide) rfl⟩

/-- C4 at a sample: on the graph with nodes 1, 2, `addEdge(4,2,7)` and
`isConnected(4,2)` name the origin. -/
theorem checkNodes_guard_witness :
    isNode pair.2 4 = false
    ∧ (addEdge pair.1 pair.2 4 2 7).1 = .error .originDoesNotExist
    ∧ (isConnected pair.1 pair.2 4 2).1 = .error .originDoesNotExist :=
  ⟨by decide, (checkNodes_guard pair.1 pair.2 4 2 7).2.2.1 (by decide)⟩

/-- C6 at a sample: `replace(1,2)` on the graph with nodes 1, 2 returns false
and changes nothing. -/
theorem replace_guard_witness :
    isNode pair.2 1 = true ∧ isNode pair.2 2 = true
    ∧ replace pair.1 pair.2 1 2 = (.ok false, pair.1, pair.2) :=
  ⟨by decide, by decide, (replace_guard pair.1 pair.2 1 2).2.2.1 (by decide) (by decide)⟩

/-- C1 at a sample: `addNode(2)` on the graph with nodes 1, 2 returns false
and changes nothing. -/
theorem addNode_spec_witness :
    (addNode pair.1 pair.2 2).1 = false ∧ (addNode pair.1 pair.2 2).2 = pair :=
  ⟨by decide, (addNode_spec pair.1 pair.2 2).2.2.2.1 (by decide)⟩

/-- C11 at a sample: `deleteNode(2)` on the graph `busy` keeps the edge
3 → 1 and leaves no edge out of 2. -/
theorem deleteNode_spec_witness :
    Distinct busy.2 ∧ isNode busy.2 2 = true
    ∧ isNode (deleteNode busy.1 busy.2 2).2 2 = false
    ∧ hasEdge (deleteNode busy.1 busy.2 2).1 (deleteNode busy.1 busy.2 2).2 3 1 7
        = hasEdge busy.1 busy.2 3 1 7 :=
  have key := (deleteNode_spec busy.1 busy.2 2 (by decide)).2 (by decide)
  ⟨by decide, by decide, key.1, key.2.2.2.2 3 1 7 (by decide) (by decide)⟩

/-- C17 at a sample: the enumeration of the graph `busy` with fuel 4. -/
theorem enumerate_sorted_witness :
    Sorted busy.2 ∧ busy.2.node_cont.length < 4
    ∧ enumerate 4 busy.2
        = some (.ok (busy.2.node_cont.map Prod.fst), { busy.2 with customiter := none }) :=
  ⟨by decide, by decide, (enumerate_sorted busy.2 (by decide) 4 (by decide)).1⟩

/-- C19 at a sample: `printNodes` on the graph `busy` writes 2, 1, 3. -/
theorem printNodes_sorted_witness :
    Sorted busy.2 ∧ Alive busy.1 busy.2 ∧ (printNodes busy.1 busy.2).2.1 = [2, 1, 3]
    ∧ ((printNodes busy.1 busy.2).2.1).Perm (busy.2.node_cont.map Prod.fst) :=
  have hb : ∀ v, outDegree busy.1 busy.2 v < 2 ^ 31 := by
    intro v
    unfold outDegree
    by_cases h1 : v = 1
    · subst h1; decide
    · by_cases h2 : v = 2
      · subst h2; decide
      · by_cases h3 : v = 3
        · subst h3; decide
        · have : find busy.2.node_cont v = none := by
            have hm : busy.2.node_cont = [(1, 0), (2, 1), (3, 2)] := by decide
            simp [hm, find, h1, h2, h3]
          rw [this]
          decide
  ⟨by decide, by decide, by decide,
    (printNodes_sorted busy.1 busy.2 (by decide) (by decide) hb).2.2.1⟩

/-- C18 at a sample: `printEdges(3)` on the graph `busy` writes the header
and the lines for 3 → 1 and 3 → 2 of weight 7. -/
theorem printEdges_lines_witness :
    find busy.2.node_cont 3 = some 2
    ∧ (printEdges busy.1 busy.2 3).1 = .ok ()
    ∧ (printEdges busy.1 busy.2 3).2.1 = [Line.header 3, Line.edge 1 7, Line.edge 2 7] :=
  have key := (printEdges_lines busy.1 busy.2 3).2.2 2
    { edges := [{ source := 2, destin := 0, valofEdge := 7 },
                { source := 2, destin := 1, valofEdge := 7 }],
      valueofNode := 3 } (by decide) (by decide)
  ⟨by decide, key.1, by decide⟩

/-- The theorem `copyAssign_other` at the assignment of the graph `busy` to a
default constructed graph. -/
theorem copyAssign_other_sample :
    ∃ h' m', copyAssign 4 busy.1 Graph.empty (some busy.2)
        = some (.ok (), h', { Graph.empty with node_cont := m' })
      ∧ m'.map Prod.fst = [1, 2, 3]
      ∧ ∀ x y w, hasEdge h' { Graph.empty with node_cont := m' } x y w
          = hasEdge busy.1 busy.2 x y w := by
  obtain ⟨h', m', h1, h2, _, _, _, h6⟩ := copyAssign_other busy.1 Graph.empty busy.2 4
    (by decide) (by decide) (by decide) (by decide) (by decide) (by decide)
  exact ⟨h', m', h1, h2, h6⟩

end witnesses

/-! ## The calls that go wrong -/

section evaluations
open Sample

/-- C2 at a failing input.  After `addNode` of 1, 2, 3, `addEdge(1,2,7)` and
`deleteNode(2)`, the values 1 and 3 are nodes and 1 has no edge to 3, yet
`addEdge(1,3,7)` does not return true: its scan meets the edge of weight 7
left behind by `deleteNode`, whose destination is expired, and dereferences
the null pointer. -/
theorem addEdge_expired_fault :
    isNode tripleCut.2 1 = true ∧ isNode tripleCut.2 3 = true
    ∧ hasEdge tripleCut.1 tripleCut.2 1 3 7 = false
    ∧ (addEdge tripleCut.1 tripleCut.2 1 3 7).1 = .error .fault := by
  decide

/-- C3 at a failing input.  In the same graph no edge of 1 has the node 3 as
its destination, yet `isConnected(1,3)` does not return false: it dereferences
the expired destination of the edge left behind by `deleteNode`. -/
theorem isConnected_expired_fault :
    isNode tripleCut.2 1 = true ∧ isNode tripleCut.2 3 = true
    ∧ linked tripleCut.1 tripleCut.2 1 3 = false
    ∧ (isConnected tripleCut.1 tripleCut.2 1 3).1 = .error .fault := by
  decide

/-- C9 at a failing input.  In the graph with nodes 1 and 2 and the edge
1 → 2, which is well formed, `mergeReplace(1,2)` does not complete: after it
has merged and erased node 1 it looks up the value 3, which is no node, and
dereferences the end iterator.  The graph it leaves behind is not the one it
was given. -/
theorem mergeReplace_no_three_fault :
    WF pair.1 pair.2 ∧ Alive pair.1 pair.2
    ∧ isNode pair.2 1 = true ∧ isNode pair.2 2 = true
    ∧ (mergeReplace pair.1 pair.2 1 2).1 = .error .fault
    ∧ isNode (mergeReplace pair.1 pair.2 1 2).2.2 1 = false
    ∧ (mergeReplace pair.1 pair.2 1 2).2 ≠ pair := by
  decide

/-- Merging a node into itself, the nodes.  In the well-formed graph with nodes 1 and 3 and
the edge 3 → 1, `mergeReplace(1,1)` completes; afterwards `new = 1` is not a
node, and the remaining node 3 still holds its edge, whose destination is the
removed node. -/
theorem mergeReplace_self_dangles :
    WF inward.1 inward.2 ∧ Alive inward.1 inward.2 ∧ isNode inward.2 1 = true
    ∧ (mergeReplace inward.1 inward.2 1 1).1 = .ok ()
    ∧ isNode (mergeReplace inward.1 inward.2 1 1).2.2 1 = false
    ∧ isNode (mergeReplace inward.1 inward.2 1 1).2.2 3 = true
    ∧ ¬ NoDangling (mergeReplace inward.1 inward.2 1 1).2.1 (mergeReplace inward.1 inward.2 1 1).2.2 := by
  decide

/-- Merging a node into itself, the edges.  In the well-formed graph with nodes 1 and 3 and
the edge 1 → 3 of weight 7, `mergeReplace(1,1)` completes; the relabelling
fixes every value, but the edge 1 → 3 is gone. -/
theorem mergeReplace_self_loses :
    WF outward.1 outward.2 ∧ Alive outward.1 outward.2 ∧ isNode outward.2 1 = true
    ∧ (mergeReplace outward.1 outward.2 1 1).1 = .ok ()
    ∧ hasEdge outward.1 outward.2 1 3 7 = true
    ∧ hasEdge (mergeReplace outward.1 outward.2 1 1).2.1 (mergeReplace outward.1 outward.2 1 1).2.2
        (rekey 1 1 1) (rekey 1 1 3) 7 = false := by
  decide

/-- C10 fails.  In the graph with nodes 1 and 2 and the edge 1 → 2,
`deleteNode(2)` leaves the edge in the set of node 1, and its destination is
a node that is no longer there. -/
theorem deleteNode_leaves_edge :
    (deleteNode pair.1 pair.2 2).1.edgesAt 0 = [{ source := 0, destin := 1, valofEdge := 7 }]
    ∧ find (deleteNode pair.1 pair.2 2).2.node_cont 1 = some 0
    ∧ (deleteNode pair.1 pair.2 2).1.lock 1 = none
    ∧ ¬ NoDangling (deleteNode pair.1 pair.2 2).1 (deleteNode pair.1 pair.2 2).2 := by
  decide

/-- C12 at two failing inputs.  In the graph with nodes 1, 2 and the edge
1 → 2 of weight 7, `deleteEdge(1,2,7)` erases the edge through the loop
iterator and then increments the invalidated iterator.  In the graph left by
`addNode` of 1, 2, 3, `addEdge(1,2,7)` and `deleteNode(2)`, the values 1 and 3
are nodes and there is no edge 1 → 3, yet `deleteEdge(1,3,7)` is no silent
no-op: it dereferences the expired destination of the edge left behind. -/
theorem deleteEdge_faults :
    isNode pair.2 1 = true ∧ isNode pair.2 2 = true ∧ hasEdge pair.1 pair.2 1 2 7 = true
    ∧ (deleteEdge pair.1 pair.2 1 2 7).1 = .error .fault
    ∧ isNode tripleCut.2 1 = true ∧ isNode tripleCut.2 3 = true
    ∧ hasEdge tripleCut.1 tripleCut.2 1 3 7 = false
    ∧ (deleteEdge tripleCut.1 tripleCut.2 1 3 7).1 = .error .fault := by
  decide

/-- C13 at a failing input.  The calls `addNode` of 1, 2, 3, `addEdge(3,1,7)`,
`addEdge(3,2,7)` and `mergeReplace(1,2)` all return normally, and afterwards
the edge set of node 3 holds two edges to node 2 of weight 7: `mergeReplace`
retargets the edge 3 → 1 without looking for the edge 3 → 2. -/
theorem mergeReplace_duplicates :
    ∃ s, runCalls Sample.start
        [Call.addNode 1, Call.addNode 2, Call.addNode 3, Call.addEdge 3 1 7,
          Call.addEdge 3 2 7, Call.mergeReplace 1 2] = some s
      ∧ isNode s.2 3 = true
      ∧ s.1.edgesAt 2 = [{ source := 2, destin := 1, valofEdge := 7 },
                          { source := 2, destin := 1, valofEdge := 7 }]
      ∧ ¬ UniqueEdges s.1 s.2 :=
  ⟨_, rfl, by decide, by decide, by decide⟩

/-- C15 at a failing input.  In the graph `g` with nodes 1 and 2 and no edge,
`isConnected(1,2)` is false, also after a copy `c` has been constructed from
`g`.  After `c.addEdge(1,2,7)` on the copy, `g.isConnected(1,2)` is true and
`g` has the edge 1 → 2 of weight 7: the copy holds the node objects of `g`. -/
theorem copyConstruct_shares :
    (isConnected two.1 two.2 1 2).1 = .ok false
    ∧ (isConnected twoCopy.1 two.2 1 2).1 = .ok false
    ∧ twoCopy.2.node_cont = two.2.node_cont
    ∧ (addEdge twoCopy.1 twoCopy.2 1 2 7).1 = .ok true
    ∧ (isConnected (addEdge twoCopy.1 twoCopy.2 1 2 7).2.1 two.2 1 2).1 = .ok true
    ∧ hasEdge twoCopy.1 two.2 1 2 7 = false
    ∧ hasEdge (addEdge twoCopy.1 twoCopy.2 1 2 7).2.1 two.2 1 2 7 = true := by
  decide

/-- C18 fails.  For the node 1 of the graph with nodes 1, 2 and no edge,
`printEdges(1)` writes two lines, the header and `(null)`, not the single
line `(null)`; and for the node 3 of the graph `busy` the first line is the
header, not a line `destination weight`. -/
theorem printEdges_header :
    isNode two.2 1 = true ∧ two.1.edgesAt 0 = [] ∧ find two.2.node_cont 1 = some 0
    ∧ (printEdges two.1 two.2 1).2.1 = [Line.header 1, Line.null]
    ∧ (printEdges two.1 two.2 1).2.1 ≠ [Line.null]
    ∧ (printEdges busy.1 busy.2 3).2.1 = [Line.header 3, Line.edge 1 7, Line.edge 2 7] := by
  decide

/-- C14 at a failing input.  In the graph `g` with nodes 1, 2 and the edge
1 → 2 of weight 7, the assignment `g = g` returns normally; afterwards 1 and
2 are still nodes, but the edge is gone and no node has an edge: the first
loop has put a fresh node without edges in the place of every node before the
second loop looks for the edges to copy. -/
theorem copyAssign_self_loses :
    WF pair.1 pair.2 ∧ hasEdge pair.1 pair.2 1 2 7 = true
    ∧ ∃ s, copyAssign 3 pair.1 pair.2 none = some (.ok (), s)
        ∧ isNode s.2 1 = true ∧ isNode s.2 2 = true
        ∧ hasEdge s.1 s.2 1 2 7 = false
        ∧ ∀ kp ∈ s.2.node_cont, s.1.edgesAt kp.2 = [] :=
  ⟨by decide, by decide, _, rfl, by decide, by decide, by decide, by decide⟩

/-- Copy assignment from another graph at samples.  Assigning the graph `busy`
to a default constructed graph, and assigning the graph `pair` to a copy
constructed from it, gives the target the node values and the edges of the
source, on node objects of its own. -/
theorem copyAssign_other_keeps :
    (∃ s, copyAssign 4 busy.1 Graph.empty (some busy.2) = some (.ok (), s)
        ∧ s.2.node_cont.map Prod.fst = busy.2.node_cont.map Prod.fst
        ∧ (∀ x ∈ [1, 2, 3], ∀ y ∈ [1, 2, 3], ∀ w ∈ [4, 7, 9],
            hasEdge s.1 s.2 x y w = hasEdge busy.1 busy.2 x y w)
        ∧ (∀ q ∈ s.2.node_cont.map Prod.snd, q ∉ busy.2.node_cont.map Prod.snd)
        ∧ WF s.1 s.2)
    ∧ (∃ s, copyAssign 3 pairCopy.1 pairCopy.2 (some pair.2) = some (.ok (), s)
        ∧ s.2.node_cont.map Prod.fst = pair.2.node_cont.map Prod.fst
        ∧ hasEdge s.1 s.2 1 2 7 = true
        ∧ (∀ q ∈ s.2.node_cont.map Prod.snd, q ∉ pair.2.node_cont.map Prod.snd)
        ∧ WF s.1 s.2) :=
  ⟨⟨_, rfl, by decide, by decide, by decide, by decide⟩,
    ⟨_, rfl, by decide, by decide, by decide, by decide⟩⟩

/-- C20 at two failing inputs.  In the well-formed graph with nodes 1, 2 and
the edge 1 → 2, `mergeReplace(2,2)` erases the node 2 and then faults on the
lookup of the value 3.  In the graph left by `addNode` of 1, 2, 3,
`addEdge(1,2,7)` and `deleteNode(2)`, `mergeReplace(3,3)` dereferences the
expired destination of the edge left in node 1 and 3 is still a node. -/
theorem mergeReplace_self_faults :
    WF pair.1 pair.2 ∧ isNode pair.2 2 = true
    ∧ (mergeReplace pair.1 pair.2 2 2).1 = .error .fault
    ∧ isNode tripleCut.2 3 = true
    ∧ (mergeReplace tripleCut.1 tripleCut.2 3 3).1 = .error .fault
    ∧ isNode (mergeReplace tripleCut.1 tripleCut.2 3 3).2.2 3 = true := by
  decide

/-- Copy assignment from a source with an edge to a removed node, at samples.
From the graph left by `addNode` of 1, 2, 3, `addEdge(1,2,7)` and
`deleteNode(2)`, whose edge has an expired destination, the assignment to a
default constructed graph returns normally and yields the nodes 1 and 3
without an edge.  When a graph copy constructed before the `deleteNode(2)`
keeps the node object of 2 alive, the destination of the edge is not expired,
the lookup of its value 2 in the target ends at `end()`, and the assignment
dereferences it. -/
theorem copyAssign_removed :
    (∃ s, copyAssign 3 tripleCut.1 Graph.empty (some tripleCut.2) = some (.ok (), s)
        ∧ s.2.node_cont.map Prod.fst = [1, 3]
        ∧ ∀ kp ∈ s.2.node_cont, s.1.edgesAt kp.2 = [])
    ∧ isNode (deleteNode pairCopy.1 pair.2 2).2 2 = false
    ∧ (deleteNode pairCopy.1 pair.2 2).1.valueAt 1 = some 2
    ∧ (copyAssign 2 (deleteNode pairCopy.1 pair.2 2).1 Graph.empty
          (some (deleteNode pairCopy.1 pair.2 2).2)).map Prod.fst = some (.error .fault) :=
  ⟨⟨_, rfl, by decide, by decide⟩, by decide, by decide, by decide⟩

/-- C7 at a failing input.  In the well-formed graph with nodes 1 and 2 and
the edge 2 → 1 of weight 7, the two different values 1 and 2 are nodes, yet
`mergeReplace(1,2)` does not return: after it has retargeted the edge and
erased node 1 it looks up the value 3, which is no node, and dereferences the
end iterator. -/
theorem mergeReplace_incoming_fault :
    WF back.1 back.2 ∧ Alive back.1 back.2
    ∧ isNode back.2 1 = true ∧ isNode back.2 2 = true
    ∧ hasEdge back.1 back.2 2 1 7 = true
    ∧ (mergeReplace back.1 back.2 1 2).1 = .error .fault := by
  decide

/-- C8 at a failing input.  In the well-formed graph with nodes 1, 2, 4 and
the edges 1 → 4 of weight 7 and 4 → 1 of weight 5, the two different values 1
and 2 are nodes, yet `mergeReplace(1,2)` does not return: after it has moved
the edges and erased node 1 it looks up the value 3, which is no node, and
dereferences the end iterator. -/
theorem mergeReplace_triples_fault :
    WF ring.1 ring.2 ∧ Alive ring.1 ring.2
    ∧ isNode ring.2 1 = true ∧ isNode ring.2 2 = true
    ∧ hasEdge ring.1 ring.2 1 4 7 = true ∧ hasEdge ring.1 ring.2 4 1 5 = true
    ∧ (mergeReplace ring.1 ring.2 1 2).1 = .error .fault := by
  decide

end evaluations

end gdwg
